import Mathlib

/-!
Verification of the pdf-to-llm-converter core against its specification.

The Python sources are shallowly embedded:
* coordinates are rational numbers,
* page numbers and heading levels are natural numbers,
* `str` values are `String`,
* functions that can raise return `Except`/`Option`.

Each embedded definition carries a comment naming the source function it
models (file and symbol from `src/pdf_to_llm_converter/`).
-/

/-- Models `models.PageClassification` (enum with three values). -/
inductive PageClassification where
  | native_text
  | scanned
  | mixed
  deriving DecidableEq, Repr

/-- Models the `(x0, y0, x1, y1)` bounding-box tuples used throughout the code. -/
structure BBox where
  x0 : ℚ
  y0 : ℚ
  x1 : ℚ
  y1 : ℚ
  deriving DecidableEq, Repr

/-- Models `models.TextBlock`. -/
structure TextBlock where
  text : String
  bbox : BBox
  block_type : String
  deriving DecidableEq, Repr

/-- Models `models.Table`. -/
structure Table where
  rows : List (List String)
  deriving DecidableEq, Repr

/-- Models `models.ExtractedContent`. -/
structure ExtractedContent where
  body_text : String
  headers : List String
  footers : List String
  tables : List Table
  reading_order_blocks : List TextBlock
  deriving DecidableEq, Repr

/-- Models `models.PageContent`. -/
structure PageContent where
  page_number : Nat
  classification : PageClassification
  content : ExtractedContent
  ocr_confidence : Option ℚ
  deriving DecidableEq, Repr

/-- Models `models.DocumentSection` (a recursive dataclass, hence a nested
inductive here). -/
inductive DocumentSection : Type where
  | mk (title : String) (level : Nat) (content : String)
       (page_start : Nat) (page_end : Nat)
       (subsections : List DocumentSection) : DocumentSection
  deriving Repr

def DocumentSection.title : DocumentSection → String
  | .mk t _ _ _ _ _ => t

def DocumentSection.level : DocumentSection → Nat
  | .mk _ l _ _ _ _ => l

def DocumentSection.content : DocumentSection → String
  | .mk _ _ c _ _ _ => c

def DocumentSection.page_start : DocumentSection → Nat
  | .mk _ _ _ ps _ _ => ps

def DocumentSection.page_end : DocumentSection → Nat
  | .mk _ _ _ _ pe _ => pe

def DocumentSection.subsections : DocumentSection → List DocumentSection
  | .mk _ _ _ _ _ ss => ss

@[simp] theorem DocumentSection.title_mk (t l c ps pe ss) :
    (DocumentSection.mk t l c ps pe ss).title = t := rfl

@[simp] theorem DocumentSection.level_mk (t l c ps pe ss) :
    (DocumentSection.mk t l c ps pe ss).level = l := rfl

@[simp] theorem DocumentSection.content_mk (t l c ps pe ss) :
    (DocumentSection.mk t l c ps pe ss).content = c := rfl

@[simp] theorem DocumentSection.page_start_mk (t l c ps pe ss) :
    (DocumentSection.mk t l c ps pe ss).page_start = ps := rfl

@[simp] theorem DocumentSection.page_end_mk (t l c ps pe ss) :
    (DocumentSection.mk t l c ps pe ss).page_end = pe := rfl

@[simp] theorem DocumentSection.subsections_mk (t l c ps pe ss) :
    (DocumentSection.mk t l c ps pe ss).subsections = ss := rfl

/-- Models `models.Document`. -/
structure Document where
  sections : List DocumentSection
  pages : List PageContent
  deriving Repr

/-- Models `models.ProcessingConfig`.  `chunk_size` is an `Int` because the
Python code explicitly checks `chunk_size <= 0`. -/
structure ProcessingConfig where
  chunk_size : Int
  ocr_threshold : ℚ
  verbose : Bool

/-- Models `models.ProcessingSummary`. -/
structure ProcessingSummary where
  total_pages : Nat
  pages_processed : Nat
  pages_skipped : Nat
  warnings : List String
  processing_time_seconds : ℚ

/-- Models `models.OCRResult`. -/
structure OCRResult where
  text : String
  confidence : ℚ
  blocks : List TextBlock

/-- Models `models.PageRange`; the exclusive bound is called `end` in the
Python dataclass, renamed `stop` because `end` is a Lean keyword. -/
structure PageRange where
  start : Nat
  stop : Nat
  deriving DecidableEq, Repr

/-!
## Section hierarchy builder

`PDFProcessor._build_section_hierarchy` (pdf_processor.py lines 274-299) and
`MarkdownConverter._build_section_hierarchy` (markdown_converter.py lines
298-325) are two textually identical copies of the same algorithm.  The Python
version mutates `DocumentSection` objects in place: when a section is pushed it
is appended to its parent's `subsections` list (aliasing the object on the
stack), and the parent's `page_end` is extended.  The embedding makes the
aliasing explicit by keeping frames of not-yet-finalised sections on the
stack; a frame is materialised into a `DocumentSection` at the moment it is
popped, which is observationally the point after which the Python object can
no longer change.  Appending a child at pop time produces the same child order
as Python's append-at-push, because the stack discipline finalises children in
push order.
-/

/-- A stack entry of the in-progress tree: the fields of a section together
with the children accumulated so far (the Python object's mutable state). -/
structure BuildFrame where
  title : String
  level : Nat
  content : String
  page_start : Nat
  page_end : Nat
  children : List DocumentSection
  deriving Repr

namespace ProcHier

/-- Turn an incoming flat section into a stack frame. -/
def mkFrame (s : DocumentSection) : BuildFrame :=
  ⟨s.title, s.level, s.content, s.page_start, s.page_end, s.subsections⟩

/-- Materialise a frame into the final `DocumentSection` object. -/
def finalizeFrame (f : BuildFrame) : DocumentSection :=
  .mk f.title f.level f.content f.page_start f.page_end f.children

/-- The cascade of `stack.pop()` steps: `child` has just been popped; attach
it to the frame below (the Python append happened at push time through
aliasing), and keep popping while the loop condition `top.level >= level`
holds.  When the stack runs out the popped section is a forest root. -/
def attachDown (level : Nat) (child : DocumentSection) :
    List BuildFrame → List DocumentSection →
    List BuildFrame × List DocumentSection
  | [], roots => ([], roots ++ [child])
  | g :: rest, roots =>
    let g2 : BuildFrame := { g with children := g.children ++ [child] }
    if level ≤ g2.level then attachDown level (finalizeFrame g2) rest roots
    else (g2 :: rest, roots)

/-- Models the `while stack and stack[-1].level >= section.level: stack.pop()`
loop. -/
def popGE (level : Nat) :
    List BuildFrame → List DocumentSection →
    List BuildFrame × List DocumentSection
  | [], roots => ([], roots)
  | f :: rest, roots =>
    if level ≤ f.level then attachDown level (finalizeFrame f) rest roots
    else (f :: rest, roots)

/-- One iteration of the `for section in flat_sections` loop. -/
def buildStep (st : List BuildFrame × List DocumentSection)
    (s : DocumentSection) : List BuildFrame × List DocumentSection :=
  match popGE s.level st.1 st.2 with
  | (g :: rest, roots) =>
    let g2 := if g.page_end < s.page_end then { g with page_end := s.page_end }
              else g
    (mkFrame s :: g2 :: rest, roots)
  | ([], roots) => ([mkFrame s], roots)

/-- Models `PDFProcessor._build_section_hierarchy` (pdf_processor.py 274-299).
After the loop the whole stack is drained (every object is final once the
function returns), which corresponds to `popGE 0`. -/
def buildSectionHierarchy (flat : List DocumentSection) :
    List DocumentSection :=
  match flat with
  | [] => []
  | _ =>
    let st := flat.foldl buildStep ([], [])
    (popGE 0 st.1 st.2).2

end ProcHier

namespace MdHier

/-- Turn an incoming flat section into a stack frame. -/
def mkFrame (s : DocumentSection) : BuildFrame :=
  ⟨s.title, s.level, s.content, s.page_start, s.page_end, s.subsections⟩

/-- Materialise a frame into the final `DocumentSection` object. -/
def finalizeFrame (f : BuildFrame) : DocumentSection :=
  .mk f.title f.level f.content f.page_start f.page_end f.children

/-- Pop cascade, as in `ProcHier.attachDown`. -/
def attachDown (level : Nat) (child : DocumentSection) :
    List BuildFrame → List DocumentSection →
    List BuildFrame × List DocumentSection
  | [], roots => ([], roots ++ [child])
  | g :: rest, roots =>
    let g2 : BuildFrame := { g with children := g.children ++ [child] }
    if level ≤ g2.level then attachDown level (finalizeFrame g2) rest roots
    else (g2 :: rest, roots)

/-- Models the pop-while loop of the markdown converter's copy. -/
def popGE (level : Nat) :
    List BuildFrame → List DocumentSection →
    List BuildFrame × List DocumentSection
  | [], roots => ([], roots)
  | f :: rest, roots =>
    if level ≤ f.level then attachDown level (finalizeFrame f) rest roots
    else (f :: rest, roots)

/-- One iteration of the section loop of the markdown converter's copy. -/
def buildStep (st : List BuildFrame × List DocumentSection)
    (s : DocumentSection) : List BuildFrame × List DocumentSection :=
  match popGE s.level st.1 st.2 with
  | (g :: rest, roots) =>
    let g2 := if g.page_end < s.page_end then { g with page_end := s.page_end }
              else g
    (mkFrame s :: g2 :: rest, roots)
  | ([], roots) => ([mkFrame s], roots)

/-- Models `MarkdownConverter._build_section_hierarchy`
(markdown_converter.py 298-325). -/
def buildSectionHierarchy (flat : List DocumentSection) :
    List DocumentSection :=
  match flat with
  | [] => []
  | _ =>
    let st := flat.foldl buildStep ([], [])
    (popGE 0 st.1 st.2).2

end MdHier

section HierSanity

example :
    ProcHier.buildSectionHierarchy
      [.mk "H1" 1 "" 1 1 [], .mk "H2" 2 "" 2 2 [], .mk "H3" 2 "" 3 3 []] =
      [.mk "H1" 1 "" 1 3 [.mk "H2" 2 "" 2 2 [], .mk "H3" 2 "" 3 3 []]] := rfl

example :
    ProcHier.buildSectionHierarchy
      [.mk "A" 2 "" 1 1 [], .mk "B" 1 "" 2 2 []] =
      [.mk "A" 2 "" 1 1 [], .mk "B" 1 "" 2 2 []] := rfl

example :
    ProcHier.buildSectionHierarchy
      [.mk "A" 1 "" 1 1 [], .mk "B" 2 "" 1 1 [], .mk "C" 3 "" 5 5 []] =
      [.mk "A" 1 "" 1 1 [.mk "B" 2 "" 1 5 [.mk "C" 3 "" 5 5 []]]] := rfl

end HierSanity

/-!
## Claim C2: page ranges in the built hierarchy

`InTree n r` says that `n` is a node of the tree rooted at `r` (the root
itself or a node of some subtree).
-/

/-- Membership of a node in a section tree. -/
inductive InTree : DocumentSection → DocumentSection → Prop where
  | refl (s : DocumentSection) : InTree s s
  | child {n c r : DocumentSection} :
      c ∈ r.subsections → InTree n c → InTree n r

/-- The page-range soundness that the builder actually guarantees for a tree:
every node satisfies `page_start ≤ page_end`, and every node's `page_end`
covers the `page_start` of each of its immediate children. -/
def TreeOK (r : DocumentSection) : Prop :=
  ∀ n, InTree n r →
    n.page_start ≤ n.page_end ∧
    ∀ c ∈ n.subsections, c.page_start ≤ n.page_end

namespace ProcHier

/-- Invariant of a single stack frame during hierarchy construction. -/
def FrameOK (f : BuildFrame) : Prop :=
  f.page_start ≤ f.page_end ∧
  ∀ c ∈ f.children, TreeOK c ∧ c.page_start ≤ f.page_end

/-- Invariant of the builder stack: every frame is sound and each frame's
`page_start` is covered by the `page_end` of the frame below it (established
when the frame was pushed, and preserved because `page_end` only grows). -/
def StackOK : List BuildFrame → Prop
  | [] => True
  | f :: rest =>
    FrameOK f ∧
    (∀ g gs, rest = g :: gs → f.page_start ≤ g.page_end) ∧
    StackOK rest

theorem treeOK_finalizeFrame {f : BuildFrame} (hf : FrameOK f) :
    TreeOK (finalizeFrame f) := by
  intro n hn
  cases hn with
  | refl =>
    refine ⟨hf.1, ?_⟩
    intro c hc
    exact (hf.2 c hc).2
  | child hc hn2 =>
    exact (hf.2 _ hc).1 n hn2

theorem attachDown_inv (level : Nat) (child : DocumentSection)
    (stack : List BuildFrame) (roots : List DocumentSection)
    (hs : StackOK stack) (hr : ∀ r ∈ roots, TreeOK r) (hc : TreeOK child)
    (hadj : ∀ g gs, stack = g :: gs → child.page_start ≤ g.page_end) :
    StackOK (attachDown level child stack roots).1 ∧
    (∀ r ∈ (attachDown level child stack roots).2, TreeOK r) := by
  induction stack generalizing child roots with
  | nil =>
    refine ⟨trivial, ?_⟩
    intro r hrr
    simp only [attachDown, List.mem_append, List.mem_singleton] at hrr
    rcases hrr with h | h
    · exact hr r h
    · subst h; exact hc
  | cons g rest ih =>
    obtain ⟨hg, hgadj, hrest⟩ := hs
    have hg2 : FrameOK { g with children := g.children ++ [child] } := by
      refine ⟨hg.1, ?_⟩
      intro c hcc
      simp only [List.mem_append, List.mem_singleton] at hcc
      rcases hcc with h | h
      · exact hg.2 c h
      · subst h
        exact ⟨hc, hadj g rest rfl⟩
    simp only [attachDown]
    by_cases hlev : level ≤ g.level
    · simp only [hlev, if_true]
      refine ih (finalizeFrame { g with children := g.children ++ [child] })
        roots hrest hr (treeOK_finalizeFrame hg2) ?_
      intro h hs2 hx
      subst hx
      exact hgadj h hs2 rfl
    · simp only [hlev, if_false]
      exact ⟨⟨hg2, hgadj, hrest⟩, hr⟩

theorem popGE_inv (level : Nat)
    (stack : List BuildFrame) (roots : List DocumentSection)
    (hs : StackOK stack) (hr : ∀ r ∈ roots, TreeOK r) :
    StackOK (popGE level stack roots).1 ∧
    (∀ r ∈ (popGE level stack roots).2, TreeOK r) := by
  cases stack with
  | nil => exact ⟨trivial, hr⟩
  | cons f rest =>
    obtain ⟨hf, hfadj, hrest⟩ := hs
    simp only [popGE]
    by_cases hlev : level ≤ f.level
    · simp only [hlev, if_true]
      exact attachDown_inv level (finalizeFrame f) rest roots hrest hr
        (treeOK_finalizeFrame hf) (fun g gs hx => hfadj g gs hx)
    · simp only [hlev, if_false]
      exact ⟨⟨hf, hfadj, hrest⟩, hr⟩

theorem stackOK_pe_mono {g : BuildFrame} {rest : List BuildFrame} {pe2 : Nat}
    (hs : StackOK (g :: rest)) (hpe : g.page_end ≤ pe2) :
    StackOK ({ g with page_end := pe2 } :: rest) := by
  obtain ⟨hg, hgadj, hrest⟩ := hs
  refine ⟨⟨le_trans hg.1 hpe, ?_⟩, hgadj, hrest⟩
  intro c hc
  exact ⟨(hg.2 c hc).1, le_trans (hg.2 c hc).2 hpe⟩

theorem buildStep_inv (st : List BuildFrame × List DocumentSection)
    (s : DocumentSection)
    (hs : StackOK st.1) (hr : ∀ r ∈ st.2, TreeOK r)
    (hin : s.subsections = [] ∧ s.page_start ≤ s.page_end) :
    StackOK (buildStep st s).1 ∧ (∀ r ∈ (buildStep st s).2, TreeOK r) := by
  have hpop := popGE_inv s.level st.1 st.2 hs hr
  have hmk : FrameOK (mkFrame s) := by
    refine ⟨hin.2, ?_⟩
    intro c hc
    simp only [mkFrame, hin.1] at hc
    cases hc
  simp only [buildStep]
  rcases hpg : popGE s.level st.1 st.2 with ⟨stack2, roots2⟩
  rw [hpg] at hpop
  cases stack2 with
  | nil =>
    refine ⟨⟨hmk, ?_, trivial⟩, hpop.2⟩
    intro g gs h
    cases h
  | cons g rest =>
    by_cases hcmp : g.page_end < s.page_end
    · simp only [hcmp, if_true]
      refine ⟨⟨hmk, ?_, stackOK_pe_mono hpop.1 (le_of_lt hcmp)⟩, hpop.2⟩
      intro g2 gs h
      cases h
      exact le_trans hin.2 (le_refl _)
    · simp only [hcmp, if_false]
      refine ⟨⟨hmk, ?_, hpop.1⟩, hpop.2⟩
      intro g2 gs h
      cases h
      exact le_trans hin.2 (Nat.le_of_not_lt hcmp)

theorem foldl_buildStep_inv (flat : List DocumentSection)
    (st : List BuildFrame × List DocumentSection)
    (hflat : ∀ s ∈ flat, s.subsections = [] ∧ s.page_start ≤ s.page_end)
    (hs : StackOK st.1) (hr : ∀ r ∈ st.2, TreeOK r) :
    StackOK (flat.foldl buildStep st).1 ∧
    (∀ r ∈ (flat.foldl buildStep st).2, TreeOK r) := by
  induction flat generalizing st with
  | nil => exact ⟨hs, hr⟩
  | cons s rest ih =>
    have h1 := buildStep_inv st s hs hr (hflat s (List.mem_cons_self s rest))
    exact ih (buildStep st s) (fun x hx => hflat x (List.mem_cons_of_mem s hx))
      h1.1 h1.2

theorem buildSectionHierarchy_treeOK (flat : List DocumentSection)
    (hflat : ∀ s ∈ flat, s.subsections = [] ∧ s.page_start ≤ s.page_end) :
    ∀ r ∈ buildSectionHierarchy flat, TreeOK r := by
  cases flat with
  | nil => intro r hr; cases hr
  | cons s rest =>
    have hfold := foldl_buildStep_inv (s :: rest) ([], []) hflat trivial
      (by intro r hr; cases hr)
    have hdrain := popGE_inv 0 ((s :: rest).foldl buildStep ([], [])).1
      ((s :: rest).foldl buildStep ([], [])).2 hfold.1 hfold.2
    intro r hr
    exact hdrain.2 r hr

end ProcHier

/-- Flat input for the counterexample: three well-formed heading sections of
levels 1, 2, 3 starting on pages 1, 1, 5. -/
def c2flat : List DocumentSection :=
  [.mk "A" 1 "" 1 1 [], .mk "B" 2 "" 1 1 [], .mk "C" 3 "" 5 5 []]

/-- The tree the builder actually produces on `c2flat`: the level-3 section
extends its immediate parent to page 5, but the root keeps `page_end = 1`. -/
def c2out : DocumentSection :=
  .mk "A" 1 "" 1 1 [.mk "B" 2 "" 1 5 [.mk "C" 3 "" 5 5 []]]

/-- C2 (counterexample): the claim as stated is false.  On the flat input
`A (level 1, pages 1-1)`, `B (level 2, pages 1-1)`, `C (level 3, pages 5-5)`
the builder extends only the immediate parent `B` to `page_end = 5`; the
root `A` keeps `page_end = 1`, strictly below the `page_end = 5` of its
descendants, so the extension is not propagated transitively. -/
theorem c2_counterexample :
    ¬ (∀ flat : List DocumentSection,
        (∀ s ∈ flat, s.subsections = [] ∧ s.page_start ≤ s.page_end) →
        ∀ r ∈ ProcHier.buildSectionHierarchy flat,
          ∀ n, InTree n r →
            n.page_start ≤ n.page_end ∧
            ∀ d, InTree d n → d.page_end ≤ n.page_end) := by
  intro h
  have hb : ProcHier.buildSectionHierarchy c2flat = [c2out] := rfl
  have hwf : ∀ s ∈ c2flat, s.subsections = [] ∧ s.page_start ≤ s.page_end := by
    intro s hs
    simp only [c2flat, List.mem_cons, List.not_mem_nil, or_false] at hs
    rcases hs with h1 | h1 | h1 <;> subst h1 <;> exact ⟨rfl, by decide⟩
  have hroot : c2out ∈ ProcHier.buildSectionHierarchy c2flat := by
    rw [hb]; exact List.mem_singleton_self _
  have hB : InTree (DocumentSection.mk "B" 2 "" 1 5 [.mk "C" 3 "" 5 5 []]) c2out := by
    refine InTree.child ?_ (InTree.refl _)
    simp [c2out]
  have := (h c2flat hwf c2out hroot c2out (InTree.refl _)).2 _ hB
  simp only [c2out, DocumentSection.page_end_mk] at this
  omega

/-- C2 (amended): for flat inputs of fresh sections (empty `subsections`,
`page_start ≤ page_end`), every node `n` of every tree returned by the
builder satisfies `page_start ≤ page_end`, and `n.page_end` covers the
`page_start` of each immediate child (each child extended `n.page_end` to at
least the child's `page_end` as it stood at attachment time).  The extension
is not propagated past the immediate parent, so `page_end` need not reach the
maximum `page_end` over all descendants. -/
theorem c2_pageEnd_amended (flat : List DocumentSection)
    (hflat : ∀ s ∈ flat, s.subsections = [] ∧ s.page_start ≤ s.page_end) :
    ∀ r ∈ ProcHier.buildSectionHierarchy flat,
      ∀ n, InTree n r →
        n.page_start ≤ n.page_end ∧
        ∀ c ∈ n.subsections, c.page_start ≤ n.page_end := by
  intro r hr n hn
  exact ProcHier.buildSectionHierarchy_treeOK flat hflat r hr n hn

/-- Witness for C2: instantiating the amended theorem on a concrete
three-section input and reading off the guarantee for the root node. -/
theorem c2_pageEnd_amended_witness :
    (∀ s ∈ c2flat, s.subsections = [] ∧ s.page_start ≤ s.page_end) ∧
    (c2out.page_start ≤ c2out.page_end ∧
      ∀ c ∈ c2out.subsections, c.page_start ≤ c2out.page_end) := by
  have hwf : ∀ s ∈ c2flat, s.subsections = [] ∧ s.page_start ≤ s.page_end := by
    intro s hs
    simp only [c2flat, List.mem_cons, List.not_mem_nil, or_false] at hs
    rcases hs with h1 | h1 | h1 <;> subst h1 <;> exact ⟨rfl, by decide⟩
  refine ⟨hwf, ?_⟩
  exact c2_pageEnd_amended c2flat hwf c2out
    (by rw [(rfl : ProcHier.buildSectionHierarchy c2flat = [c2out])]
        exact List.mem_singleton_self _)
    c2out (InTree.refl _)

theorem mkFrame_eq : ProcHier.mkFrame = MdHier.mkFrame := rfl

theorem finalizeFrame_eq : ProcHier.finalizeFrame = MdHier.finalizeFrame := rfl

theorem attachDown_eq (stack : List BuildFrame) :
    ∀ (level : Nat) (child : DocumentSection) (roots : List DocumentSection),
      ProcHier.attachDown level child stack roots =
      MdHier.attachDown level child stack roots := by
  induction stack with
  | nil => intro level child roots; rfl
  | cons g rest ih =>
    intro level child roots
    simp only [ProcHier.attachDown, MdHier.attachDown]
    by_cases h : level ≤ g.level
    · simp only [h, if_true, ih, finalizeFrame_eq]
    · simp only [h, if_false]

theorem popGE_eq (level : Nat) (stack : List BuildFrame)
    (roots : List DocumentSection) :
    ProcHier.popGE level stack roots = MdHier.popGE level stack roots := by
  cases stack with
  | nil => rfl
  | cons f rest =>
    simp only [ProcHier.popGE, MdHier.popGE, attachDown_eq, finalizeFrame_eq]

theorem buildStep_eq : ProcHier.buildStep = MdHier.buildStep := by
  funext st s
  simp only [ProcHier.buildStep, MdHier.buildStep, popGE_eq, mkFrame_eq]

/-- C6: the orchestrator's section-hierarchy builder and the codec's
section-hierarchy builder are extensionally equal: on every flat input they
return the same forest. -/
theorem c6_builders_agree :
    ∀ flat : List DocumentSection,
      ProcHier.buildSectionHierarchy flat = MdHier.buildSectionHierarchy flat := by
  intro flat
  cases flat with
  | nil => rfl
  | cons s rest =>
    simp only [ProcHier.buildSectionHierarchy, MdHier.buildSectionHierarchy,
      buildStep_eq, popGE_eq]

/-!
## String helpers shared by the embeddings

Python's `str.strip()` is modelled by `pyStrip`, stripping the characters
Python's `\s` class covers in the ASCII range.
-/

/-- Character class of Python's `\s` (ASCII range). -/
def isPySpace (c : Char) : Bool :=
  c == ' ' || c == '\t' || c == '\n' || c == '\r' || c == '\x0b' || c == '\x0c'

/-- Strip `isPySpace` characters from both ends of a character list. -/
def pyStripList (l : List Char) : List Char :=
  ((l.dropWhile isPySpace).reverse.dropWhile isPySpace).reverse

/-- Models Python `str.strip()`. -/
def pyStrip (s : String) : String :=
  String.mk (pyStripList s.toList)

/-!
## Content merger (content_merger.py)
-/

namespace ContentMerger

/-- Models `content_merger._bbox_area` (lines 6-10). -/
def bboxArea (b : BBox) : ℚ :=
  max 0 (b.x1 - b.x0) * max 0 (b.y1 - b.y0)

/-- Models `content_merger._intersection_area` (lines 13-24). -/
def intersectionArea (a b : BBox) : ℚ :=
  max 0 (min a.x1 b.x1 - max a.x0 b.x0) * max 0 (min a.y1 b.y1 - max a.y0 b.y0)

/-- Models `content_merger._overlap_ratio` (lines 27-40). -/
def overlapRatio (a b : BBox) : ℚ :=
  let area_a := bboxArea a
  let area_b := bboxArea b
  if area_a = 0 ∨ area_b = 0 then 0
  else intersectionArea a b / min area_a area_b

/-- The deduplication test of `ContentMerger.merge`: an OCR block is kept
when no native block overlaps it by strictly more than one half.  The inner
`for`/`break` loop is `List.any`. -/
def keepOcrBlock (native_blocks : List TextBlock) (ob : TextBlock) : Bool :=
  ! native_blocks.any fun nb => decide ((1 : ℚ)/2 < overlapRatio nb.bbox ob.bbox)

/-- Models `ContentMerger.merge` (content_merger.py 46-87). -/
def merge (native : ExtractedContent) (ocr : OCRResult) : ExtractedContent :=
  let native_blocks := native.reading_order_blocks
  let new_ocr_blocks := ocr.blocks.filter (keepOcrBlock native_blocks)
  let merged_blocks := native_blocks ++ new_ocr_blocks
  let ocr_extra_text := String.intercalate "\n"
    ((new_ocr_blocks.filter fun b => ! (pyStrip b.text == "")).map TextBlock.text)
  let merged_body :=
    if native.body_text != "" && ocr_extra_text != "" then
      native.body_text ++ "\n" ++ ocr_extra_text
    else if ocr_extra_text != "" then ocr_extra_text
    else native.body_text
  { body_text := merged_body
    headers := native.headers
    footers := native.footers
    tables := native.tables
    reading_order_blocks := merged_blocks }

end ContentMerger

theorem not_any_eq_decide_not_exists {α : Type} (l : List α) (r : α → Prop)
    [DecidablePred r] :
    (! l.any fun x => decide (r x)) = decide (¬ ∃ x ∈ l, r x) := by
  by_cases h : ∃ x ∈ l, r x
  · have h1 : l.any (fun x => decide (r x)) = true := by
      rcases h with ⟨x, hx, hr⟩
      exact List.any_eq_true.mpr ⟨x, hx, decide_eq_true hr⟩
    simp [h1, h]
  · have h1 : l.any (fun x => decide (r x)) = false := by
      rw [← Bool.not_eq_true, List.any_eq_true]
      rintro ⟨x, hx, hr⟩
      exact h ⟨x, hx, of_decide_eq_true hr⟩
    simp [h1, h]

/-- C3: `ContentMerger.merge` discards an OCR block exactly when some native
block overlaps it with ratio strictly above one half; the survivors keep
their original order after all native blocks; and the overlap ratio is zero
whenever either box has zero area. -/
theorem c3_merge_dedup (native : ExtractedContent) (ocr : OCRResult) :
    ((ContentMerger.merge native ocr).reading_order_blocks =
      native.reading_order_blocks ++
        ocr.blocks.filter fun ob =>
          decide (¬ ∃ nb ∈ native.reading_order_blocks,
            (1 : ℚ)/2 < ContentMerger.overlapRatio nb.bbox ob.bbox)) ∧
    (∀ a b : BBox,
      ContentMerger.bboxArea a = 0 ∨ ContentMerger.bboxArea b = 0 →
      ContentMerger.overlapRatio a b = 0) := by
  constructor
  · show native.reading_order_blocks ++ _ = native.reading_order_blocks ++ _
    congr 1
    apply List.filter_congr
    intro ob _
    exact not_any_eq_decide_not_exists native.reading_order_blocks _
  · intro a b h
    simp only [ContentMerger.overlapRatio, h, if_true]

def c3nativeBlock : TextBlock := ⟨"native", ⟨0, 0, 10, 10⟩, "paragraph"⟩

def c3native : ExtractedContent := ⟨"body", [], [], [], [c3nativeBlock]⟩

def c3dupBlock : TextBlock := ⟨"dup", ⟨4, 0, 14, 10⟩, "paragraph"⟩

def c3keepBlock : TextBlock := ⟨"keep", ⟨8, 0, 18, 10⟩, "paragraph"⟩

def c3ocr : OCRResult := ⟨"ocr", 9/10, [c3dupBlock, c3keepBlock]⟩

/-- Witness for C3: on the overlap example of the specification (ratios 0.6
and 0.2 against the native box), the 0.6 block is discarded and the 0.2
block survives after the native block, and a degenerate box yields ratio 0. -/
theorem ratio_dup_example :
    ContentMerger.overlapRatio ⟨0, 0, 10, 10⟩ ⟨4, 0, 14, 10⟩ = 3/5 := by
  norm_num [ContentMerger.overlapRatio, ContentMerger.bboxArea,
    ContentMerger.intersectionArea, max_def, min_def]

theorem ratio_keep_example :
    ContentMerger.overlapRatio ⟨0, 0, 10, 10⟩ ⟨8, 0, 18, 10⟩ = 1/5 := by
  norm_num [ContentMerger.overlapRatio, ContentMerger.bboxArea,
    ContentMerger.intersectionArea, max_def, min_def]

/-- Witness for C3: on the overlap example of the specification (ratios 0.6
and 0.2 against the native box), the 0.6 block is discarded and the 0.2
block survives after the native block, and a degenerate box yields ratio 0. -/
theorem c3_merge_dedup_witness :
    (ContentMerger.merge c3native c3ocr).reading_order_blocks =
      [c3nativeBlock, c3keepBlock] ∧
    ContentMerger.overlapRatio ⟨0, 0, 0, 0⟩ ⟨0, 0, 10, 10⟩ = 0 := by
  constructor
  · rw [(c3_merge_dedup c3native c3ocr).1]
    simp only [c3native, c3ocr, List.filter, List.mem_singleton,
      exists_eq_left, c3nativeBlock, c3dupBlock, c3keepBlock,
      ratio_dup_example, ratio_keep_example]
    norm_num
  · exact (c3_merge_dedup c3native c3ocr).2 ⟨0, 0, 0, 0⟩ ⟨0, 0, 10, 10⟩
      (Or.inl (by norm_num [ContentMerger.bboxArea, max_def]))

namespace ContentMerger

/-- The OCR blocks that survive deduplication, read off the merged output:
everything after the native blocks. -/
def survivingOcr (native : ExtractedContent) (ocr : OCRResult) : List TextBlock :=
  (merge native ocr).reading_order_blocks.drop native.reading_order_blocks.length

/-- The newline-joined text of the surviving OCR blocks whose text is not
whitespace-only (the code filters on `block.text.strip()`). -/
def survivingOcrText (native : ExtractedContent) (ocr : OCRResult) : String :=
  String.intercalate "\n"
    (((survivingOcr native ocr).filter fun b => ! (pyStrip b.text == "")).map
      TextBlock.text)

theorem survivingOcr_eq (native : ExtractedContent) (ocr : OCRResult) :
    survivingOcr native ocr =
      ocr.blocks.filter (keepOcrBlock native.reading_order_blocks) := by
  simp only [survivingOcr, merge]
  exact List.drop_left _ _

end ContentMerger

/-- C9 (amended): the merged body text is the native body text, a newline,
and the newline-joined text of the surviving OCR blocks whose text is not
whitespace-only; with the native body empty that joined text alone is the
body; and when no non-whitespace OCR text survives the native body passes
through unchanged. -/
theorem c9_merged_body_amended (native : ExtractedContent) (ocr : OCRResult) :
    ((native.body_text ≠ "" ∧ ContentMerger.survivingOcrText native ocr ≠ "") →
      (ContentMerger.merge native ocr).body_text =
        native.body_text ++ "\n" ++ ContentMerger.survivingOcrText native ocr) ∧
    (native.body_text = "" →
      (ContentMerger.merge native ocr).body_text =
        ContentMerger.survivingOcrText native ocr) ∧
    (ContentMerger.survivingOcrText native ocr = "" →
      (ContentMerger.merge native ocr).body_text = native.body_text) := by
  have hs : ContentMerger.survivingOcrText native ocr =
      String.intercalate "\n"
        (((ocr.blocks.filter
            (ContentMerger.keepOcrBlock native.reading_order_blocks)).filter
          fun b => ! (pyStrip b.text == "")).map TextBlock.text) := by
    rw [ContentMerger.survivingOcrText, ContentMerger.survivingOcr_eq]
  have hbody : (ContentMerger.merge native ocr).body_text =
      (if native.body_text != "" &&
          ContentMerger.survivingOcrText native ocr != "" then
        native.body_text ++ "\n" ++ ContentMerger.survivingOcrText native ocr
      else if ContentMerger.survivingOcrText native ocr != "" then
        ContentMerger.survivingOcrText native ocr
      else native.body_text) := by
    rw [hs]; rfl
  refine ⟨?_, ?_, ?_⟩
  · rintro ⟨h1, h2⟩
    rw [hbody, if_pos]
    simp only [Bool.and_eq_true, bne_iff_ne, ne_eq]
    exact ⟨h1, h2⟩
  · intro h1
    rw [hbody]
    simp only [h1, bne_self_eq_false, Bool.false_and, if_false, Bool.false_eq_true]
    by_cases h2 : ContentMerger.survivingOcrText native ocr = ""
    · simp [h2]
    · simp only [bne_iff_ne, ne_eq, h2, not_false_eq_true, if_true]
  · intro h1
    rw [hbody]
    simp [h1]

def c9native : ExtractedContent := ⟨"n", [], [], [], []⟩

def c9emptyNative : ExtractedContent := ⟨"", [], [], [], []⟩

def c9spaceBlock : TextBlock := ⟨" ", ⟨0, 0, 1, 1⟩, "paragraph"⟩

def c9ocr : OCRResult := ⟨" ", 1, [c9spaceBlock]⟩

/-- C9 (counterexample): a surviving OCR block whose text is the single
space survives deduplication (it is in the merged block list), so the
newline-joined text of the surviving OCR blocks is a non-empty string, yet
the merged body text drops it entirely: with native body `"n"` the code
returns `"n"` rather than the claimed `"n" ++ newline ++ " "`, and with an
empty native body it returns `""` rather than the claimed `" "`. -/
theorem c9_counterexample :
    (ContentMerger.merge c9native c9ocr).reading_order_blocks = [c9spaceBlock] ∧
    String.intercalate "\n" ([c9spaceBlock].map TextBlock.text) = " " ∧
    (ContentMerger.merge c9native c9ocr).body_text = "n" ∧
    (ContentMerger.merge c9native c9ocr).body_text ≠
      c9native.body_text ++ "\n" ++ " " ∧
    (ContentMerger.merge c9emptyNative c9ocr).reading_order_blocks =
      [c9spaceBlock] ∧
    (ContentMerger.merge c9emptyNative c9ocr).body_text = "" := by
  refine ⟨rfl, rfl, rfl, ?_, rfl, rfl⟩
  intro h
  exact absurd h (by decide)

def c9wBlock : TextBlock := ⟨"a", ⟨0, 0, 1, 1⟩, "paragraph"⟩

def c9wOcr : OCRResult := ⟨"a", 1, [c9wBlock]⟩

/-- Witness for C9: a native body and one clean surviving OCR block produce
the concatenation with a newline between them. -/
theorem c9_merged_body_amended_witness :
    (ContentMerger.merge c9native c9wOcr).body_text = "n\na" := by
  have hs : ContentMerger.survivingOcrText c9native c9wOcr = "a" := rfl
  have h := (c9_merged_body_amended c9native c9wOcr).1
    (by rw [hs]; exact ⟨by simp [c9native], by simp⟩)
  rw [h, hs]
  rfl

/-!
## Chunk manager (chunk_manager.py)
-/

namespace ChunkManager

/-- The `for start in range(0, total_pages, chunk_size)` loop body of
`iter_chunks`: from `start`, emit `PageRange(start, min(start + chunk_size,
total_pages))` while `start < total_pages`, stepping by `chunk_size`. -/
def chunkLoop (total c start : Nat) : List PageRange :=
  if h : start < total ∧ 0 < c then
    ⟨start, min (start + c) total⟩ :: chunkLoop total c (start + c)
  else []
termination_by total - start
decreasing_by omega

/-- Models `ChunkManager.iter_chunks` (chunk_manager.py 39-64) as a function
of the page count (`get_page_count` merely reads that number from the file).
A non-positive `chunk_size` raises `ValueError` before any range is
produced. -/
def iterChunks (total_pages : Nat) (chunk_size : Int) :
    Except String (List PageRange) :=
  if chunk_size ≤ 0 then
    .error ("chunk_size must be positive, got " ++ toString chunk_size)
  else .ok (chunkLoop total_pages chunk_size.toNat 0)

/-- Each range starts where the previous one ended, beginning at `n`. -/
def contiguousFrom : Nat → List PageRange → Prop
  | _, [] => True
  | n, r :: rest => r.start = n ∧ contiguousFrom r.stop rest

theorem chunkLoop_spec (total c : Nat) (hc : 0 < c) :
    ∀ (fuel start : Nat), total - start ≤ fuel →
      ((chunkLoop total c start).flatMap
          (fun r => List.range' r.start (r.stop - r.start)) =
        List.range' start (total - start)) ∧
      contiguousFrom start (chunkLoop total c start) ∧
      (∀ r ∈ chunkLoop total c start,
        r.start < r.stop ∧ r.stop - r.start ≤ c) ∧
      (chunkLoop total c start).length = (total - start + c - 1) / c := by
  intro fuel
  induction fuel with
  | zero =>
    intro start hle
    have hge : ¬ (start < total ∧ 0 < c) := by omega
    rw [chunkLoop, dif_neg hge]
    have h0 : total - start = 0 := by omega
    refine ⟨by simp [h0], trivial, by simp, ?_⟩
    simp only [List.length_nil, h0, Nat.zero_add]
    exact (Nat.div_eq_of_lt (by omega)).symm
  | succ n ih =>
    intro start hle
    by_cases hlt : start < total
    · rw [chunkLoop, dif_pos ⟨hlt, hc⟩]
      obtain ⟨h1, h2, h3, h4⟩ := ih (start + c) (by omega)
      refine ⟨?_, ⟨rfl, ?_⟩, ?_, ?_⟩
      · simp only [List.flatMap_cons, h1]
        have hmin : min (start + c) total - start = min c (total - start) := by
          omega
        rcases le_or_lt (start + c) total with hca | hca
        · have hm : min (start + c) total = start + c := by omega
          rw [hm]
          have := List.range'_append start c (total - (start + c)) 1
          simp only [one_mul, Nat.mul_one] at this
          rw [show start + c - start = c by omega, this]
          congr 1
          omega
        · have hm : min (start + c) total = total := by omega
          rw [hm]
          have hz : total - (start + c) = 0 := by omega
          rw [hz]
          simp [List.range', show total - start + 0 = total - start by omega]
      · rcases le_or_lt (start + c) total with hca | hca
        · have hm : min (start + c) total = start + c := by omega
          rw [show (PageRange.mk start (min (start + c) total)).stop =
            min (start + c) total from rfl, hm]
          exact h2
        · have hstop : chunkLoop total c (start + c) = [] := by
            rw [chunkLoop, dif_neg (by omega)]
          rw [show (PageRange.mk start (min (start + c) total)).stop =
            min (start + c) total from rfl, hstop]
          trivial
      · intro r hr
        rcases List.mem_cons.mp hr with h | h
        · subst h
          constructor
          · show start < min (start + c) total
            omega
          · show min (start + c) total - start ≤ c
            omega
        · exact h3 r h
      · simp only [List.length_cons, h4]
        have ht : 1 ≤ total - start := by omega
        rcases le_or_lt c (total - start) with hca | hca
        · have e1 : total - (start + c) + c - 1 = total - start - 1 := by omega
          have e2 : total - start + c - 1 = (total - start - 1) + c := by omega
          rw [e1, e2, Nat.add_div_right _ hc]
        · have e1 : total - (start + c) = 0 := by omega
          have e2 : total - start + c - 1 = (total - start - 1) + c := by omega
          rw [e1, e2, Nat.add_div_right _ hc]
          rw [Nat.div_eq_of_lt (by omega), Nat.div_eq_of_lt (by omega)]
    · rw [chunkLoop, dif_neg (by omega)]
      have h0 : total - start = 0 := by omega
      refine ⟨by simp [h0], trivial, by simp, ?_⟩
      simp only [List.length_nil, h0, Nat.zero_add]
      exact (Nat.div_eq_of_lt (by omega)).symm

end ChunkManager

/-- C4: for a positive chunk size the produced ranges partition the page
index space: concatenating them yields exactly `[0, N)` in order (so they
are disjoint, contiguous and complete), each range starts where the previous
ended, is non-empty and spans at most `C` pages, and there are exactly
`ceil(N / C)` of them; a non-positive chunk size fails with the
configuration error before producing any range. -/
theorem c4_chunk_ranges (N : Nat) (C : Int) :
    (0 < C → ∃ l, ChunkManager.iterChunks N C = .ok l ∧
      (l.flatMap (fun r => List.range' r.start (r.stop - r.start)) =
        List.range N) ∧
      ChunkManager.contiguousFrom 0 l ∧
      (∀ r ∈ l, r.start < r.stop ∧ r.stop - r.start ≤ C.toNat) ∧
      l.length = (N + C.toNat - 1) / C.toNat) ∧
    (C ≤ 0 → ChunkManager.iterChunks N C =
      .error ("chunk_size must be positive, got " ++ toString C)) := by
  constructor
  · intro hC
    have hc : 0 < C.toNat := by omega
    refine ⟨ChunkManager.chunkLoop N C.toNat 0, ?_, ?_, ?_, ?_, ?_⟩
    · rw [ChunkManager.iterChunks, if_neg (by omega)]
    · have h := (ChunkManager.chunkLoop_spec N C.toNat hc N 0 (by omega)).1
      rw [h, Nat.sub_zero, List.range_eq_range']
    · exact (ChunkManager.chunkLoop_spec N C.toNat hc N 0 (by omega)).2.1
    · exact (ChunkManager.chunkLoop_spec N C.toNat hc N 0 (by omega)).2.2.1
    · have h := (ChunkManager.chunkLoop_spec N C.toNat hc N 0 (by omega)).2.2.2
      rw [h, Nat.sub_zero]
  · intro hC
    rw [ChunkManager.iterChunks, if_pos hC]

/-- Witness for C4: the specification's own example, a 7-page source with
chunk size 3, yields the ranges `[0,3), [3,6), [6,7)` (and `ceil(7/3) = 3`
of them); chunk size 0 fails with the configuration error. -/
theorem c4_chunk_ranges_witness :
    ChunkManager.iterChunks 7 3 = .ok [⟨0, 3⟩, ⟨3, 6⟩, ⟨6, 7⟩] ∧
    ([(⟨0, 3⟩ : PageRange), ⟨3, 6⟩, ⟨6, 7⟩].length = (7 + 3 - 1) / 3) ∧
    ChunkManager.iterChunks 7 0 =
      .error "chunk_size must be positive, got 0" := by
  have e3 : ChunkManager.chunkLoop 7 3 9 = [] := by
    rw [ChunkManager.chunkLoop, dif_neg (by omega)]
  have e2 : ChunkManager.chunkLoop 7 3 6 = [⟨6, 7⟩] := by
    rw [ChunkManager.chunkLoop, dif_pos (by omega)]
    norm_num [e3]
  have e1 : ChunkManager.chunkLoop 7 3 3 = [⟨3, 6⟩, ⟨6, 7⟩] := by
    rw [ChunkManager.chunkLoop, dif_pos (by omega)]
    norm_num [e2]
  have e0 : ChunkManager.chunkLoop 7 3 0 = [⟨0, 3⟩, ⟨3, 6⟩, ⟨6, 7⟩] := by
    rw [ChunkManager.chunkLoop, dif_pos (by omega)]
    norm_num [e1]
  have hok : ChunkManager.iterChunks 7 3 = .ok [⟨0, 3⟩, ⟨3, 6⟩, ⟨6, 7⟩] := by
    rw [ChunkManager.iterChunks, if_neg (by omega)]
    show Except.ok (ChunkManager.chunkLoop 7 3 0) = _
    rw [e0]
  refine ⟨hok, ?_, (c4_chunk_ranges 7 0).2 (by norm_num)⟩
  obtain ⟨l, hl, _, _, _, hlen⟩ := (c4_chunk_ranges 7 3).1 (by norm_num)
  have : l = [⟨0, 3⟩, ⟨3, 6⟩, ⟨6, 7⟩] := by
    have := hl.symm.trans hok
    exact Except.ok.inj this
  rw [← this, hlen]
  decide

/-!
## Pipeline orchestrator (pdf_processor.py)

External collaborators (page classifier, text extractor, OCR engine, PyMuPDF)
are abstracted by an oracle giving, for each 0-based page index, either the
results all external calls would return for that page or the exception raised
by the first failing call inside the per-page `try` block.
-/

/-- What the per-page `try` block of `PDFProcessor.process` observes for one
page: success carries the classification, the extracted content and the
confidence a second `ocr_page` call reports; failure carries the exception
text. -/
inductive PageOutcome where
  | success (classification : PageClassification) (content : ExtractedContent)
      (ocrConf : ℚ)
  | failure (cause : String)

namespace PDFProcessor

/-- Renders a confidence for the low-confidence warning, abstracting
Python's `f"{x:.2f}"` (two decimal places); no claim inspects these digits. -/
def fmtConf (q : ℚ) : String :=
  let n : Int := round (q * 100)
  let sign := if n < 0 then "-" else ""
  let m := n.natAbs
  let frac := m % 100
  sign ++ toString (m / 100) ++ "." ++
    (if frac < 10 then "0" else "") ++ toString frac

/-- Models `PDFProcessor._estimate_heading_level` (pdf_processor.py
254-272). -/
def estimateHeadingLevel (block : TextBlock) : Nat :=
  let text := (pyStrip block.text).toList
  if text.headD ' ' == '#' then
    let hashes := (text.takeWhile (fun c => c == '#')).length
    if 1 ≤ hashes ∧ hashes ≤ 6 then hashes else 1
  else 1

/-- Models `PDFProcessor._detect_sections` (pdf_processor.py 220-252). -/
def detectSections (pages : List PageContent) : List DocumentSection :=
  let flat := pages.flatMap fun page =>
    (page.content.reading_order_blocks.filter fun b =>
        b.block_type == "heading" && ! (pyStrip b.text == "")).map fun b =>
      DocumentSection.mk (pyStrip b.text) (estimateHeadingLevel b) ""
        page.page_number page.page_number []
  ProcHier.buildSectionHierarchy flat

/-- The body of the per-page `try` block (pdf_processor.py 125-192): either a
page plus any low-confidence warning, or no page plus the skip warning. -/
def processPage (cfg : ProcessingConfig) (outcome : PageOutcome)
    (page_num : Nat) : Option PageContent × List String :=
  match outcome with
  | .failure cause =>
    (none, ["Corrupted/unreadable page " ++ toString (page_num + 1) ++ ": " ++
      cause])
  | .success cls content conf =>
    let ocr_confidence : Option ℚ :=
      if cls = .scanned ∨ cls = .mixed then some conf else none
    let warns : List String :=
      if cls = .scanned ∨ cls = .mixed then
        if conf < cfg.ocr_threshold then
          ["Low OCR confidence on page " ++ toString (page_num + 1) ++ ": " ++
            fmtConf conf]
        else []
      else []
    (some ⟨page_num + 1, cls, content, ocr_confidence⟩, warns)

/-- Accumulation of one page into `(pages, warnings, pages_skipped)`. -/
def pageStep (cfg : ProcessingConfig) (oracle : Nat → PageOutcome)
    (acc : List PageContent × List String × Nat) (page_num : Nat) :
    List PageContent × List String × Nat :=
  match processPage cfg (oracle page_num) page_num with
  | (some pc, ws) => (acc.1 ++ [pc], acc.2.1 ++ ws, acc.2.2)
  | (none, ws) => (acc.1, acc.2.1 ++ ws, acc.2.2 + 1)

/-- Models `PDFProcessor.process` (pdf_processor.py 87-218).  `fileExists`
and `validPdf` abstract the two validation probes; `elapsed` is the
difference of the two monotonic-clock readings. -/
def process (pdf_path : String) (fileExists validPdf : Bool)
    (total_pages : Nat) (oracle : Nat → PageOutcome)
    (cfg : ProcessingConfig) (elapsed : ℚ) :
    Except String (Document × ProcessingSummary) :=
  if !fileExists then .error ("File not found: " ++ pdf_path)
  else if !validPdf then .error ("Not a valid PDF: " ++ pdf_path)
  else
    match ChunkManager.iterChunks total_pages cfg.chunk_size with
    | .error e => .error e
    | .ok ranges =>
      let st := ranges.foldl
        (fun acc r =>
          (List.range' r.start (r.stop - r.start)).foldl
            (pageStep cfg oracle) acc)
        ([], [], 0)
      .ok (⟨detectSections st.1, st.1⟩,
        ⟨total_pages, st.1.length, st.2.2, st.2.1, elapsed⟩)

theorem foldl_pages_spec (cfg : ProcessingConfig) (oracle : Nat → PageOutcome)
    (idx : List Nat) :
    ∀ acc : List PageContent × List String × Nat,
      ((idx.foldl (pageStep cfg oracle) acc).1.length +
          (idx.foldl (pageStep cfg oracle) acc).2.2 =
        acc.1.length + acc.2.2 + idx.length) ∧
      (∀ w ∈ acc.2.1, w ∈ (idx.foldl (pageStep cfg oracle) acc).2.1) ∧
      (∀ pc ∈ acc.1, pc ∈ (idx.foldl (pageStep cfg oracle) acc).1) ∧
      (∀ i ∈ idx,
        (∀ cls content conf, oracle i = .success cls content conf →
          ∃ pc ∈ (idx.foldl (pageStep cfg oracle) acc).1,
            pc.page_number = i + 1) ∧
        (∀ cause, oracle i = .failure cause →
          ("Corrupted/unreadable page " ++ toString (i + 1) ++ ": " ++ cause) ∈
            (idx.foldl (pageStep cfg oracle) acc).2.1)) := by
  induction idx with
  | nil =>
    intro acc
    exact ⟨by simp, fun w hw => hw, fun pc hpc => hpc, by simp⟩
  | cons i rest ih =>
    intro acc
    simp only [List.foldl_cons]
    obtain ⟨ihlen, ihw, ihp, ihmem⟩ := ih (pageStep cfg oracle acc i)
    have hstep : (pageStep cfg oracle acc i).1.length +
          (pageStep cfg oracle acc i).2.2 = acc.1.length + acc.2.2 + 1 ∧
        (∀ w ∈ acc.2.1, w ∈ (pageStep cfg oracle acc i).2.1) ∧
        (∀ pc ∈ acc.1, pc ∈ (pageStep cfg oracle acc i).1) := by
      rw [pageStep]
      cases houtcome : oracle i with
      | success cls content conf =>
        simp only [processPage]
        refine ⟨by simp only [List.length_append, List.length_cons,
          List.length_nil]; omega, ?_, ?_⟩
        · intro w hw; simp [hw]
        · intro pc hpc; simp [hpc]
      | failure cause =>
        simp only [processPage]
        refine ⟨by omega, ?_, ?_⟩
        · intro w hw; simp [hw]
        · intro pc hpc; exact hpc
    obtain ⟨hlen1, hw1, hp1⟩ := hstep
    refine ⟨by simp only [List.length_cons]; omega, ?_, ?_, ?_⟩
    · intro w hw
      exact ihw w (hw1 w hw)
    · intro pc hpc
      exact ihp pc (hp1 pc hpc)
    · intro j hj
      rcases List.mem_cons.mp hj with hj | hj
      · subst hj
        constructor
        · intro cls content conf hsucc
          refine ⟨⟨j + 1, cls, content,
            if cls = .scanned ∨ cls = .mixed then some conf else none⟩,
            ?_, rfl⟩
          apply ihp
          simp only [pageStep, hsucc, processPage]
          simp
        · intro cause hfail
          apply ihw
          simp only [pageStep, hfail, processPage]
          simp
      · exact ihmem j hj

theorem foldl_ranges_eq (cfg : ProcessingConfig) (oracle : Nat → PageOutcome)
    (ranges : List PageRange)
    (init : List PageContent × List String × Nat) :
    ranges.foldl
      (fun acc r =>
        (List.range' r.start (r.stop - r.start)).foldl
          (pageStep cfg oracle) acc) init =
    (ranges.flatMap fun r => List.range' r.start (r.stop - r.start)).foldl
      (pageStep cfg oracle) init := by
  induction ranges generalizing init with
  | nil => rfl
  | cons r rest ih =>
    simp only [List.foldl_cons, List.flatMap_cons, List.foldl_append, ih]

end PDFProcessor

/-- C5: a run whose validation succeeds completes with a summary in which
`pages_processed + pages_skipped = total_pages` and a non-negative processing
time, and each page index below the page count either contributes a
`PageContent` carrying its 1-based page number (when its external calls
succeed) or is skipped with a warning naming that page number and the
failure cause (when they raise), processing continuing either way. -/
theorem c5_per_page_recovery (pdf_path : String) (total_pages : Nat)
    (oracle : Nat → PageOutcome) (cfg : ProcessingConfig) (elapsed : ℚ)
    (hchunk : 0 < cfg.chunk_size) (helapsed : 0 ≤ elapsed) :
    ∃ doc summary,
      PDFProcessor.process pdf_path true true total_pages oracle cfg elapsed =
        .ok (doc, summary) ∧
      summary.total_pages = total_pages ∧
      summary.pages_processed + summary.pages_skipped = summary.total_pages ∧
      0 ≤ summary.processing_time_seconds ∧
      ∀ i, i < total_pages →
        (∀ cls content conf, oracle i = .success cls content conf →
          ∃ pc ∈ doc.pages, pc.page_number = i + 1) ∧
        (∀ cause, oracle i = .failure cause →
          ("Corrupted/unreadable page " ++ toString (i + 1) ++ ": " ++ cause) ∈
            summary.warnings) := by
  have hc : 0 < cfg.chunk_size.toNat := by omega
  have hcov := (ChunkManager.chunkLoop_spec total_pages cfg.chunk_size.toNat hc
    total_pages 0 (by omega)).1
  rw [Nat.sub_zero, ← List.range_eq_range'] at hcov
  have hfold := PDFProcessor.foldl_ranges_eq cfg oracle
    (ChunkManager.chunkLoop total_pages cfg.chunk_size.toNat 0) ([], [], 0)
  rw [hcov] at hfold
  obtain ⟨hlen, _, _, hmem⟩ :=
    PDFProcessor.foldl_pages_spec cfg oracle (List.range total_pages)
      ([], [], 0)
  set st := List.foldl
    (fun acc r =>
      List.foldl (PDFProcessor.pageStep cfg oracle) acc
        (List.range' r.start (r.stop - r.start)))
    (([], [], 0) : List PageContent × List String × Nat)
    (ChunkManager.chunkLoop total_pages cfg.chunk_size.toNat 0) with hstdef
  refine ⟨⟨PDFProcessor.detectSections st.1, st.1⟩,
    ⟨total_pages, st.1.length, st.2.2, st.2.1, elapsed⟩,
    ?_, rfl, ?_, helapsed, ?_⟩
  · rw [PDFProcessor.process]
    simp only [Bool.not_true, Bool.false_eq_true, if_false]
    rw [ChunkManager.iterChunks, if_neg (by omega : ¬ cfg.chunk_size ≤ 0)]
  · show st.1.length + st.2.2 = total_pages
    rw [hfold]
    simp only [List.length_nil, List.length_range, Nat.zero_add] at hlen
    exact hlen
  · intro i hi
    constructor
    · intro cls content conf hsucc
      show ∃ pc ∈ st.1, pc.page_number = i + 1
      rw [hfold]
      exact (hmem i (List.mem_range.mpr hi)).1 cls content conf hsucc
    · intro cause hfail
      show _ ∈ st.2.1
      rw [hfold]
      exact (hmem i (List.mem_range.mpr hi)).2 cause hfail

def c5cfg : ProcessingConfig := ⟨1, 7/10, false⟩

def c5oracle : Nat → PageOutcome := fun i =>
  if i = 0 then .success .native_text ⟨"", [], [], [], []⟩ 1
  else .failure "boom"

/-- Witness for C5: a 2-page run with chunk size 1 where page 1 succeeds and
page 2 raises, instantiating the theorem with its hypotheses discharged. -/
theorem c5_per_page_recovery_witness :
    (0 : Int) < c5cfg.chunk_size ∧ (0 : ℚ) ≤ 0 ∧
    ∃ doc summary,
      PDFProcessor.process "doc.pdf" true true 2 c5oracle c5cfg 0 =
        .ok (doc, summary) ∧
      summary.total_pages = 2 ∧
      summary.pages_processed + summary.pages_skipped = summary.total_pages ∧
      0 ≤ summary.processing_time_seconds ∧
      ∀ i, i < 2 →
        (∀ cls content conf, c5oracle i = .success cls content conf →
          ∃ pc ∈ doc.pages, pc.page_number = i + 1) ∧
        (∀ cause, c5oracle i = .failure cause →
          ("Corrupted/unreadable page " ++ toString (i + 1) ++ ": " ++ cause) ∈
            summary.warnings) :=
  ⟨by norm_num [c5cfg], le_refl 0,
    c5_per_page_recovery "doc.pdf" 2 c5oracle c5cfg 0
      (by norm_num [c5cfg]) (le_refl 0)⟩

/-!
## Markdown codec (markdown_converter.py)

Python strings are modelled as `List Char` inside the codec; `String` is
used at the data-model boundary.  Lines never contain a newline character
(they come from `split("\n")`), which is what the regex dot relies on.
-/

/-- Models Python `"\n".join` / `str.split` walking on character lists:
split at every occurrence of `sep`, keeping empty pieces. -/
def splitOnChar (sep : Char) : List Char → List (List Char)
  | [] => [[]]
  | c :: rest =>
    if c = sep then [] :: splitOnChar sep rest
    else
      match splitOnChar sep rest with
      | [] => [[c]]
      | g :: gs => (c :: g) :: gs

/-- Joins pieces with a separator character (Python `sep.join`). -/
def intercalateChar (sep : Char) : List (List Char) → List Char
  | [] => []
  | [l] => l
  | l :: rest => l ++ sep :: intercalateChar sep rest

/-- Consume an exact literal prefix, returning the remainder. -/
def dropLitPre : List Char → List Char → Option (List Char)
  | [], l => some l
  | _ :: _, [] => none
  | p :: ps, c :: cs => if c = p then dropLitPre ps cs else none

/-- Leftmost occurrence of a literal: `findLit pat l = some (pre, rest)` when
`l = pre ++ pat ++ rest` with `pat` not occurring earlier. -/
def findLit (pat : List Char) : List Char → Option (List Char × List Char)
  | [] => match dropLitPre pat [] with
    | some rest => some ([], rest)
    | none => none
  | c :: cs =>
    match dropLitPre pat (c :: cs) with
    | some rest => some ([], rest)
    | none =>
      match findLit pat cs with
      | some (pre, rest) => some (c :: pre, rest)
      | none => none

theorem dropLitPre_length : ∀ (pat l rest : List Char),
    dropLitPre pat l = some rest → pat.length + rest.length = l.length := by
  intro pat
  induction pat with
  | nil => intro l rest h; cases h; simp
  | cons p ps ih =>
    intro l rest h
    cases l with
    | nil => cases h
    | cons c cs =>
      simp only [dropLitPre] at h
      by_cases hc : c = p
      · rw [if_pos hc] at h
        have := ih cs rest h
        simp [← this]
        omega
      · rw [if_neg hc] at h
        cases h

theorem length_dropWhileLe {α : Type} (p : α → Bool) :
    ∀ l : List α, (l.dropWhile p).length ≤ l.length := by
  intro l
  induction l with
  | nil => simp [List.dropWhile]
  | cons c cs ih =>
    simp only [List.dropWhile]
    by_cases h : p c
    · simp only [h]
      exact Nat.le_succ_of_le ih
    · simp [h]

theorem findLit_length : ∀ (pat l pre rest : List Char),
    findLit pat l = some (pre, rest) →
    pre.length + pat.length + rest.length = l.length := by
  intro pat l
  induction l with
  | nil =>
    intro pre rest h
    simp only [findLit] at h
    cases hd : dropLitPre pat [] with
    | none => simp only [hd] at h; cases h
    | some r =>
      have h2 := dropLitPre_length pat [] r hd
      simp only [hd] at h
      cases h
      simp only [List.length_nil] at h2 ⊢
      omega
  | cons c cs ih =>
    intro pre rest h
    simp only [findLit] at h
    cases hd : dropLitPre pat (c :: cs) with
    | some r =>
      have h2 := dropLitPre_length pat (c :: cs) r hd
      simp only [hd] at h
      cases h
      simp only [List.length_nil, List.length_cons] at h2 ⊢
      omega
    | none =>
      simp only [hd] at h
      cases hf : findLit pat cs with
      | none => simp only [hf] at h; cases h
      | some pr =>
        have h2 := ih pr.1 pr.2 (by rw [hf])
        simp only [hf] at h
        cases h
        simp only [List.length_cons] at h2 ⊢
        omega

namespace MarkdownConverter

/-- Digit run at the front of the marker body. -/
def digitsToNat (ds : List Char) : Nat :=
  ds.foldl (fun acc c => acc * 10 + (c.toNat - '0'.toNat)) 0

/-- Try to read `<!-- page: (\d+) -->` at the very start of `l` (greedy digit
run followed by the closing literal, exactly as the regex matches). -/
def tryPageMarker (l : List Char) : Option (Nat × List Char) :=
  match dropLitPre "<!-- page: ".toList l with
  | none => none
  | some r1 =>
    let ds := r1.takeWhile Char.isDigit
    if ds.isEmpty then none
    else
      match dropLitPre " -->".toList (r1.dropWhile Char.isDigit) with
      | none => none
      | some r2 => some (digitsToNat ds, r2)

/-- Leftmost page-marker occurrence, as `re.split` finds it. -/
def findPageMarker : List Char → Option (List Char × Nat × List Char)
  | [] => none
  | c :: cs =>
    match tryPageMarker (c :: cs) with
    | some (n, rest) => some ([], n, rest)
    | none =>
      match findPageMarker cs with
      | some (pre, n, rest) => some (c :: pre, n, rest)
      | none => none

theorem tryPageMarker_length (l : List Char) (n : Nat) (rest : List Char)
    (h : tryPageMarker l = some (n, rest)) : rest.length < l.length := by
  simp only [tryPageMarker] at h
  cases hd : dropLitPre "<!-- page: ".toList l with
  | none => simp only [hd] at h; cases h
  | some r1 =>
    have h1 := dropLitPre_length _ _ _ hd
    simp only [hd] at h
    by_cases hds : (r1.takeWhile Char.isDigit).isEmpty
    · simp only [hds, if_true] at h; cases h
    · simp only [hds, if_false] at h
      cases hd2 : dropLitPre " -->".toList (r1.dropWhile Char.isDigit) with
      | none => simp only [hd2] at h; cases h
      | some r2 =>
        have h2 := dropLitPre_length _ _ _ hd2
        simp only [hd2] at h
        cases h
        have h3 : (r1.dropWhile Char.isDigit).length ≤ r1.length :=
          length_dropWhileLe _ _
        simp only [List.length_cons] at h1 h2 ⊢
        have h4 : 0 < "<!-- page: ".toList.length := by decide
        omega

theorem findPageMarker_length : ∀ (l pre : List Char) (n : Nat)
    (rest : List Char), findPageMarker l = some (pre, n, rest) →
    rest.length < l.length := by
  intro l
  induction l with
  | nil => intro pre n rest h; cases h
  | cons c cs ih =>
    intro pre n rest h
    simp only [findPageMarker] at h
    cases ht : tryPageMarker (c :: cs) with
    | some nr =>
      simp only [ht] at h
      cases h
      exact tryPageMarker_length _ _ _ (by rw [ht])
    | none =>
      simp only [ht] at h
      cases hf : findPageMarker cs with
      | none => simp only [hf] at h; cases h
      | some pnr =>
        obtain ⟨pre2, n2, rest2⟩ := pnr
        have h2 := ih pre2 n2 rest2 (by rw [hf])
        simp only [hf] at h
        cases h
        simp only [List.length_cons]
        omega

/-- After a page marker for page `n`, the chunk for `n` runs until the next
marker (or the end); models the pairing loop of `_split_by_pages`.  The fuel
only bounds the recursion (each marker consumes characters); the wrapper
passes enough for it never to run out. -/
def collectPagesF : Nat → Nat → List Char → List (Nat × List Char)
  | 0, n, l => [(n, l)]
  | fuel + 1, n, l =>
    match findPageMarker l with
    | none => [(n, l)]
    | some (pre, n2, rest) => (n, pre) :: collectPagesF fuel n2 rest

/-- Models `MarkdownConverter._split_by_pages` (markdown_converter.py
109-121): content before the first marker is dropped. -/
def splitByPages (l : List Char) : List (Nat × List Char) :=
  match findPageMarker l with
  | none => []
  | some (_, n, rest) => collectPagesF (l.length + 1) n rest

/-- One `re.sub` elimination step per fuel unit; models
`MarkdownConverter._strip_toc` (markdown_converter.py 91-98): `re.sub`
removes every leftmost non-overlapping match of
`<!-- toc -->.*?<!-- /toc -->\s*` (DOTALL, lazy, so the block runs to the
first closing sentinel, and trailing whitespace is consumed greedily). -/
def stripTocF : Nat → List Char → List Char
  | 0, l => l
  | fuel + 1, l =>
    match findLit "<!-- toc -->".toList l with
    | none => l
    | some (pre, afterOpen) =>
      match findLit "<!-- /toc -->".toList afterOpen with
      | none => l
      | some (_, afterClose) =>
        pre ++ stripTocF fuel (afterClose.dropWhile isPySpace)

/-- The `_strip_toc` entry point, with enough fuel for the whole input. -/
def stripToc (l : List Char) : List Char :=
  stripTocF (l.length + 1) l

end MarkdownConverter

section ScanSanity

example :
    MarkdownConverter.splitByPages
      "a<!-- page: 12 -->bc<!-- page: 3 -->".toList =
    [(12, "bc".toList), (3, [])] := by decide

example :
    MarkdownConverter.stripToc
      "<!-- toc -->\nx\n<!-- /toc -->\n\nrest".toList = "rest".toList := by
  decide

end ScanSanity

namespace MarkdownConverter

/-- Python `not line.strip()`. -/
def isBlankL (l : List Char) : Bool := (pyStripList l).isEmpty

/-- Models `re.match(r"^<!-- section: (.+?) -->$", line)` on a line without
newlines: with both anchors fixed the lazy group is forced, so the line
matches exactly when it is `<!-- section: ` ++ title ++ ` -->` with a
non-empty title. -/
def sectionMarkerTitle (l : List Char) : Option (List Char) :=
  if l.take 14 = "<!-- section: ".toList ∧ 19 ≤ l.length ∧
      l.drop (l.length - 4) = " -->".toList then
    some ((l.drop 14).take (l.length - 18))
  else none

/-- Leading run of `#` characters. -/
def hashCount (l : List Char) : Nat := (l.takeWhile fun c => c == '#').length

/-- Models `re.match(r"^(#{1,6})\s+(.+)$", line)` on a newline-free line:
1 to 6 hashes, then at least one whitespace character, then at least one
more character (the lazy/greedy split never affects the hash count). -/
def headingFullMatch (l : List Char) : Option Nat :=
  let k := hashCount l
  match l.drop k with
  | c1 :: _ :: _ => if 1 ≤ k ∧ k ≤ 6 ∧ isPySpace c1 then some k else none
  | _ => none

/-- Models `re.match(r"^#{1,6}\s+", line)`. -/
def headingBreakMatch (l : List Char) : Bool :=
  let k := hashCount l
  match l.drop k with
  | c1 :: _ => decide (1 ≤ k ∧ k ≤ 6) && isPySpace c1
  | [] => false

/-- Models `re.match(r"^(\s*)- (.+)$", line)`: whitespace indent, the
literal dash-space, then a non-empty item text. -/
def listItemMatchL (l : List Char) : Option (Nat × List Char) :=
  match l.dropWhile isPySpace with
  | '-' :: ' ' :: t =>
    if t.isEmpty then none else some ((l.takeWhile isPySpace).length, t)
  | _ => none

/-- Models `re.match(r"^(\s*)- ", line)` (no text required after the dash). -/
def listBreakMatchL (l : List Char) : Bool :=
  match l.dropWhile isPySpace with
  | '-' :: ' ' :: _ => true
  | _ => false

/-- Python `line.strip().startswith("|")`. -/
def isTableLineL (l : List Char) : Bool :=
  match pyStripList l with
  | '|' :: _ => true
  | _ => false

/-- Models `re.match(r"^<!-- (section:|page:)", next_line.strip())`. -/
def markerStartL (l : List Char) : Bool :=
  let s := pyStripList l
  decide (s.take 13 = "<!-- section:".toList) ||
    decide (s.take 10 = "<!-- page:".toList)

/-- Models `re.match(r"^-+$", c)`: a non-empty all-dash cell. -/
def isDashRun (c : List Char) : Bool :=
  ! c.isEmpty && c.all fun d => d == '-'

/-- Python `line.strip("|")`: strip pipe characters from both ends. -/
def stripPipesEnds (l : List Char) : List Char :=
  ((l.dropWhile fun c => c == '|').reverse.dropWhile fun c => c == '|').reverse

/-- Models `MarkdownConverter._parse_table` (markdown_converter.py 283-296).
Input lines are already whitespace-stripped by the caller. -/
def parseTable (lines : List (List Char)) : Option Table :=
  if lines.length < 2 then none
  else
    let rows := lines.enum.filterMap fun p =>
      let cells := (splitOnChar '|' (stripPipesEnds p.2)).map pyStripList
      if p.1 == 1 && cells.all (fun c => c.isEmpty || isDashRun c) then none
      else some (cells.map String.mk)
    if rows.isEmpty then none else some ⟨rows⟩

/-!
### Section extraction (`_parse_sections_from_chunk`)

The Python index loop is a line-at-a-time state machine: `scan` looks for a
section comment, `afterMarker` skips blank lines looking for a heading, and
`inContent` accumulates the free-text content until the next marker-like
line, which is then re-examined exactly as the outer loop would.
-/

/-- Parser state of `_parse_sections_from_chunk`. -/
inductive SecMode where
  | scan
  | afterMarker (title : List Char)
  | inContent (title : List Char) (level : Nat) (acc : List (List Char))

/-- Close a section record: content lines are newline-joined and stripped. -/
def secFinish (pageNumber : Nat) (title : List Char) (level : Nat)
    (contentLines : List (List Char)) : DocumentSection :=
  .mk (String.mk title) level
    (String.mk (pyStripList (intercalateChar '\n' contentLines)))
    pageNumber pageNumber []

/-- Processing a line in scan position: a full section-comment line opens a
section, anything else is kept in the remaining text. -/
def secScanLine (line : List Char)
    (acc : List DocumentSection × List (List Char)) :
    SecMode × List DocumentSection × List (List Char) :=
  match sectionMarkerTitle (pyStripList line) with
  | some title => (.afterMarker title, acc.1, acc.2)
  | none => (.scan, acc.1, acc.2 ++ [line])

/-- One line of the `_parse_sections_from_chunk` loop. -/
def secStep (pageNumber : Nat)
    (st : SecMode × List DocumentSection × List (List Char))
    (line : List Char) : SecMode × List DocumentSection × List (List Char) :=
  match st with
  | (.scan, secs, rem) => secScanLine line (secs, rem)
  | (.afterMarker t, secs, rem) =>
    if isBlankL line then (.afterMarker t, secs, rem)
    else
      match headingFullMatch (pyStripList line) with
      | some k => (.inContent t k [], secs, rem)
      | none => secScanLine line (secs ++ [secFinish pageNumber t 1 []], rem)
  | (.inContent t k acc, secs, rem) =>
    if markerStartL line then
      secScanLine line (secs ++ [secFinish pageNumber t k acc], rem)
    else (.inContent t k (acc ++ [line]), secs, rem)

/-- The loop may end while a section is still open. -/
def secsFinish (pageNumber : Nat)
    (st : SecMode × List DocumentSection × List (List Char)) :
    List DocumentSection × List (List Char) :=
  match st with
  | (.scan, secs, rem) => (secs, rem)
  | (.afterMarker t, secs, rem) => (secs ++ [secFinish pageNumber t 1 []], rem)
  | (.inContent t k acc, secs, rem) =>
    (secs ++ [secFinish pageNumber t k acc], rem)

/-- Models `MarkdownConverter._parse_sections_from_chunk`
(markdown_converter.py 123-177). -/
def parseSectionsFromChunk (chunk : List Char) (pageNumber : Nat) :
    List DocumentSection × List Char :=
  let lines := splitOnChar '\n' chunk
  let st := lines.foldl (secStep pageNumber) (.scan, [], [])
  let fin := secsFinish pageNumber st
  (fin.1, intercalateChar '\n' fin.2)

/-!
### Block extraction (`_parse_extracted_content`)

Again a line-at-a-time state machine.  One behaviour matters for claim C7:
on a line consisting of indentation followed by exactly `"- "` the Python
paragraph scanner breaks immediately without consuming the line (the line
matches the paragraph break pattern `^\s*- ` but not the list-item pattern
`^(\s*)- (.+)$`), so the outer `while` loop spins forever.  The embedding
returns `none` for that diverging execution.
-/

/-- Parser state of `_parse_extracted_content`. -/
inductive BlockMode where
  | scan
  | inTable (acc : List (List Char))
  | inPara (acc : List (List Char))

/-- The default bounding box given to parsed blocks. -/
def defaultBBox : BBox := ⟨0, 0, 0, 0⟩

/-- The break condition of the paragraph scanner (lines 249-258). -/
def paraBreakL (line : List Char) : Bool :=
  isBlankL line || isTableLineL line || listBreakMatchL line ||
    headingBreakMatch (pyStripList line)

/-- Close a paragraph block: stripped lines joined by newlines. -/
def paraBlock (acc : List (List Char)) : TextBlock :=
  ⟨String.mk (intercalateChar '\n' acc), defaultBBox, "paragraph"⟩

/-- Append the table parsed from accumulated lines, when it parses. -/
def finishTable (acc : List (List Char)) (tables : List Table) : List Table :=
  match parseTable acc with
  | some t => tables ++ [t]
  | none => tables

/-- Processing a line in scan position; `none` is the diverging execution. -/
def blocksScanLine (line : List Char) (blocks : List TextBlock)
    (tables : List Table) :
    Option (BlockMode × List TextBlock × List Table) :=
  if isBlankL line then some (.scan, blocks, tables)
  else if isTableLineL line then some (.inTable [pyStripList line], blocks, tables)
  else
    match listItemMatchL line with
    | some (indent, itemText) =>
      let nesting := indent / 2
      let x : ℚ := 10 + (nesting : ℚ) * 30
      some (.scan,
        blocks ++ [⟨String.mk itemText, ⟨x, 0, 0, 0⟩, "list_item"⟩], tables)
    | none =>
      match headingFullMatch (pyStripList line) with
      | some _ =>
        some (.scan,
          blocks ++ [⟨String.mk (pyStripList line), defaultBBox, "heading"⟩],
          tables)
      | none =>
        if paraBreakL line then none
        else some (.inPara [pyStripList line], blocks, tables)

/-- One line of the `_parse_extracted_content` loop. -/
def blocksStep (st : Option (BlockMode × List TextBlock × List Table))
    (line : List Char) : Option (BlockMode × List TextBlock × List Table) :=
  match st with
  | none => none
  | some (.scan, blocks, tables) => blocksScanLine line blocks tables
  | some (.inTable acc, blocks, tables) =>
    if isTableLineL line then
      some (.inTable (acc ++ [pyStripList line]), blocks, tables)
    else blocksScanLine line blocks (finishTable acc tables)
  | some (.inPara acc, blocks, tables) =>
    if paraBreakL line then
      blocksScanLine line (blocks ++ [paraBlock acc]) tables
    else some (.inPara (acc ++ [pyStripList line]), blocks, tables)

/-- The loop may end inside a table or paragraph. -/
def blocksFinish (st : Option (BlockMode × List TextBlock × List Table)) :
    Option (List TextBlock × List Table) :=
  match st with
  | none => none
  | some (.scan, blocks, tables) => some (blocks, tables)
  | some (.inTable acc, blocks, tables) => some (blocks, finishTable acc tables)
  | some (.inPara acc, blocks, tables) => some (blocks ++ [paraBlock acc], tables)

/-- Models `MarkdownConverter._parse_extracted_content`
(markdown_converter.py 179-281); `none` is the diverging execution. -/
def parseExtractedContent (text : List Char) : Option ExtractedContent :=
  let t := pyStripList text
  if t.isEmpty then some ⟨"", [], [], [], []⟩
  else
    match blocksFinish ((splitOnChar '\n' t).foldl blocksStep
        (some (.scan, [], []))) with
    | none => none
    | some (blocks, tables) =>
      some ⟨String.intercalate "\n\n"
          ((blocks.filter fun b => b.block_type == "paragraph").map
            TextBlock.text),
        [], [], tables, blocks⟩

/-- Models `MarkdownConverter._strip_section_markers`
(markdown_converter.py 99-107). -/
def stripSectionMarkers (text : List Char) : List Char :=
  intercalateChar '\n'
    ((splitOnChar '\n' text).filter fun line =>
      ! (sectionMarkerTitle (pyStripList line)).isSome)

/-- One iteration of the page loop of `from_markdown`: collect the page's
sections, parse the marker-stripped chunk into content, and append the
page (always classified `native_text` with no OCR confidence). -/
def pageFold (acc : Option (List PageContent × List DocumentSection))
    (pc : Nat × List Char) :
    Option (List PageContent × List DocumentSection) :=
  match acc with
  | none => none
  | some (pages, allSecs) =>
    let parsed := parseSectionsFromChunk pc.2 pc.1
    match parseExtractedContent (stripSectionMarkers pc.2) with
    | none => none
    | some extracted =>
      some (pages ++ [PageContent.mk pc.1 .native_text extracted none],
        allSecs ++ parsed.1)

/-- Models `MarkdownConverter.from_markdown` (markdown_converter.py 52-89);
`none` is the diverging execution. -/
def fromMarkdown (markdown_str : String) : Option Document :=
  if pyStrip markdown_str == "" then some ⟨[], []⟩
  else
    let content := stripToc markdown_str.toList
    let page_chunks := splitByPages content
    match page_chunks.foldl pageFold (some ([], [])) with
    | none => none
    | some (pages, allSecs) =>
      some ⟨MdHier.buildSectionHierarchy allSecs, pages⟩

end MarkdownConverter

section ParseSanity

example : MarkdownConverter.fromMarkdown "" = some ⟨[], []⟩ := rfl

example : MarkdownConverter.fromMarkdown "<!-- page: 1 -->\n- \nx" = none := rfl

example :
    MarkdownConverter.parseExtractedContent "p1\n\np2".toList =
      some ⟨"p1\n\np2", [], [],  [],
        [⟨"p1", ⟨0,0,0,0⟩, "paragraph"⟩, ⟨"p2", ⟨0,0,0,0⟩, "paragraph"⟩]⟩ := rfl

end ParseSanity

namespace MarkdownConverter

theorem pageFold_none (chunks : List (Nat × List Char)) :
    chunks.foldl pageFold none = none := by
  induction chunks with
  | nil => rfl
  | cons c rest ih => simpa [pageFold] using ih

/-- Every page the page loop adds is built literally as
`PageContent.mk n native_text extracted none` from a parsed chunk. -/
theorem pageFold_mem (chunks : List (Nat × List Char)) :
    ∀ (acc : List PageContent × List DocumentSection)
      (out : List PageContent × List DocumentSection),
      chunks.foldl pageFold (some acc) = some out →
      ∀ pc ∈ out.1, pc ∈ acc.1 ∨
        ∃ (n : Nat) (chunk : List Char) (ec : ExtractedContent),
          parseExtractedContent (stripSectionMarkers chunk) = some ec ∧
          pc = PageContent.mk n .native_text ec none := by
  induction chunks with
  | nil =>
    intro acc out h pc hpc
    cases h
    exact Or.inl hpc
  | cons c rest ih =>
    intro acc out h pc hpc
    simp only [List.foldl_cons, pageFold] at h
    cases hx : parseExtractedContent (stripSectionMarkers c.2) with
    | none =>
      rw [hx] at h
      rw [pageFold_none] at h
      cases h
    | some ec =>
      rw [hx] at h
      have := ih _ out h pc hpc
      rcases this with hmem | hfound
      · simp only [List.mem_append, List.mem_singleton] at hmem
        rcases hmem with hmem | hmem
        · exact Or.inl hmem
        · exact Or.inr ⟨c.1, c.2, ec, hx, hmem⟩
      · exact Or.inr hfound

theorem parseExtractedContent_shape (text : List Char) (ec : ExtractedContent)
    (h : parseExtractedContent text = some ec) :
    ec.body_text = String.intercalate "\n\n"
      ((ec.reading_order_blocks.filter fun b =>
        b.block_type == "paragraph").map TextBlock.text) ∧
    ec.headers = [] ∧ ec.footers = [] := by
  rw [parseExtractedContent] at h
  by_cases he : (pyStripList text).isEmpty
  · rw [if_pos he] at h
    cases h
    exact ⟨rfl, rfl, rfl⟩
  · rw [if_neg he] at h
    cases hb : blocksFinish ((splitOnChar '\n' (pyStripList text)).foldl
        blocksStep (some (.scan, [], []))) with
    | none => rw [hb] at h; cases h
    | some bt =>
      rw [hb] at h
      cases h
      exact ⟨rfl, rfl, rfl⟩

/-- The page list returned by `fromMarkdown`: every page is native-text
classified, has no OCR confidence, and its content has the parsed-content
shape. -/
theorem fromMarkdown_pages (s : String) (d : Document)
    (h : fromMarkdown s = some d) :
    ∀ pc ∈ d.pages,
      pc.classification = .native_text ∧ pc.ocr_confidence = none ∧
      pc.content.body_text = String.intercalate "\n\n"
        ((pc.content.reading_order_blocks.filter fun b =>
          b.block_type == "paragraph").map TextBlock.text) ∧
      pc.content.headers = [] ∧ pc.content.footers = [] := by
  intro pc hpc
  rw [fromMarkdown] at h
  by_cases hs : pyStrip s == ""
  · rw [if_pos hs] at h
    cases h
    cases hpc
  · rw [if_neg hs] at h
    cases hf : (splitByPages (stripToc s.toList)).foldl pageFold
        (some ([], [])) with
    | none => simp only [hf] at h; cases h
    | some out =>
      simp only [hf] at h
      cases h
      have := pageFold_mem _ _ _ hf pc hpc
      rcases this with hmem | ⟨n, chunk, ec, hec, hpcty⟩
      · cases hmem
      · subst hpcty
        have hshape := parseExtractedContent_shape _ _ hec
        exact ⟨rfl, rfl, hshape.1, hshape.2.1, hshape.2.2⟩

end MarkdownConverter

/-- C10: every `PageContent` produced by `deserialize` is classified
`native_text` with `ocr_confidence = None`, whatever the input markup, so no
round trip preserves a page's original classification or confidence. -/
theorem c10_parsed_page_classification (s : String) (d : Document)
    (h : MarkdownConverter.fromMarkdown s = some d) :
    ∀ pc ∈ d.pages,
      pc.classification = .native_text ∧ pc.ocr_confidence = none := by
  intro pc hpc
  have := MarkdownConverter.fromMarkdown_pages s d h pc hpc
  exact ⟨this.1, this.2.1⟩

def c10doc : Document :=
  ⟨[], [⟨1, .native_text,
    ⟨"hello", [], [], [], [⟨"hello", ⟨0, 0, 0, 0⟩, "paragraph"⟩]⟩, none⟩]⟩

/-- Witness for C10 on a concrete one-page markup. -/
theorem c10_parsed_page_classification_witness :
    (c10doc.pages.headD ⟨0, .mixed, ⟨"", [], [], [], []⟩, some 1⟩).classification
      = .native_text ∧
    (c10doc.pages.headD ⟨0, .mixed, ⟨"", [], [], [], []⟩, some 1⟩).ocr_confidence
      = none := by
  have h : MarkdownConverter.fromMarkdown "<!-- page: 1 -->\n\nhello" =
      some c10doc := rfl
  exact c10_parsed_page_classification _ _ h _ (List.mem_singleton_self _)

/-- C8 (amended): for every page chunk parsed by `deserialize`, the page's
`bodyText` is the text of its paragraph blocks only — headings, list items
and tables are excluded (they stay in `readingOrderBlocks`/`tables`) — but
the paragraph texts are joined with a blank line (`"\n\n"`), not a single
newline. -/
theorem c8_body_text_amended (s : String) (d : Document)
    (h : MarkdownConverter.fromMarkdown s = some d) :
    ∀ pc ∈ d.pages,
      pc.content.body_text = String.intercalate "\n\n"
        ((pc.content.reading_order_blocks.filter fun b =>
          b.block_type == "paragraph").map TextBlock.text) := by
  intro pc hpc
  exact (MarkdownConverter.fromMarkdown_pages s d h pc hpc).2.2.1

/-- C8 (counterexample): a chunk with two paragraphs shows the body text is
the blank-line join `"p1\n\np2"`, not the newline join `"p1\np2"` the claim
states. -/
theorem c8_counterexample :
    ∃ ec, MarkdownConverter.parseExtractedContent "p1\n\np2".toList = some ec ∧
      (ec.reading_order_blocks.filter fun b =>
        b.block_type == "paragraph").map TextBlock.text = ["p1", "p2"] ∧
      ec.body_text = "p1\n\np2" ∧
      ec.body_text ≠ String.intercalate "\n" ["p1", "p2"] := by
  refine ⟨⟨"p1\n\np2", [], [], [],
    [⟨"p1", ⟨0,0,0,0⟩, "paragraph"⟩, ⟨"p2", ⟨0,0,0,0⟩, "paragraph"⟩]⟩,
    rfl, rfl, rfl, ?_⟩
  intro hcontra
  exact absurd hcontra (by decide)

def c8wDoc : Document :=
  ⟨[], [⟨1, .native_text,
    ⟨"p1\n\np2", [], [], [],
      [⟨"p1", ⟨0, 0, 0, 0⟩, "paragraph"⟩, ⟨"p2", ⟨0, 0, 0, 0⟩, "paragraph"⟩]⟩,
    none⟩]⟩

/-- Witness for C8 on a concrete two-paragraph page. -/
theorem c8_body_text_amended_witness :
    (c8wDoc.pages.headD ⟨0, .mixed, ⟨"", [], [], [], []⟩, some 1⟩).content.body_text
      = "p1\n\np2" := by
  have h : MarkdownConverter.fromMarkdown "<!-- page: 1 -->\np1\n\np2" =
      some c8wDoc := rfl
  have := c8_body_text_amended _ _ h _ (List.mem_singleton_self _)
  exact this.trans (by rfl)

/-- C7 (code bug): parsing is not total.  On a chunk containing a line that
is exactly indentation plus `"- "` the paragraph scanner of
`_parse_extracted_content` makes no progress (the line matches the
paragraph-break pattern but not the list-item pattern) and the Python loop
runs forever; the embedding maps that execution to `none`.  The remaining
behaviours the claim lists do hold: empty and whitespace-only input parse
to the empty document, an unrecognized second table row stays a data row,
and a section marker without a following heading yields a level-1 section
with empty content. -/
theorem c7_parse_totality :
    MarkdownConverter.fromMarkdown "<!-- page: 1 -->\n- \nx" = none ∧
    MarkdownConverter.fromMarkdown "" = some ⟨[], []⟩ ∧
    MarkdownConverter.fromMarkdown " \t\n " = some ⟨[], []⟩ ∧
    MarkdownConverter.parseTable ["| a | b |".toList, "| c | d |".toList] =
      some ⟨[["a", "b"], ["c", "d"]]⟩ ∧
    (MarkdownConverter.parseSectionsFromChunk "<!-- section: T -->\n".toList 4).1
      = [.mk "T" 1 "" 4 4 []] :=
  ⟨rfl, rfl, rfl, rfl, rfl⟩

namespace MarkdownConverter

/-- Decimal digits of a natural number (the rendering of Python
`str(int)`); the fuel only bounds the recursion. -/
def natReprAux : Nat → Nat → List Char → List Char
  | 0, _, acc => acc
  | fuel + 1, n, acc =>
    let d := Char.ofNat ('0'.toNat + n % 10)
    if n < 10 then d :: acc else natReprAux fuel (n / 10) (d :: acc)

/-- Decimal rendering of a natural number. -/
def natRepr (n : Nat) : List Char := natReprAux (n + 1) n []

/-- ASCII model of the regex class `\w`. -/
def isWordChar (c : Char) : Bool := c.isAlphanum || c == '_'

/-- Replace each maximal run of characters satisfying `p` by one `rep`;
used for the two run-collapsing substitutions of `_slugify`. -/
def subRuns (p : Char → Bool) (rep : Char) : List Char → Bool → List Char
  | [], _ => []
  | c :: rest, inRun =>
    if p c then
      if inRun then subRuns p rep rest true
      else rep :: subRuns p rep rest true
    else c :: subRuns p rep rest false

/-- Models `MarkdownConverter._slugify` (markdown_converter.py 455-462). -/
def slugify (text : String) : String :=
  let l1 := pyStripList (text.toList.map Char.toLower)
  let l2 := l1.filter fun c => isWordChar c || isPySpace c || c == '-'
  let l3 := subRuns (fun c => isPySpace c || c == '_') '-' l2 false
  let l4 := subRuns (fun c => c == '-') '-' l3 false
  String.mk (((l4.dropWhile fun c => c == '-').reverse.dropWhile
    fun c => c == '-').reverse)

mutual
/-- Pre-order TOC entries of one section tree; models the recursion of
`MarkdownConverter._collect_toc_entries`. -/
def tocEntryTree (s : DocumentSection) (depth : Nat) :
    List (Nat × String × Nat × Nat) :=
  match s with
  | .mk t _ _ ps pe subs => (depth, t, ps, pe) :: tocEntryList subs (depth + 1)

/-- Pre-order TOC entries of a forest. -/
def tocEntryList (sections : List DocumentSection) (depth : Nat) :
    List (Nat × String × Nat × Nat) :=
  match sections with
  | [] => []
  | s :: rest => tocEntryTree s depth ++ tocEntryList rest depth
end

/-- Models `MarkdownConverter._generate_toc` (markdown_converter.py
328-340). -/
def generateToc (sections : List DocumentSection) : String :=
  let entries := tocEntryList sections 0
  if entries.isEmpty then ""
  else
    String.intercalate "\n"
      (["<!-- toc -->"] ++
        entries.map (fun e =>
          String.mk (List.replicate (2 * e.1) ' ') ++ "- [" ++ e.2.1 ++
            "](#" ++ slugify e.2.1 ++ ") (p. " ++
            String.mk (natRepr e.2.2.1) ++ "-" ++
            String.mk (natRepr e.2.2.2) ++ ")") ++
        ["<!-- /toc -->"])

mutual
/-- Models the per-tree recursion of
`MarkdownConverter._find_sections_on_page` (markdown_converter.py
352-363): the node itself when it starts on the page, then the matches of
its subsections, in pre-order. -/
def findSecTree (s : DocumentSection) (n : Nat) : List DocumentSection :=
  match s with
  | .mk t l c ps pe subs =>
    (if ps = n then [DocumentSection.mk t l c ps pe subs] else []) ++
      findSecList subs n

/-- Pre-order page matches of a forest. -/
def findSecList (sections : List DocumentSection) (n : Nat) :
    List DocumentSection :=
  match sections with
  | [] => []
  | s :: rest => findSecTree s n ++ findSecList rest n
end

/-- Models `MarkdownConverter._render_table` (markdown_converter.py
431-453): header, a `---` separator per header column, then data rows
padded or truncated to the header width. -/
def renderTable (t : Table) : String :=
  match t.rows with
  | [] => ""
  | header :: data =>
    let col_count := header.length
    String.intercalate "\n"
      (["| " ++ String.intercalate " | " header ++ " |",
        "| " ++ String.intercalate " | " (List.replicate col_count "---") ++
          " |"] ++
        data.map fun row =>
          "| " ++ String.intercalate " | "
            ((row ++ List.replicate (col_count - row.length) "").take
              col_count) ++ " |")

/-- Models `MarkdownConverter._render_list_items` (markdown_converter.py
412-429): indentation is derived from each item's x-offset over the group
minimum; offsets above 15 units map to `floor(offset / 30)` levels. -/
def renderListItems (items : List TextBlock) : String :=
  match items with
  | [] => ""
  | i0 :: rest =>
    let base_x := rest.foldl (fun m b => min m b.bbox.x0) i0.bbox.x0
    String.intercalate "\n"
      ((i0 :: rest).map fun item =>
        let offset := item.bbox.x0 - base_x
        let nesting : Nat := if offset > 15 then ((offset / 30).floor).toNat
          else 0
        String.mk (List.replicate (2 * nesting) ' ') ++ "- " ++ item.text)

/-- Models `MarkdownConverter._render_blocks` (markdown_converter.py
381-410): consecutive list items are flushed together; every other block
contributes its stored text; empty parts are dropped from the join. -/
def renderBlocks (blocks : List TextBlock) : String :=
  let st := blocks.foldl
    (fun (acc : List String × List TextBlock) block =>
      if block.block_type == "list_item" then (acc.1, acc.2 ++ [block])
      else
        ((if acc.2.isEmpty then acc.1
          else acc.1 ++ [renderListItems acc.2]) ++ [block.text], []))
    ([], [])
  let parts := if st.2.isEmpty then st.1 else st.1 ++ [renderListItems st.2]
  String.intercalate "\n\n" (parts.filter fun p => p != "")

/-- Models `MarkdownConverter._render_content` (markdown_converter.py
365-379): reading-order blocks when present, else the body text; then the
tables; empty parts dropped. -/
def renderContent (content : ExtractedContent) : String :=
  let parts :=
    (if ! content.reading_order_blocks.isEmpty then
      [renderBlocks content.reading_order_blocks]
    else if content.body_text != "" then [content.body_text] else []) ++
    content.tables.map renderTable
  String.intercalate "\n\n" (parts.filter fun p => p != "")

/-- Models `MarkdownConverter.to_markdown` (markdown_converter.py 21-50). -/
def toMarkdown (document : Document) : String :=
  let toc := generateToc document.sections
  let parts :=
    (if toc != "" then [toc] else []) ++
    document.pages.flatMap fun page =>
      ["<!-- page: " ++ String.mk (natRepr page.page_number) ++ " -->"] ++
      (findSecList document.sections page.page_number).flatMap
        (fun sec =>
          ["<!-- section: " ++ sec.title ++ " -->",
            String.mk (List.replicate sec.level '#') ++ " " ++ sec.title] ++
          (if sec.content != "" then [sec.content] else [])) ++
      (let rendered := renderContent page.content
       if rendered != "" then [rendered] else [])
  if parts.isEmpty then "" else String.intercalate "\n\n" parts ++ "\n"

end MarkdownConverter

section RenderSanity

example : MarkdownConverter.toMarkdown ⟨[], []⟩ = "" := rfl

example :
    MarkdownConverter.toMarkdown
      ⟨[], [⟨1, .native_text, ⟨"hello", [], [], [], []⟩, none⟩]⟩ =
    "<!-- page: 1 -->\n\nhello\n" := rfl

example :
    MarkdownConverter.toMarkdown
      ⟨[.mk "Intro" 1 "" 1 1 []],
        [⟨1, .native_text, ⟨"", [], [], [], []⟩, none⟩]⟩ =
    "<!-- toc -->\n- [Intro](#intro) (p. 1-1)\n<!-- /toc -->\n\n" ++
      "<!-- page: 1 -->\n\n<!-- section: Intro -->\n\n# Intro\n" := rfl

end RenderSanity

/-!
## Round-trip infrastructure: character and line lemmas
-/

theorem splitOnChar_no_sep (sep : Char) :
    ∀ l : List Char, sep ∉ l → splitOnChar sep l = [l] := by
  intro l
  induction l with
  | nil => intro _; rfl
  | cons c cs ih =>
    intro h
    have hc : ¬ c = sep := fun hcc => h (hcc ▸ List.mem_cons_self c cs)
    have hcs : sep ∉ cs := fun hm => h (List.mem_cons_of_mem c hm)
    simp only [splitOnChar, if_neg hc, ih hcs]

theorem splitOnChar_append_sep (sep : Char) :
    ∀ (l t : List Char), sep ∉ l →
      splitOnChar sep (l ++ sep :: t) = l :: splitOnChar sep t := by
  intro l
  induction l with
  | nil =>
    intro t _
    simp [splitOnChar]
  | cons c cs ih =>
    intro t h
    have hc : ¬ c = sep := fun hcc => h (hcc ▸ List.mem_cons_self c cs)
    have hcs : sep ∉ cs := fun hm => h (List.mem_cons_of_mem c hm)
    simp only [List.cons_append, splitOnChar, if_neg hc]
    rw [show cs.append (sep :: t) = cs ++ sep :: t from rfl, ih t hcs]

theorem splitOnChar_intercalateChar (sep : Char) :
    ∀ L : List (List Char), L ≠ [] → (∀ l ∈ L, sep ∉ l) →
      splitOnChar sep (intercalateChar sep L) = L := by
  intro L
  induction L with
  | nil => intro h; exact absurd rfl h
  | cons l rest ih =>
    intro _ hmem
    cases rest with
    | nil =>
      exact splitOnChar_no_sep sep l (hmem l (List.mem_cons_self _ _))
    | cons l2 rest2 =>
      have h1 : sep ∉ l := hmem l (List.mem_cons_self _ _)
      show splitOnChar sep (l ++ sep :: intercalateChar sep (l2 :: rest2)) =
        l :: l2 :: rest2
      rw [splitOnChar_append_sep sep l _ h1]
      rw [ih (by simp) (fun x hx => hmem x (List.mem_cons_of_mem l hx))]

theorem intercalateChar_append (sep : Char) :
    ∀ (A B : List (List Char)), A ≠ [] → B ≠ [] →
      intercalateChar sep (A ++ B) =
        intercalateChar sep A ++ sep :: intercalateChar sep B := by
  intro A
  induction A with
  | nil => intro B h; exact absurd rfl h
  | cons a A' ih =>
    intro B _ hB
    cases A' with
    | nil =>
      cases B with
      | nil => exact absurd rfl hB
      | cons b B' => simp [intercalateChar]
    | cons a2 A2 =>
      show a ++ sep :: intercalateChar sep ((a2 :: A2) ++ B) =
        (a ++ sep :: intercalateChar sep (a2 :: A2)) ++
          sep :: intercalateChar sep B
      rw [ih B (by simp) hB]
      simp [List.append_assoc]

theorem takeWhile_append_all {p : Char → Bool} :
    ∀ (a b : List Char), (∀ c ∈ a, p c) →
      (a ++ b).takeWhile p = a ++ b.takeWhile p := by
  intro a
  induction a with
  | nil => intro b _; rfl
  | cons c cs ih =>
    intro b h
    simp only [List.cons_append, List.takeWhile]
    rw [h c (List.mem_cons_self _ _)]
    rw [show cs.append b = cs ++ b from rfl,
      ih b (fun x hx => h x (List.mem_cons_of_mem c hx))]

theorem dropWhile_append_all {p : Char → Bool} :
    ∀ (a b : List Char), (∀ c ∈ a, p c) →
      (a ++ b).dropWhile p = b.dropWhile p := by
  intro a
  induction a with
  | nil => intro b _; rfl
  | cons c cs ih =>
    intro b h
    simp only [List.cons_append, List.dropWhile]
    rw [h c (List.mem_cons_self _ _)]
    exact ih b fun x hx => h x (List.mem_cons_of_mem c hx)

theorem takeWhile_head_false {p : Char → Bool} (c : Char) (l : List Char)
    (h : ¬ p c) : (c :: l).takeWhile p = [] := by
  simp only [List.takeWhile]
  rw [Bool.not_eq_true] at h
  rw [h]

theorem dropWhile_head_false {p : Char → Bool} (c : Char) (l : List Char)
    (h : ¬ p c) : (c :: l).dropWhile p = c :: l := by
  simp only [List.dropWhile]
  rw [Bool.not_eq_true] at h
  rw [h]

namespace MarkdownConverter

theorem natReprAux_eq (n : Nat) :
    ∀ (fuel : Nat) (acc : List Char), n < fuel →
      natReprAux fuel n acc = natRepr n ++ acc := by
  induction n using Nat.strong_induction_on with
  | _ n ih =>
    intro fuel acc hfuel
    cases fuel with
    | zero => omega
    | succ f =>
      by_cases h10 : n < 10
      · simp only [natReprAux, if_pos h10, natRepr]
        rfl
      · simp only [natReprAux, if_neg h10]
        have hdiv : n / 10 < n := Nat.div_lt_self (by omega) (by omega)
        rw [ih (n / 10) hdiv f _ (by omega)]
        have hrepr : natRepr n =
            natRepr (n / 10) ++ [Char.ofNat ('0'.toNat + n % 10)] := by
          show natReprAux (n + 1) n [] = _
          cases hn : n with
          | zero => omega
          | succ m =>
            simp only [natReprAux, if_neg (hn ▸ h10)]
            rw [← hn]
            exact ih (n / 10) hdiv (m + 1) _ (by omega)
        rw [hrepr, List.append_assoc]
        rfl

theorem natRepr_unfold (n : Nat) :
    natRepr n = (if n < 10 then [] else natRepr (n / 10)) ++
      [Char.ofNat ('0'.toNat + n % 10)] := by
  by_cases h10 : n < 10
  · simp only [if_pos h10]
    show natReprAux (n + 1) n [] = _
    cases n with
    | zero => rfl
    | succ m => simp only [natReprAux, if_pos h10]; rfl
  · simp only [if_neg h10]
    show natReprAux (n + 1) n [] = _
    cases hn : n with
    | zero => omega
    | succ m =>
      simp only [natReprAux, if_neg (hn ▸ h10)]
      rw [← hn]
      have hdiv : n / 10 < n := Nat.div_lt_self (by omega) (by omega)
      exact natReprAux_eq (n / 10) (m + 1) _ (by omega)

theorem digit_char_isDigit (m : Nat) (h : m < 10) :
    (Char.ofNat ('0'.toNat + m)).isDigit = true := by
  interval_cases m <;> decide

theorem digit_char_toNat (m : Nat) (h : m < 10) :
    (Char.ofNat ('0'.toNat + m)).toNat = '0'.toNat + m := by
  interval_cases m <;> decide

theorem natRepr_digits (n : Nat) :
    natRepr n ≠ [] ∧ ∀ c ∈ natRepr n, c.isDigit := by
  induction n using Nat.strong_induction_on with
  | _ n ih =>
    rw [natRepr_unfold]
    by_cases h10 : n < 10
    · simp only [if_pos h10, List.nil_append]
      refine ⟨by simp, ?_⟩
      intro c hc
      simp only [List.mem_singleton] at hc
      subst hc
      exact digit_char_isDigit _ (Nat.mod_lt _ (by omega))
    · simp only [if_neg h10]
      refine ⟨by simp, ?_⟩
      intro c hc
      rcases List.mem_append.mp hc with hc | hc
      · exact (ih (n / 10) (Nat.div_lt_self (by omega) (by omega))).2 c hc
      · simp only [List.mem_singleton] at hc
        subst hc
        exact digit_char_isDigit _ (Nat.mod_lt _ (by omega))

theorem digitsToNat_append_one (a : List Char) (d : Char) :
    digitsToNat (a ++ [d]) = digitsToNat a * 10 + (d.toNat - '0'.toNat) := by
  simp only [digitsToNat, List.foldl_append, List.foldl_cons, List.foldl_nil]

theorem digitsToNat_natRepr (n : Nat) : digitsToNat (natRepr n) = n := by
  induction n using Nat.strong_induction_on with
  | _ n ih =>
    rw [natRepr_unfold]
    by_cases h10 : n < 10
    · simp only [if_pos h10, List.nil_append]
      show digitsToNat ([] ++ [_]) = n
      rw [digitsToNat_append_one]
      rw [digit_char_toNat _ (Nat.mod_lt _ (by omega))]
      simp only [digitsToNat, List.foldl_nil]
      omega
    · simp only [if_neg h10]
      rw [digitsToNat_append_one]
      rw [ih (n / 10) (Nat.div_lt_self (by omega) (by omega))]
      rw [digit_char_toNat _ (Nat.mod_lt _ (by omega))]
      omega

end MarkdownConverter

namespace MarkdownConverter

/-- Tag after a `<` on a section-marker line. -/
def sectionTag : List Char := "!-- section: ".toList

/-- Tag after a `<` on a page-marker line. -/
def pageTag : List Char := "!-- page: ".toList

/-- Every `<` in `l` opens a section comment (whose tag lies inside `l`).
Rendered chunk text satisfies this: content lines have no `<` at all and
marker lines start with the tag. -/
def ltSection (l : List Char) : Prop :=
  ∀ a b, l = a ++ '<' :: b → sectionTag <+: b

/-- Every `<` in `l` opens a section or page comment. -/
def ltTagged (l : List Char) : Prop :=
  ∀ a b, l = a ++ '<' :: b → sectionTag <+: b ∨ pageTag <+: b

theorem ltSection_tagged {l : List Char} (h : ltSection l) : ltTagged l :=
  fun a b hab => Or.inl (h a b hab)

theorem ltSection_cons {c : Char} {l : List Char} (h : ltSection (c :: l)) :
    ltSection l :=
  fun a b hab => h (c :: a) b (by rw [hab]; rfl)

theorem ltTagged_cons {c : Char} {l : List Char} (h : ltTagged (c :: l)) :
    ltTagged l :=
  fun a b hab => h (c :: a) b (by rw [hab]; rfl)

theorem tryPageMarker_not_lt {c : Char} (rest : List Char) (h : ¬ c = '<') :
    tryPageMarker (c :: rest) = none := by
  have hd : dropLitPre "<!-- page: ".toList (c :: rest) = none := by
    rw [show "<!-- page: ".toList = '<' :: "!-- page: ".toList from rfl]
    simp only [dropLitPre, if_neg h]
  simp only [tryPageMarker, hd]

theorem tryPageMarker_sectionTag (b : List Char)
    (h : sectionTag <+: b) : tryPageMarker ('<' :: b) = none := by
  obtain ⟨b2, hb⟩ := h
  rw [← hb]
  rfl

theorem dropLitPre_self_append : ∀ (p r : List Char),
    dropLitPre p (p ++ r) = some r := by
  intro p
  induction p with
  | nil => intro r; rfl
  | cons c cs ih =>
    intro r
    simp only [List.cons_append, dropLitPre, if_pos rfl]
    exact ih r

/-- Reading the rendered page marker back. -/
theorem tryPageMarker_render (n : Nat) (tail : List Char) :
    tryPageMarker ("<!-- page: ".toList ++ natRepr n ++ " -->".toList ++ tail)
      = some (n, tail) := by
  have h1 : dropLitPre "<!-- page: ".toList
      ("<!-- page: ".toList ++ natRepr n ++ " -->".toList ++ tail) =
      some (natRepr n ++ " -->".toList ++ tail) := by
    rw [show "<!-- page: ".toList ++ natRepr n ++ " -->".toList ++ tail =
      "<!-- page: ".toList ++ (natRepr n ++ " -->".toList ++ tail) by
        simp [List.append_assoc]]
    exact dropLitPre_self_append _ _
  simp only [tryPageMarker, h1]
  have hdig := natRepr_digits n
  have htake : (natRepr n ++ " -->".toList ++ tail).takeWhile Char.isDigit =
      natRepr n := by
    rw [List.append_assoc, takeWhile_append_all _ _ (fun c hc => hdig.2 c hc)]
    rw [show " -->".toList ++ tail = ' ' :: ("-->".toList ++ tail) from rfl]
    rw [takeWhile_head_false _ _ (by decide)]
    simp
  have hdrop : (natRepr n ++ " -->".toList ++ tail).dropWhile Char.isDigit =
      " -->".toList ++ tail := by
    rw [List.append_assoc, dropWhile_append_all _ _ (fun c hc => hdig.2 c hc)]
    rw [show " -->".toList ++ tail = ' ' :: ("-->".toList ++ tail) from rfl]
    exact dropWhile_head_false _ _ (by decide)
  rw [htake, hdrop]
  have hne : (natRepr n).isEmpty = false := by
    cases hr : natRepr n with
    | nil => exact absurd hr hdig.1
    | cons a as => rfl
  rw [hne]
  simp only [Bool.false_eq_true, if_false]
  rw [dropLitPre_self_append]
  rw [digitsToNat_natRepr]

/-- Scanning past section-only text finds the first page marker after it. -/
theorem findPageMarker_shift : ∀ (chunk tail : List Char), ltSection chunk →
    findPageMarker (chunk ++ tail) =
      (findPageMarker tail).map fun p => (chunk ++ p.1, p.2) := by
  intro chunk
  induction chunk with
  | nil =>
    intro tail _
    cases h : findPageMarker tail with
    | none => simp [h]
    | some p => simp [h]
  | cons c cs ih =>
    intro tail hsafe
    have hrest := ih tail (ltSection_cons hsafe)
    by_cases hc : c = '<'
    · subst hc
      have hpre : sectionTag <+: cs := hsafe [] cs rfl
      have hnone : tryPageMarker ('<' :: (cs ++ tail)) = none := by
        obtain ⟨b2, hb⟩ := hpre
        rw [← hb, List.append_assoc]
        exact tryPageMarker_sectionTag _ ⟨b2 ++ tail, rfl⟩
      show findPageMarker ('<' :: (cs ++ tail)) = _
      simp only [findPageMarker, hnone, hrest]
      cases h : findPageMarker tail with
      | none => simp [h]
      | some p => simp [h]
    · have hnone : tryPageMarker (c :: (cs ++ tail)) = none :=
        tryPageMarker_not_lt _ hc
      show findPageMarker (c :: (cs ++ tail)) = _
      simp only [findPageMarker, hnone, hrest]
      cases h : findPageMarker tail with
      | none => simp [h]
      | some p => simp [h]

theorem findPageMarker_of_ltSection (l : List Char) (h : ltSection l) :
    findPageMarker l = none := by
  have := findPageMarker_shift l [] h
  simpa using this

end MarkdownConverter

namespace MarkdownConverter

/-- The characters of a rendered page marker. -/
def pageMarkerChars (n : Nat) : List Char :=
  "<!-- page: ".toList ++ natRepr n ++ " -->".toList

/-- The flat text of the page segments after the TOC block: each page's
marker followed by its chunk text. -/
def segsChars (ps : List (Nat × List Char)) : List Char :=
  ps.flatMap fun p => pageMarkerChars p.1 ++ p.2

theorem pageMarkerChars_len (n : Nat) : 16 ≤ (pageMarkerChars n).length := by
  have h := natRepr_digits n
  have : 1 ≤ (natRepr n).length := by
    cases hr : natRepr n with
    | nil => exact absurd hr h.1
    | cons a as => simp
  simp only [pageMarkerChars, List.length_append]
  have h1 : "<!-- page: ".toList.length = 11 := by decide
  have h2 : " -->".toList.length = 4 := by decide
  omega

theorem findPageMarker_at_marker (n : Nat) (tail : List Char) :
    findPageMarker (pageMarkerChars n ++ tail) = some ([], n, tail) := by
  have htry := tryPageMarker_render n tail
  have hshape : pageMarkerChars n ++ tail =
      '<' :: ("!-- page: ".toList ++ natRepr n ++ " -->".toList ++ tail) := by
    simp [pageMarkerChars, List.append_assoc]
  rw [hshape]
  have htry2 : tryPageMarker
      ('<' :: ("!-- page: ".toList ++ natRepr n ++ " -->".toList ++ tail)) =
      some (n, tail) := by
    rw [show '<' :: ("!-- page: ".toList ++ natRepr n ++ " -->".toList ++ tail)
      = "<!-- page: ".toList ++ natRepr n ++ " -->".toList ++ tail by simp]
    exact htry
  simp only [findPageMarker, htry2]

theorem collectPagesF_correct :
    ∀ (ps : List (Nat × List Char)) (fuel n0 : Nat) (chunk0 : List Char),
      ltSection chunk0 → (∀ p ∈ ps, ltSection p.2) →
      (chunk0 ++ segsChars ps).length < fuel →
      collectPagesF fuel n0 (chunk0 ++ segsChars ps) = (n0, chunk0) :: ps := by
  intro ps
  induction ps with
  | nil =>
    intro fuel n0 chunk0 hc _ hlen
    cases fuel with
    | zero => simp at hlen
    | succ f =>
      simp only [segsChars, List.flatMap_nil, List.append_nil] at hlen ⊢
      simp only [collectPagesF, findPageMarker_of_ltSection chunk0 hc]
  | cons p ps' ih =>
    intro fuel n0 chunk0 hc hps hlen
    cases fuel with
    | zero => simp at hlen
    | succ f =>
      have hseg : segsChars (p :: ps') =
          pageMarkerChars p.1 ++ (p.2 ++ segsChars ps') := by
        simp [segsChars, List.append_assoc]
      have hfind : findPageMarker (chunk0 ++ segsChars (p :: ps')) =
          some (chunk0, p.1, p.2 ++ segsChars ps') := by
        rw [hseg, findPageMarker_shift _ _ hc,
          findPageMarker_at_marker p.1 (p.2 ++ segsChars ps')]
        simp
      simp only [collectPagesF, hfind]
      have hrec := ih f p.1 p.2 (hps p (List.mem_cons_self _ _))
        (fun q hq => hps q (List.mem_cons_of_mem p hq))
        (by
          have h16 := pageMarkerChars_len p.1
          rw [hseg] at hlen
          simp only [List.length_append] at hlen ⊢
          omega)
      rw [hrec]

theorem splitByPages_render (n1 : Nat) (c1 : List Char)
    (ps : List (Nat × List Char)) (hc1 : ltSection c1)
    (hps : ∀ p ∈ ps, ltSection p.2) :
    splitByPages (segsChars ((n1, c1) :: ps)) = (n1, c1) :: ps := by
  have hseg : segsChars ((n1, c1) :: ps) =
      pageMarkerChars n1 ++ (c1 ++ segsChars ps) := by
    simp [segsChars, List.append_assoc]
  rw [splitByPages, hseg, findPageMarker_at_marker]
  exact collectPagesF_correct ps _ n1 c1 hc1 hps (by
    simp only [List.length_append]
    omega)

theorem findLit_toc_none : ∀ (l : List Char), ltTagged l →
    findLit "<!-- toc -->".toList l = none := by
  intro l
  induction l with
  | nil => intro _; rfl
  | cons c cs ih =>
    intro h
    have hrest := ih (ltTagged_cons h)
    by_cases hc : c = '<'
    · subst hc
      have := h [] cs rfl
      have hdrop : dropLitPre "<!-- toc -->".toList ('<' :: cs) = none := by
        rcases this with hpre | hpre
        · obtain ⟨b2, hb⟩ := hpre
          rw [← hb]
          rfl
        · obtain ⟨b2, hb⟩ := hpre
          rw [← hb]
          rfl
      simp only [findLit, hdrop, hrest]
    · have hdrop : dropLitPre "<!-- toc -->".toList (c :: cs) = none := by
        rw [show "<!-- toc -->".toList = '<' :: "!-- toc -->".toList from rfl]
        simp only [dropLitPre, if_neg hc]
      simp only [findLit, hdrop, hrest]

theorem findLit_shift_noLt {p : List Char} :
    ∀ (a b : List Char), (∀ c ∈ a, ¬ c = '<') →
      findLit ('<' :: p) (a ++ b) =
        (findLit ('<' :: p) b).map fun q => (a ++ q.1, q.2) := by
  intro a
  induction a with
  | nil =>
    intro b _
    cases h : findLit ('<' :: p) b with
    | none => simp [h]
    | some q => simp [h]
  | cons c cs ih =>
    intro b h
    have hc := h c (List.mem_cons_self _ _)
    have hdrop : dropLitPre ('<' :: p) (c :: (cs ++ b)) = none := by
      simp only [dropLitPre, if_neg hc]
    show findLit ('<' :: p) (c :: (cs ++ b)) = _
    simp only [findLit, hdrop]
    rw [ih b (fun x hx => h x (List.mem_cons_of_mem c hx))]
    cases hf : findLit ('<' :: p) b with
    | none => simp [hf]
    | some q => simp [hf]

theorem stripToc_of_ltTagged (l : List Char) (h : ltTagged l) :
    stripToc l = l := by
  rw [stripToc]
  cases hl : l.length + 1 with
  | zero => omega
  | succ f => simp only [stripTocF, findLit_toc_none l h]

end MarkdownConverter

/-!
## Claim C1: the serialize/deserialize round trip

Observables of the round trip: page numbers, section (title, level) pairs
in pre-order, per-page paragraph texts, per-page table rows, and per-page
list-item runs with their x-offsets above the run minimum.
-/

/-- Texts of the paragraph blocks of an extracted content, in order. -/
def paragraphTexts (ec : ExtractedContent) : List String :=
  (ec.reading_order_blocks.filter fun b => b.block_type == "paragraph").map
    TextBlock.text

/-- Texts of the list-item blocks of an extracted content, in order. -/
def listItemTexts (ec : ExtractedContent) : List String :=
  (ec.reading_order_blocks.filter fun b => b.block_type == "list_item").map
    TextBlock.text

/-- Per-page paragraph texts of a document. -/
def docParagraphTexts (d : Document) : List (List String) :=
  d.pages.map fun p => paragraphTexts p.content

/-- Per-page list-item texts of a document. -/
def docListItemTexts (d : Document) : List (List String) :=
  d.pages.map fun p => listItemTexts p.content

/-- C1 counterexample document: a single page whose only block is a
paragraph whose text happens to look like a markdown list item.  It is
inside the class the claim quantifies over: it has no sections (so all
titles are alphanumeric), no tables, and no list-item blocks (so all
list x-positions are canonical). -/
def c1cexDoc : Document :=
  ⟨[], [⟨1, .native_text, ⟨"- x", [], [], [],
    [⟨"- x", ⟨0, 0, 0, 0⟩, "paragraph"⟩]⟩, none⟩]⟩

/-- C1 (counterexample): the round-trip claim fails on `c1cexDoc`.  The
document satisfies every hypothesis of the claim (no sections, no tables,
no list items), yet deserializing its serialization loses the paragraph:
the rendered line `- x` is re-parsed as a list item with text `x`, so the
page's paragraph texts change from `["- x"]` to `[]` (and a list item the
original never had appears). -/
theorem c1_counterexample :
    c1cexDoc.sections = [] ∧
    (c1cexDoc.pages.map fun p => p.content.tables) = [[]] ∧
    docListItemTexts c1cexDoc = [[]] ∧
    docParagraphTexts c1cexDoc = [["- x"]] ∧
    (MarkdownConverter.fromMarkdown (MarkdownConverter.toMarkdown c1cexDoc)).map
      docParagraphTexts = some [[]] ∧
    (MarkdownConverter.fromMarkdown (MarkdownConverter.toMarkdown c1cexDoc)).map
      docListItemTexts = some [["x"]] :=
  ⟨rfl, rfl, rfl, rfl, rfl, rfl⟩

/-!
## Round-trip infrastructure: joining parts and chunk line structure
-/

/-- `sep.join parts` at the character level, in head/flatMap form. -/
def sepJoin (sep : List Char) : List (List Char) → List Char
  | [] => []
  | a :: as => a ++ as.flatMap fun r => sep ++ r

theorem intercalate_go_chars (s : String) :
    ∀ (rest : List String) (acc : String),
      (String.intercalate.go acc s rest).toList =
        acc.toList ++ rest.flatMap fun r => s.toList ++ r.toList := by
  intro rest
  induction rest with
  | nil => intro acc; simp [String.intercalate.go]
  | cons b bs ih =>
    intro acc
    rw [show String.intercalate.go acc s (b :: bs) =
      String.intercalate.go (acc ++ s ++ b) s bs from rfl, ih]
    simp

theorem intercalate_chars (s : String) (parts : List String) :
    (String.intercalate s parts).toList =
      sepJoin s.toList (parts.map String.toList) := by
  cases parts with
  | nil => rfl
  | cons a as =>
    show (String.intercalate.go a s as).toList = _
    rw [intercalate_go_chars]
    simp [sepJoin, List.flatMap_map]

theorem sepJoin_append_ne (sep : List Char) (A B : List (List Char))
    (hA : A ≠ []) (hB : B ≠ []) :
    sepJoin sep (A ++ B) = sepJoin sep A ++ sep ++ sepJoin sep B := by
  cases A with
  | nil => exact absurd rfl hA
  | cons a A' =>
    cases B with
    | nil => exact absurd rfl hB
    | cons b B' => simp [sepJoin, List.append_assoc]

theorem sepJoin_nested (sep : List Char) (A B : List (List Char))
    (hA : A ≠ []) :
    sepJoin sep (sepJoin sep A :: B) = sepJoin sep (A ++ B) := by
  cases B with
  | nil => simp [sepJoin]
  | cons b B' =>
    rw [sepJoin_append_ne sep A (b :: B') hA (by simp)]
    simp [sepJoin, List.append_assoc]

theorem splitOnChar_ne_nil (sep : Char) : ∀ l, splitOnChar sep l ≠ [] := by
  intro l
  cases l with
  | nil => simp [splitOnChar]
  | cons c rest =>
    simp only [splitOnChar]
    by_cases h : c = sep
    · simp [h]
    · rw [if_neg h]
      cases hs : splitOnChar sep rest with
      | nil => simp
      | cons g gs => simp

theorem splitOnChar_sep_not_mem (sep : Char) :
    ∀ l g, g ∈ splitOnChar sep l → sep ∉ g := by
  intro l
  induction l with
  | nil =>
    intro g hg
    simp [splitOnChar] at hg
    simp [hg]
  | cons c rest ih =>
    intro g hg
    simp only [splitOnChar] at hg
    by_cases h : c = sep
    · rw [if_pos h] at hg
      rcases List.mem_cons.mp hg with h1 | h1
      · simp [h1]
      · exact ih g h1
    · rw [if_neg h] at hg
      cases hs : splitOnChar sep rest with
      | nil => exact absurd hs (splitOnChar_ne_nil sep rest)
      | cons g0 gs =>
        rw [hs] at hg
        rcases List.mem_cons.mp hg with h1 | h1
        · subst h1
          intro hmem
          rcases List.mem_cons.mp hmem with h2 | h2
          · exact h h2.symm
          · exact ih g0 (hs ▸ List.mem_cons_self _ _) h2
        · exact ih g (hs ▸ List.mem_cons_of_mem g0 h1)

theorem intercalateChar_cons_nil (sep : Char) (L : List (List Char))
    (hL : L ≠ []) :
    intercalateChar sep ([] :: L) = sep :: intercalateChar sep L := by
  cases L with
  | nil => exact absurd rfl hL
  | cons g gs => rfl

theorem intercalateChar_splitOnChar (sep : Char) :
    ∀ l, intercalateChar sep (splitOnChar sep l) = l := by
  intro l
  induction l with
  | nil => rfl
  | cons c rest ih =>
    simp only [splitOnChar]
    by_cases h : c = sep
    · rw [if_pos h,
        intercalateChar_cons_nil sep _ (splitOnChar_ne_nil sep rest), ih, h]
    · rw [if_neg h]
      cases hs : splitOnChar sep rest with
      | nil => exact absurd hs (splitOnChar_ne_nil sep rest)
      | cons g gs =>
        rw [hs] at ih
        cases gs with
        | nil =>
          show c :: g = c :: rest
          rw [show intercalateChar sep [g] = g from rfl] at ih
          rw [ih]
        | cons g2 gs2 =>
          show (c :: g) ++ sep :: intercalateChar sep (g2 :: gs2) = c :: rest
          show c :: (g ++ sep :: intercalateChar sep (g2 :: gs2)) = c :: rest
          rw [show g ++ sep :: intercalateChar sep (g2 :: gs2) =
            intercalateChar sep (g :: g2 :: gs2) from rfl, ih]

/-- The character text of one page chunk: each rendered part preceded by a
blank separator line, and the final join/terminator newlines (two before a
following page marker, the single trailing newline of the document on the
last page). -/
def chunkOf (stuff : List (List Char)) (last : Bool) : List Char :=
  (stuff.flatMap fun s => '\n' :: '\n' :: s) ++
    (if last then ['\n'] else ['\n', '\n'])

/-- The lines of `chunkOf`. -/
def chunkLines (stuff : List (List Char)) (last : Bool) :
    List (List Char) :=
  [[], []] ++ (stuff.flatMap fun s => splitOnChar '\n' s ++ [[]]) ++
    (if last then [] else [[]])

theorem chunkOf_eq_join (stuff : List (List Char)) (last : Bool) :
    chunkOf stuff last = intercalateChar '\n' (chunkLines stuff last) := by
  induction stuff with
  | nil => cases last <;> rfl
  | cons s rest ih =>
    have hchunk : chunkOf (s :: rest) last =
        '\n' :: '\n' :: (s ++ chunkOf rest last) := by
      simp [chunkOf, List.append_assoc]
    have hlines : chunkLines (s :: rest) last =
        [] :: [] :: (splitOnChar '\n' s ++
          ([[]] ++ ((rest.flatMap fun s => splitOnChar '\n' s ++ [[]]) ++
            (if last then [] else [[]])))) := by
      simp [chunkLines, List.append_assoc]
    have hlines' : chunkLines rest last =
        [] :: ([[]] ++ ((rest.flatMap fun s => splitOnChar '\n' s ++ [[]]) ++
          (if last then [] else [[]]))) := by
      simp [chunkLines, List.append_assoc]
    rw [hchunk, hlines]
    rw [intercalateChar_cons_nil _ _ (by simp),
      intercalateChar_cons_nil _ _ (by simp),
      intercalateChar_append _ _ _ (splitOnChar_ne_nil '\n' s) (by simp),
      intercalateChar_splitOnChar]
    rw [ih, hlines', intercalateChar_cons_nil _ _ (by simp)]

theorem splitOnChar_chunkOf (stuff : List (List Char)) (last : Bool) :
    splitOnChar '\n' (chunkOf stuff last) = chunkLines stuff last := by
  rw [chunkOf_eq_join]
  refine splitOnChar_intercalateChar '\n' _ ?_ ?_
  · simp [chunkLines]
  · intro l hl
    simp only [chunkLines, List.mem_append, List.mem_flatMap] at hl
    rcases hl with (h1 | ⟨s, _, h2⟩) | h3
    · simp only [List.mem_cons] at h1
      rcases h1 with h1 | h1 | h1 <;> simp_all
    · rcases h2 with h2 | h2
      · exact splitOnChar_sep_not_mem '\n' s l h2
      · simp at h2; simp [h2]
    · cases last with
      | true => simp at h3
      | false => simp at h3; simp [h3]

namespace MarkdownConverter

/-- The grouping `_render_blocks` performs: maximal runs of consecutive
list items form one group, every other block is a singleton group.
`pend` is the run currently being collected. -/
def groupsAux (pend : List TextBlock) : List TextBlock → List (List TextBlock)
  | [] => if pend.isEmpty then [] else [pend]
  | b :: rest =>
    if b.block_type == "list_item" then groupsAux (pend ++ [b]) rest
    else (if pend.isEmpty then [] else [pend]) ++ [b] :: groupsAux [] rest

/-- What `_render_blocks` emits for one group. -/
def renderGroup (g : List TextBlock) : String :=
  match g with
  | [] => ""
  | b :: _ => if b.block_type == "list_item" then renderListItems g else b.text

/-- The `base_x` of `_render_list_items` for a group. -/
def runMinX (g : List TextBlock) : ℚ :=
  match g with
  | [] => 0
  | b :: rest => rest.foldl (fun m b2 => min m b2.bbox.x0) b.bbox.x0

/-- A list run reduced to its observable: item texts with the x-offset of
each item above the run minimum. -/
def relRun (g : List TextBlock) : List (String × ℚ) :=
  g.map fun b => (b.text, b.bbox.x0 - runMinX g)

/-- The list runs of a block sequence, reduced to their observables. -/
def listRuns (blocks : List TextBlock) : List (List (String × ℚ)) :=
  (groupsAux [] blocks).filterMap fun g =>
    match g with
    | b :: _ => if b.block_type == "list_item" then some (relRun g) else none
    | [] => none

def rbStep (acc : List String × List TextBlock) (block : TextBlock) :
    List String × List TextBlock :=
  if block.block_type == "list_item" then (acc.1, acc.2 ++ [block])
  else
    ((if acc.2.isEmpty then acc.1
      else acc.1 ++ [renderListItems acc.2]) ++ [block.text], [])

/-- Flush a pending run at the end of the `_render_blocks` fold. -/
def flushParts (st : List String × List TextBlock) : List String :=
  if st.2.isEmpty then st.1 else st.1 ++ [renderListItems st.2]

theorem renderBlocks_fold :
    ∀ (blocks : List TextBlock) (parts : List String) (pend : List TextBlock),
      (∀ b ∈ pend, b.block_type = "list_item") →
      flushParts (blocks.foldl rbStep (parts, pend)) =
        parts ++ (groupsAux pend blocks).map renderGroup := by
  intro blocks
  induction blocks with
  | nil =>
    intro parts pend hpend
    simp only [List.foldl_nil, groupsAux, flushParts]
    cases pend with
    | nil => simp
    | cons p0 ps =>
      have h0 : p0.block_type = "list_item" := hpend p0 (List.mem_cons_self _ _)
      simp [renderGroup, h0]
  | cons b rest ih =>
    intro parts pend hpend
    by_cases hb : b.block_type = "list_item"
    · have hbeq : (b.block_type == "list_item") = true := by simp [hb]
      simp only [List.foldl_cons, groupsAux, rbStep, hbeq, if_true]
      exact ih parts (pend ++ [b]) (by
        intro x hx
        rcases List.mem_append.mp hx with h | h
        · exact hpend x h
        · simp at h; rw [h, hb])
    · have hbeq : (b.block_type == "list_item") = false := by simp [hb]
      simp only [List.foldl_cons, groupsAux, rbStep, hbeq, Bool.false_eq_true,
        if_false]
      rw [ih _ [] (by simp)]
      cases pend with
      | nil => simp [renderGroup, hbeq]
      | cons p0 ps =>
        have h0 : p0.block_type = "list_item" :=
          hpend p0 (List.mem_cons_self _ _)
        simp [renderGroup, hbeq, h0, List.append_assoc]

theorem renderBlocks_groups (blocks : List TextBlock) :
    renderBlocks blocks =
      String.intercalate "\n\n"
        (((groupsAux [] blocks).map renderGroup).filter fun p => p != "") := by
  have h : renderBlocks blocks = String.intercalate "\n\n"
      ((flushParts (blocks.foldl rbStep ([], []))).filter fun p => p != "") :=
    rfl
  rw [h, renderBlocks_fold blocks [] [] (by simp)]
  simp

end MarkdownConverter

/-- `t.toList = []` forces `t = ""`. -/
theorem string_of_toList_nil {t : String} (h : t.toList = []) : t = "" := by
  cases t with
  | mk data =>
    have hd : data = [] := h
    rw [hd]

namespace MarkdownConverter

/-- A character that can appear in safe body text: anything except the two
characters the codec gives structural meaning to across lines. -/
def plainChar (c : Char) : Bool := !(c == '<') && !(c == '\n')

/-- A non-empty list of characters that `strip` leaves unchanged. -/
def strippedNE (l : List Char) : Bool := !l.isEmpty && pyStripList l == l

/-- A paragraph line the parser will not mistake for anything else: stripped,
non-empty, free of `<`/newlines, and not shaped like a table row, a list
item/break, or a heading. -/
def safeTextLine (l : List Char) : Bool :=
  strippedNE l && l.all plainChar && !isTableLineL l && !listBreakMatchL l &&
    !headingBreakMatch l

/-- A safe paragraph text: every line safe (hence non-empty: no leading,
trailing or doubled newlines). -/
def safeParaText (t : String) : Bool :=
  (splitOnChar '\n' t.toList).all safeTextLine

/-- A safe list-item text: stripped, non-empty, no `<` or newline. -/
def safeItemText (t : String) : Bool :=
  strippedNE t.toList && t.toList.all plainChar

/-- A safe table cell: stripped, free of pipes, `<` and newlines. -/
def safeCell (s : String) : Bool :=
  pyStripList s.toList == s.toList &&
    s.toList.all fun c => plainChar c && !(c == '|')

/-- A safe table: non-empty rows of equal positive width, safe cells. -/
def safeTable (t : Table) : Bool :=
  match t.rows with
  | [] => false
  | h :: data =>
    !h.isEmpty && (data.all fun r => r.length == h.length) &&
      (h :: data).all fun r => r.all safeCell

/-- A safe section title: non-empty and alphanumeric. -/
def safeTitle (t : String) : Bool :=
  !t.toList.isEmpty && t.toList.all Char.isAlphanum

/-- A safe reading-order block: a paragraph with safe text, or a list item
with safe text and a canonical x-position `10 + 30·nesting`. -/
def SafeBlock (b : TextBlock) : Prop :=
  (b.block_type = "paragraph" ∧ safeParaText b.text = true) ∨
  (b.block_type = "list_item" ∧ safeItemText b.text = true ∧
    ∃ k : ℕ, b.bbox.x0 = 10 + 30 * k)

theorem safeParaText_ne {t : String} (h : safeParaText t = true) : t ≠ "" := by
  intro he
  subst he
  simp [safeParaText, splitOnChar, safeTextLine, strippedNE] at h

theorem renderListItems_chars (i0 : TextBlock) (rest : List TextBlock) :
    (renderListItems (i0 :: rest)).toList =
      sepJoin ['\n'] (((i0 :: rest).map fun item =>
        let offset := item.bbox.x0 -
          (rest.foldl (fun m b => min m b.bbox.x0) i0.bbox.x0)
        let nesting : Nat := if offset > 15 then ((offset / 30).floor).toNat
          else 0
        List.replicate (2 * nesting) ' ' ++ '-' :: ' ' :: item.text.toList)) := by
  rw [show renderListItems (i0 :: rest) = String.intercalate "\n"
    ((i0 :: rest).map fun item =>
      let offset := item.bbox.x0 -
        (rest.foldl (fun m b => min m b.bbox.x0) i0.bbox.x0)
      let nesting : Nat := if offset > 15 then ((offset / 30).floor).toNat
        else 0
      String.mk (List.replicate (2 * nesting) ' ') ++ "- " ++ item.text)
    from rfl, intercalate_chars]
  rw [show "\n".toList = ['\n'] from rfl]
  refine congrArg (sepJoin ['\n']) ?_
  rw [List.map_map]
  refine List.map_congr_left ?_
  intro item _
  simp [Function.comp, String.toList]

theorem renderListItems_ne (i0 : TextBlock) (rest : List TextBlock) :
    renderListItems (i0 :: rest) ≠ "" := by
  intro h
  have h2 := congrArg String.toList h
  rw [renderListItems_chars] at h2
  simp only [List.map_cons, sepJoin] at h2
  rcases List.append_eq_nil.mp h2 with ⟨h3, _⟩
  rcases List.append_eq_nil.mp h3 with ⟨_, h4⟩
  cases h4

theorem renderTable_ne (t : Table) (h : t.rows ≠ []) : renderTable t ≠ "" := by
  intro he
  cases hr : t.rows with
  | nil => exact h hr
  | cons header data =>
    rw [renderTable, hr] at he
    have h2 := congrArg String.toList he
    rw [intercalate_chars] at h2
    simp only [List.map_cons, List.map_append, sepJoin] at h2
    rcases List.append_eq_nil.mp h2 with ⟨h3, _⟩
    simp at h3

theorem groupsAux_ne : ∀ (blocks pend : List TextBlock),
    pend ≠ [] ∨ blocks ≠ [] → groupsAux pend blocks ≠ [] := by
  intro blocks
  induction blocks with
  | nil =>
    intro pend hp
    rcases hp with hp | hp
    · simp only [groupsAux]
      rw [if_neg (by simpa using hp)]
      simp
    · exact absurd rfl hp
  | cons b rest ih =>
    intro pend _
    simp only [groupsAux]
    by_cases hb : (b.block_type == "list_item") = true
    · rw [if_pos hb]
      exact ih (pend ++ [b]) (Or.inl (by simp))
    · rw [if_neg hb]
      simp

theorem groupsAux_mem_ne : ∀ (blocks pend : List TextBlock)
    (g : List TextBlock), g ∈ groupsAux pend blocks → g ≠ [] := by
  intro blocks
  induction blocks with
  | nil =>
    intro pend g hg
    simp only [groupsAux] at hg
    by_cases hp : pend.isEmpty = true
    · rw [if_pos hp] at hg
      simp at hg
    · rw [if_neg hp] at hg
      simp at hg
      rw [hg]
      simpa using hp
  | cons b rest ih =>
    intro pend g hg
    simp only [groupsAux] at hg
    by_cases hb : (b.block_type == "list_item") = true
    · rw [if_pos hb] at hg
      exact ih (pend ++ [b]) g hg
    · rw [if_neg hb] at hg
      rcases List.mem_append.mp hg with h1 | h1
      · by_cases hp : pend.isEmpty = true
        · rw [if_pos hp] at h1
          simp at h1
        · rw [if_neg hp] at h1
          simp at h1
          rw [h1]
          simpa using hp
      · rcases List.mem_cons.mp h1 with h2 | h2
        · rw [h2]; simp
        · exact ih [] g h2

theorem groupsAux_mem_blocks : ∀ (blocks pend g : List TextBlock)
    (b : TextBlock), g ∈ groupsAux pend blocks → b ∈ g →
    b ∈ pend ∨ b ∈ blocks := by
  intro blocks
  induction blocks with
  | nil =>
    intro pend g b hg hb
    simp only [groupsAux] at hg
    by_cases hp : pend.isEmpty = true
    · rw [if_pos hp] at hg; simp at hg
    · rw [if_neg hp] at hg
      simp at hg
      rw [hg] at hb
      exact Or.inl hb
  | cons bb rest ih =>
    intro pend g b hg hb
    simp only [groupsAux] at hg
    by_cases hbb : (bb.block_type == "list_item") = true
    · rw [if_pos hbb] at hg
      rcases ih (pend ++ [bb]) g b hg hb with h | h
      · rcases List.mem_append.mp h with h1 | h1
        · exact Or.inl h1
        · simp at h1; exact Or.inr (by simp [h1])
      · exact Or.inr (List.mem_cons_of_mem bb h)
    · rw [if_neg hbb] at hg
      rcases List.mem_append.mp hg with h1 | h1
      · by_cases hp : pend.isEmpty = true
        · rw [if_pos hp] at h1; simp at h1
        · rw [if_neg hp] at h1
          simp at h1
          rw [h1] at hb
          exact Or.inl hb
      · rcases List.mem_cons.mp h1 with h2 | h2
        · rw [h2] at hb
          simp at hb
          exact Or.inr (by simp [hb])
        · rcases ih [] g b h2 hb with h | h
          · simp at h
          · exact Or.inr (List.mem_cons_of_mem bb h)

theorem string_ext_toList {u v : String} (h : u.toList = v.toList) : u = v := by
  cases u
  cases v
  exact congrArg String.mk h

theorem intercalate_ne_of_head (s x : String) (xs : List String)
    (hx : x ≠ "") : String.intercalate s (x :: xs) ≠ "" := by
  intro h
  have h2 := congrArg String.toList h
  rw [intercalate_chars] at h2
  simp only [List.map_cons, sepJoin] at h2
  rcases List.append_eq_nil.mp h2 with ⟨h3, _⟩
  exact hx (string_of_toList_nil h3)

theorem filter_bne_empty (parts : List String) (h : ∀ p ∈ parts, p ≠ "") :
    (parts.filter fun p => p != "") = parts := by
  apply List.filter_eq_self.mpr
  intro p hp
  simpa using h p hp

theorem intercalate_nested (s : String) (A B : List String) (hA : A ≠ []) :
    String.intercalate s (String.intercalate s A :: B) =
      String.intercalate s (A ++ B) := by
  apply string_ext_toList
  rw [intercalate_chars, intercalate_chars]
  simp only [List.map_cons, List.map_append]
  rw [intercalate_chars]
  rw [sepJoin_nested s.toList _ _ (by simpa using hA)]

theorem renderGroup_ne {blocks : List TextBlock}
    (hb : ∀ b ∈ blocks, SafeBlock b) {g : List TextBlock}
    (hg : g ∈ groupsAux [] blocks) : renderGroup g ≠ "" := by
  cases g with
  | nil => exact absurd rfl (groupsAux_mem_ne blocks [] [] hg)
  | cons b0 grest =>
    have hbm : b0 ∈ blocks := by
      rcases groupsAux_mem_blocks blocks [] (b0 :: grest) b0 hg
          (List.mem_cons_self _ _) with h | h
      · simp at h
      · exact h
    rcases hb b0 hbm with ⟨htype, hsafe⟩ | ⟨htype, _, _⟩
    · simp only [renderGroup]
      rw [if_neg (by simp [htype])]
      exact safeParaText_ne hsafe
    · simp only [renderGroup]
      rw [if_pos (by simp [htype])]
      exact renderListItems_ne b0 grest

theorem safeTable_rows_ne {t : Table} (h : safeTable t = true) :
    t.rows ≠ [] := by
  intro he
  rw [safeTable, he] at h
  cases h

/-- The parts `_render_content` emits for a safe content, with the block
parts flattened to one string per group. -/
def flatRendered (c : ExtractedContent) : List String :=
  (if c.reading_order_blocks.isEmpty then []
   else (groupsAux [] c.reading_order_blocks).map renderGroup) ++
  c.tables.map renderTable

theorem flatRendered_ne (c : ExtractedContent)
    (hb : ∀ b ∈ c.reading_order_blocks, SafeBlock b)
    (ht : ∀ t ∈ c.tables, safeTable t = true) :
    ∀ p ∈ flatRendered c, p ≠ "" := by
  intro p hp
  rcases List.mem_append.mp hp with h1 | h1
  · by_cases hblk : c.reading_order_blocks.isEmpty = true
    · rw [if_pos hblk] at h1; simp at h1
    · rw [if_neg hblk] at h1
      obtain ⟨g, hg, hpg⟩ := List.mem_map.mp h1
      rw [← hpg]
      exact renderGroup_ne hb hg
  · obtain ⟨t, htm, hpt⟩ := List.mem_map.mp h1
    rw [← hpt]
    exact renderTable_ne t (safeTable_rows_ne (ht t htm))

theorem renderContent_flat (c : ExtractedContent)
    (hb : ∀ b ∈ c.reading_order_blocks, SafeBlock b)
    (ht : ∀ t ∈ c.tables, safeTable t = true)
    (he : c.reading_order_blocks = [] → c.body_text = "") :
    renderContent c = String.intercalate "\n\n" (flatRendered c) := by
  have h0 : renderContent c = String.intercalate "\n\n"
      (((if ! c.reading_order_blocks.isEmpty then
          [renderBlocks c.reading_order_blocks]
        else if c.body_text != "" then [c.body_text] else []) ++
        c.tables.map renderTable).filter fun p => p != "") := rfl
  rw [h0]
  cases hblk : c.reading_order_blocks with
  | nil =>
    have hbody := he hblk
    rw [hbody]
    simp only [List.isEmpty_nil, Bool.not_true, Bool.false_eq_true, if_false,
      bne_self_eq_false, List.nil_append]
    rw [filter_bne_empty _ (by
      intro p hp
      obtain ⟨t, htm, hpt⟩ := List.mem_map.mp hp
      rw [← hpt]
      exact renderTable_ne t (safeTable_rows_ne (ht t htm)))]
    simp [flatRendered, hblk]
  | cons b0 bs =>
    simp only [List.isEmpty_cons, Bool.not_false, if_true]
    rw [renderBlocks_groups]
    have hGne : ∀ p ∈ (groupsAux [] (b0 :: bs)).map renderGroup, p ≠ "" := by
      intro p hp
      obtain ⟨g, hg, hpg⟩ := List.mem_map.mp hp
      rw [← hpg]
      exact renderGroup_ne (hblk ▸ hb) hg
    rw [filter_bne_empty _ hGne]
    have hGnil : (groupsAux [] (b0 :: bs)).map renderGroup ≠ [] := by
      intro h
      exact groupsAux_ne (b0 :: bs) [] (Or.inr (by simp))
        (List.map_eq_nil_iff.mp h)
    rw [filter_bne_empty]
    · rw [List.singleton_append, intercalate_nested _ _ _ hGnil]
      simp [flatRendered, hblk]
    · intro p hp
      rcases List.mem_cons.mp hp with h1 | h1
      · rw [h1]
        obtain ⟨x, xs, hx⟩ : ∃ x xs,
            (groupsAux [] (b0 :: bs)).map renderGroup = x :: xs := by
          cases hG : (groupsAux [] (b0 :: bs)).map renderGroup with
          | nil => exact absurd hG hGnil
          | cons x xs => exact ⟨x, xs, rfl⟩
        rw [hx]
        exact intercalate_ne_of_head _ x xs (hGne x (hx ▸ List.mem_cons_self _ _))
      · obtain ⟨t, htm, hpt⟩ := List.mem_map.mp h1
        rw [← hpt]
        exact renderTable_ne t (safeTable_rows_ne (ht t htm))

/-- The rendered parts of one page after its page marker: section marker
and heading parts, then the rendered content when non-empty. -/
def pageStuff (secs : List DocumentSection) (page : PageContent) :
    List String :=
  ((findSecList secs page.page_number).flatMap fun sec =>
      ["<!-- section: " ++ sec.title ++ " -->",
        String.mk (List.replicate sec.level '#') ++ " " ++ sec.title] ++
      (if sec.content != "" then [sec.content] else [])) ++
  (let rendered := renderContent page.content
   if rendered != "" then [rendered] else [])

/-- The page/chunk pairs `_split_by_pages` will recover: each page paired
with the chunk text standing between its marker and the next (a trailing
newline instead of the blank-line separator on the last page). -/
def pagePairsAux (secs : List DocumentSection) :
    List PageContent → List (Nat × List Char)
  | [] => []
  | [p] => [(p.page_number, chunkOf ((pageStuff secs p).map String.toList) true)]
  | p :: q :: rest =>
    (p.page_number, chunkOf ((pageStuff secs p).map String.toList) false) ::
      pagePairsAux secs (q :: rest)

theorem marker_string_chars (n : Nat) :
    ("<!-- page: " ++ String.mk (natRepr n) ++ " -->").toList =
      pageMarkerChars n := by
  simp [pageMarkerChars, String.toList]

theorem segs_pages (secs : List DocumentSection) :
    ∀ pages : List PageContent, pages ≠ [] →
      sepJoin "\n\n".toList ((pages.flatMap fun page =>
        ("<!-- page: " ++ String.mk (natRepr page.page_number) ++ " -->") ::
          pageStuff secs page).map String.toList) ++ ['\n'] =
      segsChars (pagePairsAux secs pages) := by
  intro pages
  induction pages with
  | nil => intro h; exact absurd rfl h
  | cons p rest ih =>
    intro _
    cases rest with
    | nil =>
      simp only [List.flatMap_cons, List.flatMap_nil, List.append_nil,
        List.map_cons]
      rw [show sepJoin "\n\n".toList
        (("<!-- page: " ++ String.mk (natRepr p.page_number) ++ " -->").toList ::
          (pageStuff secs p).map String.toList) =
        ("<!-- page: " ++ String.mk (natRepr p.page_number) ++ " -->").toList ++
          ((pageStuff secs p).map String.toList).flatMap
            (fun s => '\n' :: '\n' :: s) from rfl]
      rw [marker_string_chars]
      simp [segsChars, pagePairsAux, chunkOf, List.append_assoc]
    | cons q rest2 =>
      have hB : ((q :: rest2).flatMap fun page =>
          ("<!-- page: " ++ String.mk (natRepr page.page_number) ++ " -->") ::
            pageStuff secs page).map String.toList ≠ [] := by
        simp [List.flatMap_cons]
      have hsplit : ((p :: q :: rest2).flatMap fun page =>
          ("<!-- page: " ++ String.mk (natRepr page.page_number) ++ " -->") ::
            pageStuff secs page) =
          (("<!-- page: " ++ String.mk (natRepr p.page_number) ++ " -->") ::
            pageStuff secs p) ++
          ((q :: rest2).flatMap fun page =>
            ("<!-- page: " ++ String.mk (natRepr page.page_number) ++ " -->") ::
              pageStuff secs page) := by
        simp [List.flatMap_cons]
      rw [hsplit, List.map_append,
        sepJoin_append_ne _ _ _ (by simp) hB]
      rw [List.map_cons]
      rw [show sepJoin "\n\n".toList
        (("<!-- page: " ++ String.mk (natRepr p.page_number) ++ " -->").toList ::
          (pageStuff secs p).map String.toList) =
        ("<!-- page: " ++ String.mk (natRepr p.page_number) ++ " -->").toList ++
          ((pageStuff secs p).map String.toList).flatMap
            (fun s => '\n' :: '\n' :: s) from rfl]
      rw [marker_string_chars]
      have hIH := ih (by simp)
      rw [show segsChars (pagePairsAux secs (p :: q :: rest2)) =
        pageMarkerChars p.page_number ++
          (chunkOf ((pageStuff secs p).map String.toList) false ++
            segsChars (pagePairsAux secs (q :: rest2))) from by
        simp [pagePairsAux, segsChars, List.append_assoc]]
      rw [← hIH]
      simp [chunkOf, List.append_assoc]

theorem toMarkdown_chars (d : Document) (hp : d.pages ≠ []) :
    (toMarkdown d).toList =
      (if generateToc d.sections = "" then []
       else (generateToc d.sections).toList ++ ['\n', '\n']) ++
      segsChars (pagePairsAux d.sections d.pages) := by
  have hflat : d.pages.flatMap (fun page =>
      ("<!-- page: " ++ String.mk (natRepr page.page_number) ++ " -->") ::
        pageStuff d.sections page) ≠ [] := by
    cases hd : d.pages with
    | nil => exact absurd hd hp
    | cons p rest => simp [List.flatMap_cons]
  have h0 : toMarkdown d =
      (let parts := (if generateToc d.sections != ""
          then [generateToc d.sections] else []) ++
        d.pages.flatMap fun page =>
          ("<!-- page: " ++ String.mk (natRepr page.page_number) ++ " -->") ::
            pageStuff d.sections page
       if parts.isEmpty then ""
       else String.intercalate "\n\n" parts ++ "\n") := rfl
  rw [h0]
  by_cases htoc : generateToc d.sections = ""
  · rw [if_pos htoc]
    simp only [htoc, bne_self_eq_false, Bool.false_eq_true, if_false,
      List.nil_append]
    rw [if_neg (by simpa using hflat)]
    rw [show (String.intercalate "\n\n" (d.pages.flatMap fun page =>
      ("<!-- page: " ++ String.mk (natRepr page.page_number) ++ " -->") ::
        pageStuff d.sections page) ++ "\n").toList =
      (String.intercalate "\n\n" (d.pages.flatMap fun page =>
        ("<!-- page: " ++ String.mk (natRepr page.page_number) ++ " -->") ::
          pageStuff d.sections page)).toList ++ ['\n'] from by simp]
    rw [intercalate_chars]
    exact segs_pages d.sections d.pages hp
  · rw [if_neg htoc]
    have hbne : (generateToc d.sections != "") = true := by simpa using htoc
    rw [hbne]
    simp only [if_true]
    rw [if_neg (by simp)]
    rw [show (String.intercalate "\n\n" ([generateToc d.sections] ++
      d.pages.flatMap fun page =>
        ("<!-- page: " ++ String.mk (natRepr page.page_number) ++ " -->") ::
          pageStuff d.sections page) ++ "\n").toList =
      (String.intercalate "\n\n" ([generateToc d.sections] ++
        d.pages.flatMap fun page =>
          ("<!-- page: " ++ String.mk (natRepr page.page_number) ++ " -->") ::
            pageStuff d.sections page)).toList ++ ['\n'] from by simp]
    rw [intercalate_chars, List.map_append,
      sepJoin_append_ne _ _ _ (by simp) (by simpa using hflat)]
    rw [show (List.map String.toList [generateToc d.sections]) =
      [(generateToc d.sections).toList] from rfl]
    rw [show sepJoin "\n\n".toList [(generateToc d.sections).toList] =
      (generateToc d.sections).toList from by simp [sepJoin]]
    rw [List.append_assoc, ← segs_pages d.sections d.pages hp]
    rfl

mutual
/-- Pre-order list of all nodes of a section tree. -/
def flattenTree (s : DocumentSection) : List DocumentSection :=
  match s with
  | .mk t l c ps pe subs => .mk t l c ps pe subs :: flattenList subs

/-- Pre-order list of all nodes of a section forest. -/
def flattenList (secs : List DocumentSection) : List DocumentSection :=
  match secs with
  | [] => []
  | s :: rest => flattenTree s ++ flattenList rest
end

/-- The (title, level) pairs of a section forest, in pre-order. -/
def preorderTL (secs : List DocumentSection) : List (String × Nat) :=
  (flattenList secs).map fun s => (s.title, s.level)

mutual
theorem tocEntryTree_titles (s : DocumentSection) (depth : Nat) :
    (tocEntryTree s depth).map (fun e => e.2.1) =
      (flattenTree s).map DocumentSection.title := by
  match s with
  | .mk t l c ps pe subs =>
    simp only [tocEntryTree, flattenTree, List.map_cons]
    rw [tocEntryList_titles subs (depth + 1)]
    rfl

theorem tocEntryList_titles (secs : List DocumentSection) (depth : Nat) :
    (tocEntryList secs depth).map (fun e => e.2.1) =
      (flattenList secs).map DocumentSection.title := by
  match secs with
  | [] => rfl
  | s :: rest =>
    simp only [tocEntryList, flattenList, List.map_append]
    rw [tocEntryTree_titles s depth, tocEntryList_titles rest depth]
end

theorem subRuns_mem {p : Char → Bool} {rep : Char} :
    ∀ (l : List Char) (b : Bool) (c : Char),
      c ∈ subRuns p rep l b → c ∈ l ∨ c = rep := by
  intro l
  induction l with
  | nil => intro b c hc; cases hc
  | cons x xs ih =>
    intro b c hc
    simp only [subRuns] at hc
    by_cases hx : p x = true
    · rw [if_pos hx] at hc
      by_cases hb : b = true
      · rw [if_pos hb] at hc
        rcases ih true c hc with h | h
        · exact Or.inl (List.mem_cons_of_mem x h)
        · exact Or.inr h
      · rw [if_neg hb] at hc
        rcases List.mem_cons.mp hc with h | h
        · exact Or.inr h
        · rcases ih true c h with h2 | h2
          · exact Or.inl (List.mem_cons_of_mem x h2)
          · exact Or.inr h2
    · rw [if_neg hx] at hc
      rcases List.mem_cons.mp hc with h | h
      · exact Or.inl (h ▸ List.mem_cons_self x xs)
      · rcases ih false c h with h2 | h2
        · exact Or.inl (List.mem_cons_of_mem x h2)
        · exact Or.inr h2

theorem slugify_no_lt (t : String) : ∀ c ∈ (slugify t).toList, ¬ c = '<' := by
  intro c hc hlt
  subst hlt
  have hc2 : '<' ∈ (((subRuns (fun c => c == '-') '-'
      (subRuns (fun c => isPySpace c || c == '_') '-'
        ((pyStripList (t.toList.map Char.toLower)).filter fun c =>
          isWordChar c || isPySpace c || c == '-') false)
      false).dropWhile fun c => c == '-').reverse.dropWhile
        fun c => c == '-').reverse := hc
  rw [List.mem_reverse] at hc2
  have hc3 := (List.dropWhile_sublist _).subset hc2
  rw [List.mem_reverse] at hc3
  have hc4 := (List.dropWhile_sublist _).subset hc3
  rcases subRuns_mem _ _ _ hc4 with h | h
  · rcases subRuns_mem _ _ _ h with h2 | h2
    · have := List.of_mem_filter h2
      simp [isWordChar, isPySpace] at this
    · cases h2
  · cases h

theorem natRepr_no_lt (n : Nat) : ∀ c ∈ natRepr n, ¬ c = '<' := by
  intro c hc hlt
  have := (natRepr_digits n).2 c hc
  rw [hlt] at this
  cases this

theorem safeTitle_no_lt {t : String} (h : safeTitle t = true) :
    ∀ c ∈ t.toList, ¬ c = '<' := by
  intro c hc hlt
  subst hlt
  simp only [safeTitle, Bool.and_eq_true, List.all_eq_true] at h
  exact absurd (h.2 _ hc) (by decide)

theorem tocEntry_no_lt (e : Nat × String × Nat × Nat)
    (hsafe : safeTitle e.2.1 = true) :
    ∀ c ∈ (String.mk (List.replicate (2 * e.1) ' ') ++ "- [" ++ e.2.1 ++
      "](#" ++ slugify e.2.1 ++ ") (p. " ++ String.mk (natRepr e.2.2.1) ++
      "-" ++ String.mk (natRepr e.2.2.2) ++ ")").toList, ¬ c = '<' := by
  intro c hc hlt
  subst hlt
  simp only [String.toList, String.data_append, List.mem_append] at hc
  rcases hc with (((((((((h | h) | h) | h) | h) | h) | h) | h) | h) | h)
  · exact absurd (List.eq_of_mem_replicate h) (by decide)
  · revert h; decide
  · exact safeTitle_no_lt hsafe '<' h rfl
  · revert h; decide
  · exact slugify_no_lt e.2.1 '<' h rfl
  · revert h; decide
  · exact natRepr_no_lt e.2.2.1 '<' h rfl
  · revert h; decide
  · exact natRepr_no_lt e.2.2.2 '<' h rfl
  · revert h; decide

theorem tocEntryList_ne (s : DocumentSection) (rest : List DocumentSection) :
    tocEntryList (s :: rest) 0 ≠ [] := by
  cases s with
  | mk t l c ps pe subs => simp [tocEntryList, tocEntryTree]

theorem sepJoin_nl (o cl : List Char) (M : List (List Char)) :
    sepJoin "\n".toList (o :: (M ++ [cl])) =
      o ++ M.flatMap (fun l => '\n' :: l) ++ '\n' :: cl := by
  show o ++ (M ++ [cl]).flatMap (fun r => '\n' :: r) = _
  rw [List.flatMap_append]
  simp [List.append_assoc]

theorem generateToc_chars (secs : List DocumentSection)
    (hne : tocEntryList secs 0 ≠ [])
    (hsafe : ∀ s ∈ flattenList secs, safeTitle s.title = true) :
    ∃ A, (generateToc secs).toList =
      "<!-- toc -->".toList ++ A ++ "<!-- /toc -->".toList ∧
      ∀ c ∈ A, ¬ c = '<' := by
  have hmk : generateToc secs = String.intercalate "\n"
      (["<!-- toc -->"] ++
        (tocEntryList secs 0).map (fun e =>
          String.mk (List.replicate (2 * e.1) ' ') ++ "- [" ++ e.2.1 ++
            "](#" ++ slugify e.2.1 ++ ") (p. " ++
            String.mk (natRepr e.2.2.1) ++ "-" ++
            String.mk (natRepr e.2.2.2) ++ ")") ++
        ["<!-- /toc -->"]) := by
    rw [generateToc]
    rw [if_neg (by simpa using hne)]
  refine ⟨((((tocEntryList secs 0).map (fun e =>
      String.mk (List.replicate (2 * e.1) ' ') ++ "- [" ++ e.2.1 ++
        "](#" ++ slugify e.2.1 ++ ") (p. " ++
        String.mk (natRepr e.2.2.1) ++ "-" ++
        String.mk (natRepr e.2.2.2) ++ ")")).map String.toList).flatMap
      (fun l => '\n' :: l)) ++ ['\n'], ?_, ?_⟩
  · rw [hmk, intercalate_chars]
    simp only [List.map_append, List.map_cons, List.map_nil,
      List.singleton_append, List.cons_append, List.nil_append]
    rw [sepJoin_nl]
    simp [List.append_assoc]
  · intro c hc
    rcases List.mem_append.mp hc with h | h
    · obtain ⟨l, hl, hcl⟩ := List.mem_flatMap.mp h
      obtain ⟨ent, hent, hentl⟩ := List.mem_map.mp hl
      obtain ⟨e, he, hee⟩ := List.mem_map.mp hent
      rcases List.mem_cons.mp hcl with h2 | h2
      · simp [h2]
      · have hte : safeTitle e.2.1 = true := by
          have htitles : e.2.1 ∈ (tocEntryList secs 0).map (fun e => e.2.1) :=
            List.mem_map.mpr ⟨e, he, rfl⟩
          rw [tocEntryList_titles] at htitles
          obtain ⟨s, hs, hst⟩ := List.mem_map.mp htitles
          rw [← hst]
          exact hsafe s hs
        exact tocEntry_no_lt e hte c (by rw [hee, hentl]; exact h2)
    · simp at h
      simp [h]

theorem findLit_self_front (p : Char) (ps X : List Char) :
    findLit (p :: ps) ((p :: ps) ++ X) = some ([], X) := by
  show findLit (p :: ps) (p :: (ps ++ X)) = some ([], X)
  have hd : dropLitPre (p :: ps) (p :: (ps ++ X)) = some X := by
    have := dropLitPre_self_append (p :: ps) X
    simpa using this
  simp only [findLit, hd]

theorem stripTocF_step (fuel : Nat) (A tail : List Char)
    (hA : ∀ c ∈ A, ¬ c = '<')
    (htail : ltTagged (tail.dropWhile isPySpace)) :
    stripTocF (fuel + 1)
      ("<!-- toc -->".toList ++ A ++ "<!-- /toc -->".toList ++ tail) =
      tail.dropWhile isPySpace := by
  have hopen : findLit "<!-- toc -->".toList
      ("<!-- toc -->".toList ++ A ++ "<!-- /toc -->".toList ++ tail) =
      some ([], A ++ "<!-- /toc -->".toList ++ tail) := by
    rw [show "<!-- toc -->".toList ++ A ++ "<!-- /toc -->".toList ++ tail =
      "<!-- toc -->".toList ++ (A ++ "<!-- /toc -->".toList ++ tail) from by
        simp [List.append_assoc]]
    exact findLit_self_front _ _ _
  have hclose : findLit "<!-- /toc -->".toList
      (A ++ "<!-- /toc -->".toList ++ tail) = some (A, tail) := by
    rw [List.append_assoc]
    rw [show "<!-- /toc -->".toList = '<' :: "!-- /toc -->".toList from rfl]
    rw [findLit_shift_noLt A _ hA]
    rw [show ('<' :: "!-- /toc -->".toList) ++ tail =
      "<!-- /toc -->".toList ++ tail from rfl]
    rw [show "<!-- /toc -->".toList ++ tail =
      ('<' :: "!-- /toc -->".toList) ++ tail from rfl]
    rw [findLit_self_front]
    simp
  rw [stripTocF, hopen]
  simp only [hclose, List.nil_append]
  cases fuel with
  | zero => rfl
  | succ f =>
    rw [stripTocF, findLit_toc_none _ htail]

theorem ltGen_append {Q : List Char → Prop}
    (hQ : ∀ x t, Q x → Q (x ++ t)) (a b : List Char)
    (ha : ∀ u v, a = u ++ '<' :: v → Q v)
    (hb : ∀ u v, b = u ++ '<' :: v → Q v) :
    ∀ u v, a ++ b = u ++ '<' :: v → Q v := by
  intro u v huv
  rcases List.append_eq_append_iff.mp huv with ⟨w, _, hw2⟩ | ⟨w, hw1, hw2⟩
  · exact hb w v hw2
  · cases w with
    | nil =>
      simp at hw1 hw2
      exact hb [] v hw2.symm
    | cons x w' =>
      have hx : '<' = x := (List.cons_eq_cons.mp hw2).1
      have hrest : v = w' ++ b := by
        have := (List.cons_eq_cons.mp hw2).2
        simpa using this
      have hQa := ha u w' (by rw [hw1, ← hx])
      rw [hrest]
      exact hQ w' b hQa

theorem ltSection_of_no_lt (l : List Char) (h : ∀ c ∈ l, ¬ c = '<') :
    ltSection l := by
  intro u v huv
  exact absurd (h '<' (huv ▸ List.mem_append.mpr
    (Or.inr (List.mem_cons_self _ _)))) (by simp)

theorem ltTagged_of_no_lt (l : List Char) (h : ∀ c ∈ l, ¬ c = '<') :
    ltTagged l := fun u v huv => absurd (h '<' (huv ▸ List.mem_append.mpr
  (Or.inr (List.mem_cons_self _ _)))) (by simp)

theorem ltSection_append {a b : List Char} (ha : ltSection a)
    (hb : ltSection b) : ltSection (a ++ b) :=
  ltGen_append (fun x t hx => hx.trans (List.prefix_append x t)) a b ha hb

theorem ltTagged_append {a b : List Char} (ha : ltTagged a)
    (hb : ltTagged b) : ltTagged (a ++ b) :=
  ltGen_append (fun x t hx => hx.elim
    (fun h => Or.inl (h.trans (List.prefix_append x t)))
    (fun h => Or.inr (h.trans (List.prefix_append x t)))) a b ha hb

theorem ltSection_cons_of {c : Char} {l : List Char} (hc : ¬ c = '<')
    (hl : ltSection l) : ltSection (c :: l) := by
  intro u v huv
  cases u with
  | nil =>
    have := (List.cons_eq_cons.mp huv).1
    exact absurd this hc
  | cons x u' =>
    exact hl u' v (List.cons_eq_cons.mp huv).2

theorem ltTagged_cons_of {c : Char} {l : List Char} (hc : ¬ c = '<')
    (hl : ltTagged l) : ltTagged (c :: l) := by
  intro u v huv
  cases u with
  | nil =>
    have := (List.cons_eq_cons.mp huv).1
    exact absurd this hc
  | cons x u' =>
    exact hl u' v (List.cons_eq_cons.mp huv).2

theorem ltSection_open {r : List Char} (hr : ltSection (sectionTag ++ r)) :
    ltSection ('<' :: (sectionTag ++ r)) := by
  intro u v huv
  cases u with
  | nil =>
    have := (List.cons_eq_cons.mp huv).2
    rw [← this]
    exact List.prefix_append _ _
  | cons x u' =>
    exact hr u' v (List.cons_eq_cons.mp huv).2

theorem ltTagged_open_page {r : List Char} (hr : ltTagged (pageTag ++ r)) :
    ltTagged ('<' :: (pageTag ++ r)) := by
  intro u v huv
  cases u with
  | nil =>
    have := (List.cons_eq_cons.mp huv).2
    rw [← this]
    exact Or.inr (List.prefix_append _ _)
  | cons x u' =>
    exact hr u' v (List.cons_eq_cons.mp huv).2

/-- The character text of a rendered section marker line. -/
def sectionMarkerChars (t : List Char) : List Char :=
  "<!-- section: ".toList ++ t ++ " -->".toList

theorem ltSection_marker {t : List Char} (ht : ∀ c ∈ t, ¬ c = '<') :
    ltSection (sectionMarkerChars t) := by
  have hshape : sectionMarkerChars t =
      '<' :: (sectionTag ++ (t ++ " -->".toList)) := by
    simp [sectionMarkerChars, sectionTag]
  rw [hshape]
  apply ltSection_open
  apply ltSection_of_no_lt
  intro c hc
  rcases List.mem_append.mp hc with h | h
  · exact (by decide : ∀ x ∈ sectionTag, ¬ x = '<') c h
  · rcases List.mem_append.mp h with h | h
    · exact ht c h
    · exact (by decide : ∀ x ∈ " -->".toList, ¬ x = '<') c h

theorem ltTagged_pageMarker (n : Nat) : ltTagged (pageMarkerChars n) := by
  have hshape : pageMarkerChars n =
      '<' :: (pageTag ++ (natRepr n ++ " -->".toList)) := by
    simp [pageMarkerChars, pageTag]
  rw [hshape]
  apply ltTagged_open_page
  apply ltTagged_of_no_lt
  intro c hc
  rcases List.mem_append.mp hc with h | h
  · exact (by decide : ∀ x ∈ pageTag, ¬ x = '<') c h
  · rcases List.mem_append.mp h with h | h
    · exact natRepr_no_lt n c h
    · exact (by decide : ∀ x ∈ " -->".toList, ¬ x = '<') c h

theorem ltSection_chunkOf (stuff : List (List Char)) (last : Bool)
    (h : ∀ s ∈ stuff, ltSection s) : ltSection (chunkOf stuff last) := by
  rw [chunkOf]
  apply ltSection_append
  · clear last
    induction stuff with
    | nil => exact ltSection_of_no_lt [] (by simp)
    | cons s rest ih =>
      rw [List.flatMap_cons]
      apply ltSection_append
      · exact ltSection_cons_of (by decide) (ltSection_cons_of (by decide)
          (h s (List.mem_cons_self _ _)))
      · exact ih fun x hx => h x (List.mem_cons_of_mem s hx)
  · apply ltSection_of_no_lt
    intro c hc
    cases last with
    | true => simp at hc; simp [hc]
    | false => simp at hc; simp [hc]

theorem ltTagged_segsChars (ps : List (Nat × List Char))
    (h : ∀ p ∈ ps, ltSection p.2) : ltTagged (segsChars ps) := by
  induction ps with
  | nil => exact ltTagged_of_no_lt [] (by simp)
  | cons p rest ih =>
    rw [show segsChars (p :: rest) =
      (pageMarkerChars p.1 ++ p.2) ++ segsChars rest from by
        simp [segsChars, List.append_assoc]]
    apply ltTagged_append
    · exact ltTagged_append (ltTagged_pageMarker p.1)
        (ltSection_tagged (h p (List.mem_cons_self _ _)))
    · exact ih fun x hx => h x (List.mem_cons_of_mem p hx)

/-- A line that `strip` leaves unchanged because both ends are non-space. -/
def hardLine (l : List Char) : Bool :=
  (match l.head? with
   | some c => !isPySpace c
   | none => false) &&
  (match l.getLast? with
   | some d => !isPySpace d
   | none => false)

theorem pyStripList_subset {l : List Char} : ∀ c ∈ pyStripList l, c ∈ l := by
  intro c hc
  rw [pyStripList, List.mem_reverse] at hc
  have h2 := (List.dropWhile_sublist _).subset hc
  rw [List.mem_reverse] at h2
  exact (List.dropWhile_sublist _).subset h2

theorem pyStripList_self {l : List Char} (h : hardLine l = true) :
    pyStripList l = l := by
  cases l with
  | nil => cases h
  | cons c rest =>
    rw [hardLine, Bool.and_eq_true] at h
    have hc : isPySpace c = false := by
      have := h.1
      simp only [List.head?_cons] at this
      simpa using this
    have hd : ∀ d, (c :: rest).getLast? = some d → isPySpace d = false := by
      intro d hd2
      have := h.2
      rw [hd2] at this
      simpa using this
    rw [pyStripList, dropWhile_head_false c rest (by simp [hc])]
    cases hrev : (c :: rest).reverse with
    | nil => exact absurd hrev (by simp)
    | cons d rev' =>
      have hdlast : (c :: rest).getLast? = some d := by
        rw [← List.head?_reverse, hrev]
        rfl
      rw [dropWhile_head_false d rev' (by simp [hd d hdlast])]
      rw [← hrev, List.reverse_reverse]

theorem sectionMarkerTitle_none_of_no_lt (l : List Char)
    (h : ∀ c ∈ l, ¬ c = '<') : sectionMarkerTitle (pyStripList l) = none := by
  rw [sectionMarkerTitle, if_neg]
  intro hcond
  have h1 := hcond.1
  have hlt : '<' ∈ (pyStripList l).take 14 := by
    rw [h1]
    decide
  exact h '<' (pyStripList_subset '<' (List.take_subset _ _ hlt)) rfl

theorem markerStartL_false_of_no_lt (l : List Char)
    (h : ∀ c ∈ l, ¬ c = '<') : markerStartL l = false := by
  rw [markerStartL]
  simp only [Bool.or_eq_false_iff, decide_eq_false_iff_not]
  constructor
  · intro h1
    have hlt : '<' ∈ (pyStripList l).take 13 := by
      rw [h1]
      decide
    exact h '<' (pyStripList_subset '<' (List.take_subset _ _ hlt)) rfl
  · intro h1
    have hlt : '<' ∈ (pyStripList l).take 10 := by
      rw [h1]
      decide
    exact h '<' (pyStripList_subset '<' (List.take_subset _ _ hlt)) rfl

theorem alnum_not_space {c : Char} (h : c.isAlphanum = true) :
    isPySpace c = false := by
  by_contra hws
  rw [Bool.not_eq_false] at hws
  rw [isPySpace] at hws
  simp only [Bool.or_eq_true, beq_iff_eq] at hws
  rcases hws with ((((h1 | h1) | h1) | h1) | h1) | h1 <;>
    (subst h1; revert h; decide)


theorem hardLine_marker (t : List Char) :
    hardLine (sectionMarkerChars t) = true := by
  have hshape : sectionMarkerChars t =
      ('<' :: ("!-- section: ".toList ++ t)) ++ " -->".toList := by
    simp [sectionMarkerChars]
  have hhead : (sectionMarkerChars t).head? = some '<' := by
    rw [hshape, List.cons_append]
    rfl
  have hlast : (sectionMarkerChars t).getLast? = some '>' := by
    rw [hshape, List.getLast?_append_of_ne_nil _ (by simp)]
    decide
  rw [hardLine, hhead, hlast]
  decide

theorem getLast?_mem_of {α : Type} {l : List α} {a : α}
    (h : l.getLast? = some a) : a ∈ l := by
  rw [← List.head?_reverse] at h
  have := List.mem_of_mem_head? (by rw [h]; rfl : a ∈ l.reverse.head?)
  exact List.mem_reverse.mp this

/-- The character text of a rendered heading line. -/
def headingChars (k : Nat) (t : List Char) : List Char :=
  List.replicate k '#' ++ ' ' :: t

theorem hardLine_heading (k : Nat) (t : List Char) (hk : 1 ≤ k)
    (ht : t ≠ []) (halnum : ∀ c ∈ t, c.isAlphanum = true) :
    hardLine (headingChars k t) = true := by
  obtain ⟨k', rfl⟩ : ∃ k', k = k' + 1 := ⟨k - 1, by omega⟩
  have hhead : (headingChars (k' + 1) t).head? = some '#' := by
    rw [headingChars, List.replicate_succ, List.cons_append]
    rfl
  obtain ⟨d, hd⟩ : ∃ d, t.getLast? = some d := by
    cases htl : t.getLast? with
    | none => exact absurd (List.getLast?_eq_none_iff.mp htl) ht
    | some d => exact ⟨d, rfl⟩
  have hlast : (headingChars (k' + 1) t).getLast? = some d := by
    rw [headingChars, List.getLast?_append_of_ne_nil _ (by simp)]
    rw [show (' ' :: t) = [' '] ++ t from rfl,
      List.getLast?_append_of_ne_nil _ ht]
    exact hd
  have hdns : isPySpace d = false :=
    alnum_not_space (halnum d (getLast?_mem_of hd))
  rw [hardLine, hhead, hlast]
  show (!isPySpace '#' && !isPySpace d) = true
  rw [hdns]
  decide

theorem sectionMarkerTitle_render (t : List Char) (ht : t ≠ []) :
    sectionMarkerTitle (sectionMarkerChars t) = some t := by
  have hlen : (sectionMarkerChars t).length = 18 + t.length := by
    simp [sectionMarkerChars]
    omega
  have htpos : 1 ≤ t.length := by
    cases t with
    | nil => exact absurd rfl ht
    | cons a b => simp
  rw [sectionMarkerTitle, if_pos]
  · congr 1
    have hdrop : (sectionMarkerChars t).drop 14 = t ++ " -->".toList := by
      rw [show sectionMarkerChars t =
        "<!-- section: ".toList ++ (t ++ " -->".toList) from by
          simp [sectionMarkerChars]]
      exact List.drop_left' (by decide)
    rw [hdrop, hlen, show 18 + t.length - 18 = t.length from by omega]
    exact List.take_left' rfl
  · refine ⟨?_, ?_, ?_⟩
    · rw [show sectionMarkerChars t =
        "<!-- section: ".toList ++ (t ++ " -->".toList) from by
          simp [sectionMarkerChars]]
      exact List.take_left' (by decide)
    · omega
    · rw [hlen, show 18 + t.length - 4 = 14 + t.length from by omega]
      rw [show sectionMarkerChars t =
        ("<!-- section: ".toList ++ t) ++ " -->".toList from by
          simp [sectionMarkerChars]]
      exact List.drop_left' (by simp; omega)

theorem markerStartL_marker (t : List Char) :
    markerStartL (sectionMarkerChars t) = true := by
  rw [markerStartL, pyStripList_self (hardLine_marker t)]
  have htake : (sectionMarkerChars t).take 13 = "<!-- section:".toList := by
    rw [sectionMarkerChars, List.append_assoc, List.take_append_eq_append_take]
    rw [show (13 - "<!-- section: ".toList.length) = 0 from by decide]
    rw [List.take_zero, List.append_nil]
    decide
  simp [htake]

theorem headingFullMatch_render (k : Nat) (t : List Char) (h1 : 1 ≤ k)
    (h6 : k ≤ 6) (ht : t ≠ []) :
    headingFullMatch (headingChars k t) = some k := by
  have hhash : hashCount (headingChars k t) = k := by
    rw [hashCount, headingChars]
    rw [takeWhile_append_all _ _ (by
      intro c hc
      rw [List.eq_of_mem_replicate hc]
      rfl)]
    rw [takeWhile_head_false ' ' t (by decide)]
    simp
  rw [headingFullMatch, hhash]
  have hdrop : (headingChars k t).drop k = ' ' :: t := by
    rw [headingChars]
    exact List.drop_left' (by simp)
  rw [hdrop]
  cases t with
  | nil => exact absurd rfl ht
  | cons t0 trest =>
    show (if 1 ≤ k ∧ k ≤ 6 ∧ isPySpace ' ' = true then some k else none) =
      some k
    rw [if_pos ⟨h1, h6, by decide⟩]

theorem headingChars_no_lt (k : Nat) (t : List Char)
    (halnum : ∀ c ∈ t, c.isAlphanum = true) :
    ∀ c ∈ headingChars k t, ¬ c = '<' := by
  intro c hc hlt
  subst hlt
  rw [headingChars] at hc
  rcases List.mem_append.mp hc with h | h
  · exact absurd (List.eq_of_mem_replicate h) (by decide)
  · rcases List.mem_cons.mp h with h | h
    · cases h
    · exact absurd (halnum '<' h) (by decide)

theorem string_mk_toList (s : String) : String.mk s.toList = s := rfl

theorem safeTitle_unpack {t : String} (h : safeTitle t = true) :
    t.toList ≠ [] ∧ ∀ c ∈ t.toList, c.isAlphanum = true := by
  rw [safeTitle, Bool.and_eq_true] at h
  refine ⟨by simpa using h.1, ?_⟩
  intro c hc
  exact List.all_eq_true.mp h.2 c hc

/-- The lines contributed by the section parts of a page chunk. -/
def secLines (sl : List DocumentSection) : List (List Char) :=
  sl.flatMap fun s =>
    [sectionMarkerChars s.title.toList, [],
      headingChars s.level s.title.toList, []]

theorem secfold_scan (n : Nat) :
    ∀ (lines : List (List Char)) (secs : List DocumentSection)
      (rem : List (List Char)),
      (∀ l ∈ lines, sectionMarkerTitle (pyStripList l) = none) →
      lines.foldl (secStep n) (.scan, secs, rem) =
        (.scan, secs, rem ++ lines) := by
  intro lines
  induction lines with
  | nil => intro secs rem _; simp
  | cons l ls ih =>
    intro secs rem h
    rw [List.foldl_cons]
    have hstep : secStep n (.scan, secs, rem) l =
        (.scan, secs, rem ++ [l]) := by
      simp only [secStep, secScanLine, h l (List.mem_cons_self _ _)]
    rw [hstep, ih secs (rem ++ [l]) (fun x hx => h x (List.mem_cons_of_mem l hx))]
    simp

theorem secfold_inContent (n : Nat) :
    ∀ (lines : List (List Char)) (tl : List Char) (k : Nat)
      (acc : List (List Char)) (secs : List DocumentSection)
      (rem : List (List Char)),
      (∀ l ∈ lines, markerStartL l = false) →
      lines.foldl (secStep n) (.inContent tl k acc, secs, rem) =
        (.inContent tl k (acc ++ lines), secs, rem) := by
  intro lines
  induction lines with
  | nil => intro tl k acc secs rem _; simp
  | cons l ls ih =>
    intro tl k acc secs rem h
    rw [List.foldl_cons]
    have hstep : secStep n (.inContent tl k acc, secs, rem) l =
        (.inContent tl k (acc ++ [l]), secs, rem) := by
      simp only [secStep, h l (List.mem_cons_self _ _), Bool.false_eq_true,
        if_false]
    rw [hstep, ih _ _ _ _ _ (fun x hx => h x (List.mem_cons_of_mem l hx))]
    simp

theorem secstep_marker (n : Nat) (tl : List Char) (k : Nat)
    (acc : List (List Char)) (secs : List DocumentSection)
    (rem : List (List Char)) (s : DocumentSection)
    (hsafe : safeTitle s.title = true) :
    secStep n (.inContent tl k acc, secs, rem)
      (sectionMarkerChars s.title.toList) =
      (.afterMarker s.title.toList, secs ++ [secFinish n tl k acc], rem) := by
  have h1 : markerStartL (sectionMarkerChars s.title.toList) = true :=
    markerStartL_marker _
  have h2 : sectionMarkerTitle
      (pyStripList (sectionMarkerChars s.title.toList)) =
      some s.title.toList := by
    rw [pyStripList_self (hardLine_marker _)]
    exact sectionMarkerTitle_render _ (safeTitle_unpack hsafe).1
  simp only [secStep, h1, if_true, secScanLine, h2]

theorem secstep_marker_scan (n : Nat) (secs : List DocumentSection)
    (rem : List (List Char)) (s : DocumentSection)
    (hsafe : safeTitle s.title = true) :
    secStep n (.scan, secs, rem) (sectionMarkerChars s.title.toList) =
      (.afterMarker s.title.toList, secs, rem) := by
  have h2 : sectionMarkerTitle
      (pyStripList (sectionMarkerChars s.title.toList)) =
      some s.title.toList := by
    rw [pyStripList_self (hardLine_marker _)]
    exact sectionMarkerTitle_render _ (safeTitle_unpack hsafe).1
  simp only [secStep, secScanLine, h2]

theorem secstep_blank_after (n : Nat) (tl : List Char)
    (secs : List DocumentSection) (rem : List (List Char)) :
    secStep n (.afterMarker tl, secs, rem) [] =
      (.afterMarker tl, secs, rem) := by
  simp only [secStep, show isBlankL [] = true from rfl, if_true]

theorem secstep_heading (n : Nat) (tl : List Char)
    (secs : List DocumentSection) (rem : List (List Char)) (s : DocumentSection)
    (hsafe : safeTitle s.title = true) (hk1 : 1 ≤ s.level)
    (hk6 : s.level ≤ 6) :
    secStep n (.afterMarker tl, secs, rem)
      (headingChars s.level s.title.toList) =
      (.inContent tl s.level [], secs, rem) := by
  obtain ⟨hne, halnum⟩ := safeTitle_unpack hsafe
  have hhard := hardLine_heading s.level s.title.toList hk1 hne halnum
  have hblank : isBlankL (headingChars s.level s.title.toList) = false := by
    rw [isBlankL, pyStripList_self hhard]
    obtain ⟨k', hk'⟩ : ∃ k', s.level = k' + 1 := ⟨s.level - 1, by omega⟩
    rw [hk', headingChars, List.replicate_succ]
    simp
  have hfull : headingFullMatch
      (pyStripList (headingChars s.level s.title.toList)) = some s.level := by
    rw [pyStripList_self hhard]
    exact headingFullMatch_render _ _ hk1 hk6 hne
  simp only [secStep, hblank, Bool.false_eq_true, if_false, hfull]

theorem secstep_blank_inContent (n : Nat) (tl : List Char) (k : Nat)
    (acc : List (List Char)) (secs : List DocumentSection)
    (rem : List (List Char)) :
    secStep n (.inContent tl k acc, secs, rem) [] =
      (.inContent tl k (acc ++ [[]]), secs, rem) := by
  simp only [secStep, show markerStartL [] = false from rfl,
    Bool.false_eq_true, if_false]

theorem secfold_sections (n : Nat) :
    ∀ (sl : List DocumentSection) (CL : List (List Char))
      (tl : List Char) (k : Nat) (acc : List (List Char))
      (secs : List DocumentSection) (rem : List (List Char)),
      (∀ s ∈ sl, safeTitle s.title = true ∧ 1 ≤ s.level ∧ s.level ≤ 6) →
      (∀ l ∈ CL, markerStartL l = false) →
      ((secsFinish n ((secLines sl ++ CL).foldl (secStep n)
        (.inContent tl k acc, secs, rem))).1).map
          (fun s => (s.title, s.level)) =
        secs.map (fun s => (s.title, s.level)) ++ [(String.mk tl, k)] ++
          sl.map (fun s => (s.title, s.level)) := by
  intro sl
  induction sl with
  | nil =>
    intro CL tl k acc secs rem _ hCL
    rw [show secLines [] = [] from rfl, List.nil_append]
    rw [secfold_inContent n CL tl k acc secs rem hCL]
    simp [secsFinish, secFinish]
  | cons s sl' ih =>
    intro CL tl k acc secs rem hsl hCL
    obtain ⟨hsafe, hk1, hk6⟩ := hsl s (List.mem_cons_self _ _)
    have hshape : secLines (s :: sl') ++ CL =
        sectionMarkerChars s.title.toList :: [] ::
          headingChars s.level s.title.toList :: [] ::
          (secLines sl' ++ CL) := by
      simp [secLines, List.flatMap_cons]
    rw [hshape, List.foldl_cons, List.foldl_cons, List.foldl_cons,
      List.foldl_cons]
    rw [secstep_marker n tl k acc secs rem s hsafe,
      secstep_blank_after, secstep_heading n _ _ _ s hsafe hk1 hk6,
      secstep_blank_inContent]
    simp only [List.nil_append]
    rw [ih CL s.title.toList s.level [[]]
      (secs ++ [secFinish n tl k acc]) rem
      (fun x hx => hsl x (List.mem_cons_of_mem s hx)) hCL]
    simp [secFinish, string_mk_toList, List.append_assoc]

theorem secfold_chunk (n : Nat) (sl : List DocumentSection)
    (CL : List (List Char))
    (hsl : ∀ s ∈ sl, safeTitle s.title = true ∧ 1 ≤ s.level ∧ s.level ≤ 6)
    (hCL : ∀ l ∈ CL, sectionMarkerTitle (pyStripList l) = none ∧
      markerStartL l = false) :
    ((secsFinish n (([[], []] ++ (secLines sl ++ CL)).foldl (secStep n)
      (.scan, [], []))).1).map (fun s => (s.title, s.level)) =
      sl.map (fun s => (s.title, s.level)) := by
  have hblanks : ∀ l ∈ ([[], []] : List (List Char)),
      sectionMarkerTitle (pyStripList l) = none := by
    intro l hl
    rcases List.mem_cons.mp hl with h | h
    · rw [h]; rfl
    · simp at h; rw [h]; rfl
  rw [List.foldl_append]
  rw [secfold_scan n [[], []] [] [] hblanks]
  cases sl with
  | nil =>
    rw [show secLines [] = [] from rfl]
    simp only [List.nil_append]
    rw [secfold_scan n CL [] _ (fun l hl => (hCL l hl).1)]
    simp [secsFinish]
  | cons s sl' =>
    obtain ⟨hsafe, hk1, hk6⟩ := hsl s (List.mem_cons_self _ _)
    have hshape : secLines (s :: sl') ++ CL =
        sectionMarkerChars s.title.toList :: [] ::
          headingChars s.level s.title.toList :: [] ::
          (secLines sl' ++ CL) := by
      simp [secLines, List.flatMap_cons]
    rw [hshape, List.foldl_cons, List.foldl_cons, List.foldl_cons,
      List.foldl_cons]
    rw [secstep_marker_scan n [] _ s hsafe, secstep_blank_after,
      secstep_heading n _ _ _ s hsafe hk1 hk6, secstep_blank_inContent]
    simp only [List.nil_append]
    rw [secfold_sections n sl' CL s.title.toList s.level [[]] [] _
      (fun x hx => hsl x (List.mem_cons_of_mem s hx))
      (fun l hl => (hCL l hl).2)]
    simp [string_mk_toList]

theorem pyStrip_ws_left (a l : List Char)
    (ha : ∀ c ∈ a, isPySpace c = true) :
    pyStripList (a ++ l) = pyStripList l := by
  rw [pyStripList, pyStripList, dropWhile_append_all a l ha]

theorem dropWhile_append_singleton_ne {p : Char → Bool} (Y : List Char)
    (c : Char) (hc : p c = false) : (Y ++ [c]).dropWhile p ≠ [] := by
  induction Y with
  | nil => simp [List.dropWhile, hc]
  | cons y ys ih =>
    rw [List.cons_append, List.dropWhile]
    by_cases hy : p y = true
    · rw [hy]
      exact ih
    · rw [Bool.not_eq_true] at hy
      rw [hy]
      simp

theorem dropWhile_decomp {p : Char → Bool} (l : List Char) :
    l = l.takeWhile p ++ l.dropWhile p :=
  (List.takeWhile_append_dropWhile p l).symm

theorem takeWhile_all {p : Char → Bool} (l : List Char) :
    ∀ c ∈ l.takeWhile p, p c = true := by
  intro c hc
  exact List.mem_takeWhile_imp hc

theorem dropWhile_of_append_head {p : Char → Bool} (l b : List Char)
    (c : Char) (X : List Char) (h : l.dropWhile p = c :: X)
    (hc : p c = false) : (l ++ b).dropWhile p = c :: (X ++ b) := by
  conv_lhs => rw [dropWhile_decomp (p := p) l]
  rw [h, List.append_assoc, List.cons_append]
  rw [dropWhile_append_all _ _ (takeWhile_all l)]
  rw [dropWhile_head_false c (X ++ b) (by simp [hc])]

theorem pyStrip_ws_right (l b : List Char)
    (hb : ∀ c ∈ b, isPySpace c = true) :
    pyStripList (l ++ b) = pyStripList l := by
  cases hdw : l.dropWhile isPySpace with
  | nil =>
    have hall : ∀ c ∈ l, isPySpace c = true := by
      intro c hc
      by_contra hcc
      have hne : l.dropWhile isPySpace ≠ [] := by
        have hmem := hc
        rw [List.dropWhile_eq_nil_iff] at hdw
        exact absurd (hdw c hc) (by simpa using hcc)
      exact hne hdw
    have h1 : (l ++ b).dropWhile isPySpace = [] := by
      rw [List.dropWhile_eq_nil_iff]
      intro c hc
      rcases List.mem_append.mp hc with h | h
      · exact hall c h
      · exact hb c h
    rw [pyStripList, pyStripList, h1, hdw]
  | cons c X =>
    have hc : isPySpace c = false := by
      have := List.head?_dropWhile_not isPySpace l
      rw [hdw] at this
      simpa using this
    rw [pyStripList, pyStripList, hdw,
      dropWhile_of_append_head l b c X hdw hc]
    rw [show (c :: (X ++ b)).reverse = b.reverse ++ (c :: X).reverse from by
      simp]
    rw [dropWhile_append_all _ _ (by
      intro x hx
      exact hb x (List.mem_reverse.mp hx))]

theorem pyStrip_head {l : List Char} {c : Char} {X : List Char}
    (h1 : l.dropWhile isPySpace = c :: X) (h2 : isPySpace c = false) :
    ∃ X', pyStripList l = c :: X' := by
  rw [pyStripList, h1]
  have hne : (c :: X).reverse.dropWhile isPySpace ≠ [] := by
    rw [show (c :: X).reverse = X.reverse ++ [c] from by simp]
    exact dropWhile_append_singleton_ne X.reverse c h2
  have hlast : ((c :: X).reverse.dropWhile isPySpace).getLast? = some c := by
    obtain ⟨pre, hpre⟩ := List.dropWhile_suffix (l := (c :: X).reverse)
      (p := isPySpace)
    rw [← List.getLast?_append_of_ne_nil pre hne, hpre]
    rw [show ((c :: X).reverse).getLast? = (c :: X).head? from by
      rw [← List.head?_reverse, List.reverse_reverse]]
    rfl
  cases hrev : ((c :: X).reverse.dropWhile isPySpace).reverse with
  | nil =>
    exact absurd (by simpa using congrArg List.reverse hrev) hne
  | cons d R =>
    have hd : d = c := by
      have hh := List.head?_reverse ((c :: X).reverse.dropWhile isPySpace)
      rw [hrev, hlast] at hh
      simpa using hh
    subst hd
    exact ⟨R, rfl⟩

theorem isBlankL_false_of {l : List Char} {c : Char} {X : List Char}
    (h1 : l.dropWhile isPySpace = c :: X) (h2 : isPySpace c = false) :
    isBlankL l = false := by
  obtain ⟨X', hX'⟩ := pyStrip_head h1 h2
  rw [isBlankL, hX']
  rfl

theorem isTableLineL_of_head {l : List Char} {c : Char} {X : List Char}
    (h1 : l.dropWhile isPySpace = c :: X) (h2 : isPySpace c = false)
    (h3 : ¬ c = '|') : isTableLineL l = false := by
  obtain ⟨X', hX'⟩ := pyStrip_head h1 h2
  rw [isTableLineL, hX']
  split
  · rename_i tail heq
    exact absurd (List.cons_eq_cons.mp heq).1 h3
  · rfl

theorem listBreak_of_item {l : List Char} {x : Nat × List Char}
    (h : listItemMatchL l = some x) : listBreakMatchL l = true := by
  rw [listItemMatchL] at h
  split at h
  · rename_i t heq
    rw [listBreakMatchL, heq]
    split
    · rfl
    · rename_i hcon
      exact absurd rfl (hcon t)
  · cases h

theorem listItem_none {l : List Char} (h : listBreakMatchL l = false) :
    listItemMatchL l = none := by
  cases hi : listItemMatchL l with
  | none => rfl
  | some x =>
    exact absurd (listBreak_of_item hi) (by rw [h]; exact Bool.false_ne_true)

theorem headingBreak_of_full {l : List Char} {k : Nat}
    (h : headingFullMatch l = some k) : headingBreakMatch l = true := by
  simp only [headingFullMatch] at h
  split at h
  · rename_i c1 b rest heq
    split at h
    · rename_i hcond
      rw [headingBreakMatch]
      simp only [heq]
      simp [hcond.1, hcond.2.1, hcond.2.2]
    · cases h
  · cases h

theorem headingFull_none {l : List Char} (h : headingBreakMatch l = false) :
    headingFullMatch l = none := by
  cases hf : headingFullMatch l with
  | none => rfl
  | some k =>
    exact absurd (headingBreak_of_full hf)
      (by rw [h]; exact Bool.false_ne_true)

theorem safeTextLine_props {l : List Char} (h : safeTextLine l = true) :
    pyStripList l = l ∧ l ≠ [] ∧ paraBreakL l = false ∧
      (∀ bs ts, blocksScanLine l bs ts = some (.inPara [l], bs, ts)) := by
  simp only [safeTextLine, strippedNE, Bool.and_eq_true, beq_iff_eq,
    Bool.not_eq_true'] at h
  obtain ⟨⟨⟨⟨⟨hempty, hstrip⟩, hall⟩, htable⟩, hbreak⟩, hheading⟩ := h
  have hne2 : l ≠ [] := by simpa using hempty
  have hblank : isBlankL l = false := by
    rw [isBlankL, hstrip]
    exact hempty
  have hpara : paraBreakL l = false := by
    rw [paraBreakL, hblank, htable, hbreak, hstrip, hheading]
    rfl
  refine ⟨hstrip, hne2, hpara, ?_⟩
  intro bs ts
  rw [blocksScanLine, hblank, htable]
  simp only [Bool.false_eq_true, if_false]
  rw [listItem_none hbreak]
  rw [hstrip, headingFull_none hheading, hpara]
  rfl

theorem blocksFinish_blank (st : Option (BlockMode × List TextBlock ×
    List Table)) : blocksFinish (blocksStep st []) = blocksFinish st := by
  cases st with
  | none => rfl
  | some t3 =>
    obtain ⟨mode, bs, ts⟩ := t3
    cases mode with
    | scan => rfl
    | inTable acc => rfl
    | inPara acc => rfl

theorem blocksFinish_pad : ∀ (blanks : List (List Char)),
    (∀ l ∈ blanks, l = []) →
    ∀ st, blocksFinish (blanks.foldl blocksStep st) = blocksFinish st := by
  intro blanks
  induction blanks with
  | nil => intro _ st; rfl
  | cons b bs ih =>
    intro h st
    have hb : b = [] := h b (List.mem_cons_self _ _)
    subst hb
    rw [List.foldl_cons]
    rw [ih (fun x hx => h x (List.mem_cons_of_mem _ hx)) (blocksStep st [])]
    exact blocksFinish_blank st

theorem blocksfold_scan_blanks : ∀ (blanks : List (List Char)),
    (∀ l ∈ blanks, l = []) →
    ∀ (bs : List TextBlock) (ts : List Table),
    blanks.foldl blocksStep (some (.scan, bs, ts)) = some (.scan, bs, ts) := by
  intro blanks
  induction blanks with
  | nil => intro _ bs ts; rfl
  | cons b bl ih =>
    intro h bs ts
    have hb : b = [] := h b (List.mem_cons_self _ _)
    subst hb
    rw [List.foldl_cons]
    rw [show blocksStep (some (.scan, bs, ts)) [] = some (.scan, bs, ts)
      from rfl]
    exact ih (fun x hx => h x (List.mem_cons_of_mem _ hx)) bs ts

theorem blocksfold_inPara : ∀ (lines : List (List Char))
    (acc : List (List Char)) (bs : List TextBlock) (ts : List Table),
    (∀ l ∈ lines, paraBreakL l = false) →
    lines.foldl blocksStep (some (.inPara acc, bs, ts)) =
      some (.inPara (acc ++ lines.map pyStripList), bs, ts) := by
  intro lines
  induction lines with
  | nil => intro acc bs ts _; simp
  | cons l ls ih =>
    intro acc bs ts h
    rw [List.foldl_cons]
    have hstep : blocksStep (some (.inPara acc, bs, ts)) l =
        some (.inPara (acc ++ [pyStripList l]), bs, ts) := by
      simp only [blocksStep, h l (List.mem_cons_self _ _),
        Bool.false_eq_true, if_false]
    rw [hstep, ih _ _ _ (fun x hx => h x (List.mem_cons_of_mem l hx))]
    simp

theorem blocksfold_para (tl : List Char)
    (hsafe : ∀ l ∈ splitOnChar '\n' tl, safeTextLine l = true)
    (bs : List TextBlock) (ts : List Table) :
    (splitOnChar '\n' tl ++ [[]]).foldl blocksStep (some (.scan, bs, ts)) =
      some (.scan, bs ++ [⟨String.mk tl, defaultBBox, "paragraph"⟩], ts) := by
  obtain ⟨p0, prest, hPL⟩ : ∃ p0 prest, splitOnChar '\n' tl = p0 :: prest := by
    cases hp : splitOnChar '\n' tl with
    | nil => exact absurd hp (splitOnChar_ne_nil '\n' tl)
    | cons p0 prest => exact ⟨p0, prest, rfl⟩
  rw [hPL, List.cons_append, List.foldl_cons]
  have hp0 := safeTextLine_props (hsafe p0 (hPL ▸ List.mem_cons_self _ _))
  rw [show blocksStep (some (.scan, bs, ts)) p0 = blocksScanLine p0 bs ts
    from rfl, hp0.2.2.2 bs ts]
  rw [List.foldl_append]
  rw [blocksfold_inPara prest [p0] bs ts (fun x hx =>
    (safeTextLine_props (hsafe x (hPL ▸ List.mem_cons_of_mem p0 hx))).2.2.1)]
  have hmap : prest.map pyStripList = prest := by
    rw [show prest = prest.map id from by simp]
    rw [List.map_map]
    apply List.map_congr_left
    intro x hx
    simp only [Function.comp, id]
    exact (safeTextLine_props (hsafe x (hPL ▸ List.mem_cons_of_mem p0
      (by simpa using hx)))).1
  rw [hmap]
  rw [show List.foldl blocksStep
      (some (.inPara ([p0] ++ prest), bs, ts)) [[]] =
    blocksStep (some (.inPara ([p0] ++ prest), bs, ts)) [] from rfl]
  rw [show blocksStep (some (.inPara ([p0] ++ prest), bs, ts)) [] =
    some (.scan, bs ++ [paraBlock ([p0] ++ prest)], ts) from rfl]
  rw [paraBlock]
  rw [show ([p0] ++ prest) = splitOnChar '\n' tl from by rw [hPL]; rfl]
  rw [intercalateChar_splitOnChar]

theorem listBreak_false_of_head {l : List Char} {c : Char} {X : List Char}
    (h : l.dropWhile isPySpace = c :: X) (hc : ¬ c = '-') :
    listBreakMatchL l = false := by
  rw [listBreakMatchL, h]
  split
  · rename_i heq
    exact absurd (List.cons_eq_cons.mp heq).1 hc
  · rfl

theorem scanLine_heading (k : Nat) (t : List Char) (hk1 : 1 ≤ k)
    (hk6 : k ≤ 6) (ht : t ≠ []) (halnum : ∀ c ∈ t, c.isAlphanum = true)
    (bs : List TextBlock) (ts : List Table) :
    blocksScanLine (headingChars k t) bs ts =
      some (.scan,
        bs ++ [⟨String.mk (headingChars k t), defaultBBox, "heading"⟩],
        ts) := by
  obtain ⟨k', rfl⟩ : ∃ k', k = k' + 1 := ⟨k - 1, by omega⟩
  have hdw : (headingChars (k' + 1) t).dropWhile isPySpace =
      '#' :: (List.replicate k' '#' ++ ' ' :: t) := by
    rw [headingChars, List.replicate_succ, List.cons_append]
    exact dropWhile_head_false _ _ (by decide)
  have hstrip := pyStripList_self
    (hardLine_heading (k' + 1) t hk1 ht halnum)
  have hblank : isBlankL (headingChars (k' + 1) t) = false :=
    isBlankL_false_of hdw (by decide)
  have htable : isTableLineL (headingChars (k' + 1) t) = false :=
    isTableLineL_of_head hdw (by decide) (by decide)
  have hitem : listItemMatchL (headingChars (k' + 1) t) = none :=
    listItem_none (listBreak_false_of_head hdw (by decide))
  have hfull : headingFullMatch (pyStripList (headingChars (k' + 1) t)) =
      some (k' + 1) := by
    rw [hstrip]
    exact headingFullMatch_render _ _ hk1 hk6 ht
  rw [blocksScanLine, hblank, htable]
  simp only [Bool.false_eq_true, if_false]
  rw [hitem, hfull, hstrip]

theorem cast_mono_30 {a k : ℕ} (h : a ≤ k) :
    (10 : ℚ) + 30 * a ≤ 10 + 30 * k := by
  have hc : (a : ℚ) ≤ k := Nat.cast_le.mpr h
  nlinarith

theorem min_canonical (a k : ℕ) :
    min ((10 : ℚ) + 30 * a) (10 + 30 * k) = 10 + 30 * (min a k : ℕ) := by
  rcases le_total a k with h | h
  · rw [min_eq_left (cast_mono_30 h), Nat.min_def, if_pos h]
  · rw [min_eq_right (cast_mono_30 h), Nat.min_def]
    rcases Nat.lt_or_ge k a with h2 | h2
    · rw [if_neg (by omega)]
    · have : a = k := by omega
      rw [this, if_pos le_rfl]

theorem foldl_min_canonical :
    ∀ (gs : List TextBlock) (ks : List ℕ),
    List.Forall₂ (fun (b : TextBlock) (k : ℕ) =>
      b.bbox.x0 = (10 : ℚ) + 30 * k) gs ks →
    ∀ a : ℕ, gs.foldl (fun m b => min m b.bbox.x0) ((10 : ℚ) + 30 * a) =
      10 + 30 * (ks.foldl min a : ℕ) := by
  intro gs ks h
  induction h with
  | nil => intro a; rfl
  | @cons b k gs' ks' hbk htail ih =>
    intro a
    rw [List.foldl_cons, hbk, min_canonical, List.foldl_cons]
    exact ih (min a k)

theorem foldl_min_head (a : ℕ) : ∀ (ks : List ℕ), (∀ k ∈ ks, a ≤ k) →
    ks.foldl min a = a := by
  intro ks
  induction ks with
  | nil => intro _; rfl
  | cons k ks' ih =>
    intro h
    rw [List.foldl_cons, min_eq_left (h k (List.mem_cons_self _ _))]
    exact ih fun x hx => h x (List.mem_cons_of_mem k hx)

theorem nesting_canonical (kj kmin : ℕ) (h : kmin ≤ kj) :
    (if ((10 : ℚ) + 30 * kj) - (10 + 30 * kmin) > 15 then
      (((((10 : ℚ) + 30 * kj) - (10 + 30 * kmin)) / 30).floor).toNat
     else 0) = kj - kmin := by
  have hdiff : ((10 : ℚ) + 30 * kj) - (10 + 30 * kmin) =
      30 * ((kj - kmin : ℕ) : ℚ) := by
    push_cast [h]
    ring
  rw [hdiff]
  by_cases hd : kj - kmin = 0
  · rw [hd]
    norm_num
  · have h1 : (1 : ℚ) ≤ ((kj - kmin : ℕ) : ℚ) := by
      have : 1 ≤ kj - kmin := by omega
      exact_mod_cast this
    rw [if_pos (by nlinarith)]
    rw [show (30 : ℚ) * ((kj - kmin : ℕ) : ℚ) / 30 =
      ((kj - kmin : ℕ) : ℚ) from by ring]
    rfl

theorem sepJoin_single_eq (c : Char) : ∀ (L : List (List Char)), L ≠ [] →
    sepJoin [c] L = intercalateChar c L := by
  intro L
  induction L with
  | nil => intro h; exact absurd rfl h
  | cons l rest ih =>
    intro _
    cases rest with
    | nil => simp [sepJoin, intercalateChar]
    | cons l2 r2 =>
      rw [show sepJoin [c] (l :: l2 :: r2) =
        l ++ c :: sepJoin [c] (l2 :: r2) from by
          simp [sepJoin]]
      rw [ih (by simp)]
      rfl

/-- The block `blocksScanLine` produces for a rendered list-item line with
`m` spaces of indentation. -/
def parsedItem (m : Nat) (t : List Char) : TextBlock :=
  ⟨String.mk t, ⟨10 + ((m / 2 : ℕ) : ℚ) * 30, 0, 0, 0⟩, "list_item"⟩

theorem itemLine_parses (m : Nat) (t : List Char) (ht : t ≠ [])
    (bs : List TextBlock) (ts : List Table) :
    blocksScanLine (List.replicate m ' ' ++ '-' :: ' ' :: t) bs ts =
      some (.scan, bs ++ [parsedItem m t], ts) := by
  have hdw : (List.replicate m ' ' ++ '-' :: ' ' :: t).dropWhile isPySpace =
      '-' :: ' ' :: t := by
    rw [dropWhile_append_all _ _ (by
      intro c hc
      rw [List.eq_of_mem_replicate hc]
      rfl)]
    exact dropWhile_head_false _ _ (by decide)
  have htw : ((List.replicate m ' ' ++ '-' :: ' ' :: t).takeWhile
      isPySpace).length = m := by
    rw [takeWhile_append_all _ _ (by
      intro c hc
      rw [List.eq_of_mem_replicate hc]
      rfl)]
    rw [takeWhile_head_false _ _ (by decide)]
    simp
  have hblank : isBlankL (List.replicate m ' ' ++ '-' :: ' ' :: t) = false :=
    isBlankL_false_of hdw (by decide)
  have htable : isTableLineL (List.replicate m ' ' ++ '-' :: ' ' :: t) =
      false := isTableLineL_of_head hdw (by decide) (by decide)
  have hitem : listItemMatchL (List.replicate m ' ' ++ '-' :: ' ' :: t) =
      some (m, t) := by
    rw [listItemMatchL, hdw]
    split
    · rename_i tail heq
      have h1 := (List.cons_eq_cons.mp heq).2
      have h2 := (List.cons_eq_cons.mp h1).2
      subst h2
      rw [if_neg (by simpa using ht), htw]
    · rename_i hcon
      exact absurd rfl (hcon t)
  rw [blocksScanLine, hblank, htable]
  simp only [Bool.false_eq_true, if_false]
  rw [hitem]
  rfl

theorem blocksfold_items {lines : List (List Char)} {blks : List TextBlock}
    (h : List.Forall₂ (fun line blk => ∀ bs ts,
      blocksScanLine line bs ts = some (.scan, bs ++ [blk], ts)) lines blks) :
    ∀ (bs : List TextBlock) (ts : List Table),
      lines.foldl blocksStep (some (.scan, bs, ts)) =
        some (.scan, bs ++ blks, ts) := by
  induction h with
  | nil => intro bs ts; simp
  | @cons line blk lines' blks' hlb htail ih =>
    intro bs ts
    rw [List.foldl_cons]
    rw [show blocksStep (some (.scan, bs, ts)) line =
      blocksScanLine line bs ts from rfl]
    rw [hlb bs ts, ih (bs ++ [blk]) ts]
    simp

theorem forall₂_left_mem {α β : Type} {R : α → β → Prop} :
    ∀ {l1 : List α} {l2 : List β}, List.Forall₂ R l1 l2 →
      ∀ a ∈ l1, ∃ b ∈ l2, R a b := by
  intro l1 l2 h
  induction h with
  | nil => intro a ha; cases ha
  | @cons x y l1' l2' hr ht ih =>
    intro a ha
    rcases List.mem_cons.mp ha with h2 | h2
    · exact ⟨y, List.mem_cons_self _ _, h2 ▸ hr⟩
    · obtain ⟨b, hb, hab⟩ := ih a h2
      exact ⟨b, List.mem_cons_of_mem y hb, hab⟩

theorem safeItemText_props {t : String} (h : safeItemText t = true) :
    t.toList ≠ [] ∧ ∀ c ∈ t.toList, ¬ c = '<' ∧ ¬ c = '\n' := by
  rw [safeItemText, strippedNE, Bool.and_eq_true, Bool.and_eq_true] at h
  obtain ⟨⟨hne, _⟩, hall⟩ := h
  refine ⟨by simpa using hne, ?_⟩
  intro c hc
  have h2 := List.all_eq_true.mp hall c hc
  rw [plainChar, Bool.and_eq_true] at h2
  constructor
  · intro he; rw [he] at h2; simp at h2
  · intro he; rw [he] at h2; simp at h2

theorem run_lines_forall₂ (f : TextBlock → List Char) (k0 : ℕ) :
    ∀ (rest : List TextBlock) (krest : List ℕ),
      List.Forall₂ (fun (b : TextBlock) (k : ℕ) =>
        b.bbox.x0 = (10 : ℚ) + 30 * k ∧ safeItemText b.text = true)
        rest krest →
      (∀ k ∈ krest, k0 ≤ k) →
      (∀ (b : TextBlock) (k : ℕ), b.bbox.x0 = (10 : ℚ) + 30 * k → k0 ≤ k →
        f b = List.replicate (2 * (k - k0)) ' ' ++ '-' :: ' ' ::
          b.text.toList) →
      List.Forall₂ (fun line blk => ∀ bs ts,
        blocksScanLine line bs ts = some (.scan, bs ++ [blk], ts))
        (rest.map f)
        (List.zipWith (fun b k => parsedItem (2 * (k - k0)) b.text.toList)
          rest krest) := by
  intro rest krest hrel
  induction hrel with
  | nil => intro _ _; constructor
  | @cons b k rest' krest' hbk htail ih =>
    intro hmin hf
    rw [List.map_cons, List.zipWith_cons_cons]
    constructor
    · rw [hf b k hbk.1 (hmin k (List.mem_cons_self _ _))]
      intro bs ts
      exact itemLine_parses _ _ (safeItemText_props hbk.2).1 bs ts
    · exact ih (fun k2 hk2 => hmin k2 (List.mem_cons_of_mem k hk2)) hf

/-- The blocks a rendered list run parses back to, given the items'
canonical nesting depths and the run minimum. -/
def parsedRun (g : List TextBlock) (ks : List ℕ) (k0 : ℕ) :
    List TextBlock :=
  List.zipWith (fun b k => parsedItem (2 * (k - k0)) b.text.toList) g ks

theorem blocksfold_run (i0 : TextBlock) (rest : List TextBlock)
    (k0 : ℕ) (krest : List ℕ)
    (hx0 : i0.bbox.x0 = (10 : ℚ) + 30 * k0)
    (hsafe0 : safeItemText i0.text = true)
    (hrel : List.Forall₂ (fun (b : TextBlock) (k : ℕ) =>
      b.bbox.x0 = (10 : ℚ) + 30 * k ∧ safeItemText b.text = true) rest krest)
    (hmin : ∀ k ∈ krest, k0 ≤ k)
    (bs : List TextBlock) (ts : List Table) :
    (splitOnChar '\n' (renderListItems (i0 :: rest)).toList ++ [[]]).foldl
        blocksStep (some (.scan, bs, ts)) =
      some (.scan, bs ++ parsedRun (i0 :: rest) (k0 :: krest) k0, ts) := by
  have hbase : rest.foldl (fun m b => min m b.bbox.x0) i0.bbox.x0 =
      (10 : ℚ) + 30 * k0 := by
    rw [hx0]
    rw [foldl_min_canonical rest krest (hrel.imp fun _ _ hab => hab.1) k0]
    rw [foldl_min_head k0 krest hmin]
  have hitemtext : ∀ (b : TextBlock) (k : ℕ),
      b.bbox.x0 = (10 : ℚ) + 30 * k → k0 ≤ k →
      (fun (item : TextBlock) =>
        let offset := item.bbox.x0 -
          (rest.foldl (fun m b => min m b.bbox.x0) i0.bbox.x0)
        let nesting : Nat := if offset > 15 then ((offset / 30).floor).toNat
          else 0
        List.replicate (2 * nesting) ' ' ++ '-' :: ' ' :: item.text.toList) b
      = List.replicate (2 * (k - k0)) ' ' ++ '-' :: ' ' :: b.text.toList := by
    intro b k hbx hk
    simp only [hbase, hbx]
    rw [nesting_canonical k k0 hk]
  have hlines : splitOnChar '\n' (renderListItems (i0 :: rest)).toList =
      (i0 :: rest).map (fun item =>
        let offset := item.bbox.x0 -
          (rest.foldl (fun m b => min m b.bbox.x0) i0.bbox.x0)
        let nesting : Nat := if offset > 15 then ((offset / 30).floor).toNat
          else 0
        List.replicate (2 * nesting) ' ' ++ '-' :: ' ' :: item.text.toList) := by
    rw [renderListItems_chars, sepJoin_single_eq '\n' _ (by simp)]
    apply splitOnChar_intercalateChar
    · simp
    · intro l hl
      obtain ⟨item, hitem, hline⟩ := List.mem_map.mp hl
      rw [← hline]
      intro hnl
      rcases List.mem_append.mp hnl with h | h
      · exact absurd (List.eq_of_mem_replicate h) (by decide)
      · rcases List.mem_cons.mp h with h | h
        · cases h
        · rcases List.mem_cons.mp h with h | h
          · cases h
          · have hsafe : safeItemText item.text = true := by
              rcases List.mem_cons.mp hitem with h2 | h2
              · rw [h2]; exact hsafe0
              · obtain ⟨k, _, hbk⟩ := forall₂_left_mem hrel item h2
                exact hbk.2
            exact ((safeItemText_props hsafe).2 '\n' h).2 rfl
  have hF := run_lines_forall₂ (fun (item : TextBlock) =>
      let offset := item.bbox.x0 -
        (rest.foldl (fun m b => min m b.bbox.x0) i0.bbox.x0)
      let nesting : Nat := if offset > 15 then ((offset / 30).floor).toNat
        else 0
      List.replicate (2 * nesting) ' ' ++ '-' :: ' ' :: item.text.toList) k0
    (i0 :: rest) (k0 :: krest)
    (List.Forall₂.cons ⟨hx0, hsafe0⟩ hrel)
    (by
      intro k hk
      rcases List.mem_cons.mp hk with h | h
      · omega
      · exact hmin k h)
    hitemtext
  rw [← hlines] at hF
  rw [List.foldl_append, blocksfold_items hF bs ts]
  rfl


/-- The character text of a rendered table row. -/
def rowChars (cells : List String) : List Char :=
  '|' :: ' ' :: (sepJoin [' ', '|', ' '] (cells.map String.toList) ++
    [' ', '|'])

theorem rowString_chars (cells : List String) :
    ("| " ++ String.intercalate " | " cells ++ " |").toList =
      rowChars cells := by
  rw [show ("| " ++ String.intercalate " | " cells ++ " |").toList =
    "| ".toList ++ (String.intercalate " | " cells).toList ++ " |".toList
    from by simp]
  rw [intercalate_chars]
  rfl

theorem safeCell_props {c : String} (h : safeCell c = true) :
    pyStripList c.toList = c.toList ∧
      ∀ x ∈ c.toList, ¬ x = '<' ∧ ¬ x = '\n' ∧ ¬ x = '|' := by
  rw [safeCell, Bool.and_eq_true] at h
  refine ⟨by simpa using h.1, ?_⟩
  intro x hx
  have h2 := List.all_eq_true.mp h.2 x hx
  rw [Bool.and_eq_true, plainChar, Bool.and_eq_true] at h2
  refine ⟨?_, ?_, ?_⟩
  · intro he; rw [he] at h2; simp at h2
  · intro he; rw [he] at h2; simp at h2
  · intro he; rw [he] at h2; simp at h2

theorem rowChars_mem (cells : List String) :
    ∀ x ∈ rowChars cells, x = '|' ∨ x = ' ' ∨
      ∃ c ∈ cells, x ∈ c.toList := by
  intro x hx
  rw [rowChars] at hx
  rcases List.mem_cons.mp hx with h | h
  · exact Or.inl h
  rcases List.mem_cons.mp h with h | h
  · exact Or.inr (Or.inl h)
  rcases List.mem_append.mp h with h | h
  · cases hcells : cells.map String.toList with
    | nil =>
      rw [hcells] at h
      cases h
    | cons l0 ls =>
      rw [hcells] at h
      rcases List.mem_append.mp (by
        rw [show sepJoin [' ', '|', ' '] (l0 :: ls) =
          l0 ++ ls.flatMap (fun r => [' ', '|', ' '] ++ r) from rfl] at h
        exact h) with h2 | h2
      · have hl0 : l0 ∈ cells.map String.toList := by
          rw [hcells]; exact List.mem_cons_self _ _
        obtain ⟨c, hc, hcl⟩ := List.mem_map.mp hl0
        exact Or.inr (Or.inr ⟨c, hc, hcl ▸ h2⟩)
      · obtain ⟨r, hr, hxr⟩ := List.mem_flatMap.mp h2
        rcases List.mem_append.mp hxr with h3 | h3
        · rcases List.mem_cons.mp h3 with h4 | h4
          · exact Or.inr (Or.inl h4)
          rcases List.mem_cons.mp h4 with h5 | h5
          · exact Or.inl h5
          · simp at h5
            exact Or.inr (Or.inl h5)
        · have hrm : r ∈ cells.map String.toList := by
            rw [hcells]; exact List.mem_cons_of_mem l0 hr
          obtain ⟨c, hc, hcl⟩ := List.mem_map.mp hrm
          exact Or.inr (Or.inr ⟨c, hc, hcl ▸ h3⟩)
  · rcases List.mem_cons.mp h with h2 | h2
    · exact Or.inr (Or.inl h2)
    · simp at h2
      exact Or.inl h2

theorem hardLine_rowChars (cells : List String) :
    hardLine (rowChars cells) = true := by
  have hlast : (rowChars cells).getLast? = some '|' := by
    rw [rowChars]
    rw [show '|' :: ' ' :: (sepJoin [' ', '|', ' '] (cells.map String.toList)
      ++ [' ', '|']) = ('|' :: ' ' ::
        (sepJoin [' ', '|', ' '] (cells.map String.toList) ++ [' '])) ++
        ['|'] from by simp [List.append_assoc]]
    rw [List.getLast?_append_of_ne_nil _ (by simp)]
    rfl
  rw [hardLine, hlast]
  rfl

theorem renderTable_chars (header : List String) (data : List (List String))
    (huni : ∀ r ∈ data, r.length = header.length) :
    (renderTable ⟨header :: data⟩).toList =
      intercalateChar '\n' (rowChars header ::
        rowChars (List.replicate header.length "---") ::
        data.map rowChars) := by
  rw [renderTable]
  rw [intercalate_chars, ← sepJoin_single_eq '\n' _ (by simp)]
  congr 1
  simp only [List.map_append, List.map_cons, List.map_nil, List.map_map,
    List.cons_append, List.nil_append]
  congr 1
  · exact rowString_chars header
  congr 1
  · exact rowString_chars _
  apply List.map_congr_left
  intro r hr
  simp only [Function.comp]
  rw [show (r ++ List.replicate (header.length - r.length) "").take
      header.length = r from by
    have h := huni r hr
    rw [h, Nat.sub_self, List.replicate_zero, List.append_nil, ← h,
      List.take_length]]
  exact rowString_chars r

theorem stripPipesEnds_rowChars (cells : List String) :
    stripPipesEnds (rowChars cells) =
      ' ' :: (sepJoin [' ', '|', ' '] (cells.map String.toList) ++ [' ']) := by
  rw [stripPipesEnds, rowChars]
  rw [List.dropWhile_cons, if_pos (by decide), List.dropWhile_cons,
    if_neg (by decide)]
  rw [show (' ' :: (sepJoin [' ', '|', ' '] (cells.map String.toList) ++
      [' ', '|'])).reverse =
    '|' :: (' ' :: ((sepJoin [' ', '|', ' ']
      (cells.map String.toList)).reverse ++ [' '])) from by simp]
  rw [List.dropWhile_cons, if_pos (by decide), List.dropWhile_cons,
    if_neg (by decide)]
  simp

theorem splitPipes : ∀ (cellsL : List (List Char)), cellsL ≠ [] →
    (∀ c ∈ cellsL, '|' ∉ c) →
    splitOnChar '|' (' ' :: (sepJoin [' ', '|', ' '] cellsL ++ [' '])) =
      cellsL.map (fun c => ' ' :: (c ++ [' '])) := by
  intro cellsL
  induction cellsL with
  | nil => intro h _; exact absurd rfl h
  | cons c rest ih =>
    intro _ hnp
    cases rest with
    | nil =>
      rw [show sepJoin [' ', '|', ' '] [c] = c from by simp [sepJoin]]
      rw [splitOnChar_no_sep '|' _ (by
        intro hmem
        rcases List.mem_cons.mp hmem with h | h
        · cases h
        rcases List.mem_append.mp h with h | h
        · exact hnp c (List.mem_cons_self _ _) h
        · simp at h)]
      rfl
    | cons c2 r2 =>
      have hshape : ' ' :: (sepJoin [' ', '|', ' '] ((c :: c2 :: r2).map id)
          ++ [' ']) =
          (' ' :: (c ++ [' '])) ++ '|' ::
            (' ' :: (sepJoin [' ', '|', ' '] (c2 :: r2) ++ [' '])) := by
        simp [sepJoin, List.append_assoc]
      rw [show (c :: c2 :: r2).map id = c :: c2 :: r2 from by simp] at hshape
      rw [hshape]
      rw [splitOnChar_append_sep '|' _ _ (by
        intro hmem
        rcases List.mem_cons.mp hmem with h | h
        · cases h
        rcases List.mem_append.mp h with h | h
        · exact hnp c (List.mem_cons_self _ _) h
        · simp at h)]
      rw [ih (by simp) (fun x hx => hnp x (List.mem_cons_of_mem c hx))]
      rfl

theorem cell_pad_strip (c : String) (hc : safeCell c = true) :
    pyStripList (' ' :: (c.toList ++ [' '])) = c.toList := by
  rw [show ' ' :: (c.toList ++ [' ']) = [' '] ++ (c.toList ++ [' '])
    from rfl]
  rw [pyStrip_ws_left _ _ (by intro x hx; simp at hx; rw [hx]; rfl)]
  rw [pyStrip_ws_right _ _ (by intro x hx; simp at hx; rw [hx]; rfl)]
  exact (safeCell_props hc).1

theorem rowChars_parse (cells : List String) (hne : cells ≠ [])
    (hsafe : ∀ c ∈ cells, safeCell c = true) :
    (splitOnChar '|' (stripPipesEnds (rowChars cells))).map pyStripList =
      cells.map String.toList := by
  rw [stripPipesEnds_rowChars]
  rw [splitPipes (cells.map String.toList) (by simpa using hne) (by
    intro cl hcl hpipe
    obtain ⟨c, hc, hcteq⟩ := List.mem_map.mp hcl
    exact (((safeCell_props (hsafe c hc)).2 '|' (hcteq ▸ hpipe)).2.2) rfl)]
  rw [List.map_map, List.map_map]
  apply List.map_congr_left
  intro c hc
  simp only [Function.comp]
  exact cell_pad_strip c (hsafe c hc)

theorem safeTable_unpack {header : List String} {data : List (List String)}
    (h : safeTable ⟨header :: data⟩ = true) :
    header ≠ [] ∧ (∀ r ∈ data, r.length = header.length) ∧
      ∀ r ∈ header :: data, ∀ c ∈ r, safeCell c = true := by
  rw [safeTable, Bool.and_eq_true, Bool.and_eq_true] at h
  obtain ⟨⟨hne, huni⟩, hcells⟩ := h
  refine ⟨by simpa using hne, ?_, ?_⟩
  · intro r hr
    simpa using List.all_eq_true.mp huni r hr
  · intro r hr c hc
    exact List.all_eq_true.mp (List.all_eq_true.mp hcells r hr) c hc

theorem sepRow_dash (w : Nat) :
    ((splitOnChar '|' (stripPipesEnds
      (rowChars (List.replicate w "---")))).map pyStripList).all
      (fun c => c.isEmpty || isDashRun c) = true := by
  cases hw : w with
  | zero =>
    decide
  | succ w' =>
    rw [rowChars_parse (List.replicate (w' + 1) "---") (by simp) (by
      intro c hc
      rw [List.eq_of_mem_replicate hc]
      decide)]
    rw [List.all_eq_true]
    intro c hc
    obtain ⟨s, hs, hsc⟩ := List.mem_map.mp hc
    rw [List.eq_of_mem_replicate hs] at hsc
    rw [← hsc]
    decide

/-- The per-row function of `_parse_table`'s loop. -/
def rowParseF (p : Nat × List Char) : Option (List String) :=
  let cells := (splitOnChar '|' (stripPipesEnds p.2)).map pyStripList
  if p.1 == 1 && cells.all (fun c => c.isEmpty || isDashRun c) then none
  else some (cells.map String.mk)

theorem rowParseF_data (idx : Nat) (r : List String) (hidx : ¬ idx = 1)
    (hne : r ≠ []) (hsafe : ∀ c ∈ r, safeCell c = true) :
    rowParseF (idx, rowChars r) = some r := by
  rw [rowParseF]
  simp only
  rw [rowChars_parse r hne hsafe]
  rw [show (idx == 1) = false from by simpa using hidx]
  rw [Bool.false_and]
  simp only [Bool.false_eq_true, if_false]
  rw [List.map_map]
  congr 1
  rw [show String.mk ∘ String.toList = id from by
    funext s
    exact string_mk_toList s]
  exact List.map_id r

theorem rowParseF_sep (w : Nat) :
    rowParseF (1, rowChars (List.replicate w "---")) = none := by
  rw [rowParseF]
  simp only
  rw [sepRow_dash w]
  rfl

theorem enumFrom_data_rows :
    ∀ (rs : List (List String)) (n : Nat), 2 ≤ n →
    (∀ r ∈ rs, r ≠ [] ∧ ∀ c ∈ r, safeCell c = true) →
    (List.enumFrom n (rs.map rowChars)).filterMap rowParseF = rs := by
  intro rs
  induction rs with
  | nil => intro n _ _; rfl
  | cons r rs' ih =>
    intro n hn h
    rw [List.map_cons, List.enumFrom_cons, List.filterMap_cons]
    obtain ⟨hrne, hrsafe⟩ := h r (List.mem_cons_self _ _)
    rw [rowParseF_data n r (by omega) hrne hrsafe]
    rw [ih (n + 1) (by omega) (fun x hx => h x (List.mem_cons_of_mem r hx))]

theorem parseTable_render (header : List String) (data : List (List String))
    (hsafeT : safeTable ⟨header :: data⟩ = true) :
    parseTable (rowChars header ::
      rowChars (List.replicate header.length "---") ::
      data.map rowChars) = some ⟨header :: data⟩ := by
  obtain ⟨hne, huni, hcells⟩ := safeTable_unpack hsafeT
  have hp : parseTable (rowChars header ::
      rowChars (List.replicate header.length "---") ::
      data.map rowChars) =
      (if (rowChars header ::
          rowChars (List.replicate header.length "---") ::
          data.map rowChars).length < 2 then none
       else
        let rows := (rowChars header ::
          rowChars (List.replicate header.length "---") ::
          data.map rowChars).enum.filterMap rowParseF
        if rows.isEmpty then none else some ⟨rows⟩) := rfl
  rw [hp, if_neg (by simp)]
  rw [List.enum_cons, List.enumFrom_cons, List.filterMap_cons,
    List.filterMap_cons]
  rw [rowParseF_data 0 header (by omega) hne (hcells header
    (List.mem_cons_self _ _))]
  rw [rowParseF_sep header.length]
  rw [enumFrom_data_rows data 2 (by omega) (by
    intro r hr
    refine ⟨?_, hcells r (List.mem_cons_of_mem header hr)⟩
    intro hrnil
    have := huni r hr
    rw [hrnil] at this
    simp at this
    cases header with
    | nil => exact hne rfl
    | cons a b => rw [List.length_cons] at this; omega)]
  rfl

theorem isTableLineL_of_pipe {l : List Char} {X : List Char}
    (h : pyStripList l = '|' :: X) : isTableLineL l = true := by
  rw [isTableLineL, h]
  split
  · rfl
  · rename_i hcon
    exact absurd rfl (hcon X)

theorem blocksfold_inTable : ∀ (lines : List (List Char))
    (acc : List (List Char)) (bs : List TextBlock) (ts : List Table),
    (∀ l ∈ lines, isTableLineL l = true ∧ pyStripList l = l) →
    lines.foldl blocksStep (some (.inTable acc, bs, ts)) =
      some (.inTable (acc ++ lines), bs, ts) := by
  intro lines
  induction lines with
  | nil => intro acc bs ts _; simp
  | cons l ls ih =>
    intro acc bs ts h
    obtain ⟨htab, hstrip⟩ := h l (List.mem_cons_self _ _)
    rw [List.foldl_cons]
    rw [show blocksStep (some (.inTable acc, bs, ts)) l =
      (if isTableLineL l then some (.inTable (acc ++ [pyStripList l]), bs, ts)
       else blocksScanLine l bs (finishTable acc ts)) from rfl]
    rw [htab, if_pos rfl, hstrip]
    rw [ih _ _ _ (fun x hx => h x (List.mem_cons_of_mem l hx))]
    simp

theorem rowChars_no_nl (cells : List String)
    (hsafe : ∀ c ∈ cells, safeCell c = true) : '\n' ∉ rowChars cells := by
  intro hmem
  rcases rowChars_mem cells '\n' hmem with h | h | ⟨c, hc, hcl⟩
  · cases h
  · cases h
  · exact (((safeCell_props (hsafe c hc)).2 '\n' hcl).2.1) rfl

theorem rowChars_facts (cells : List String) :
    isBlankL (rowChars cells) = false ∧
      isTableLineL (rowChars cells) = true ∧
      pyStripList (rowChars cells) = rowChars cells := by
  have hstrip := pyStripList_self (hardLine_rowChars cells)
  have hdw : (rowChars cells).dropWhile isPySpace =
      '|' :: (' ' :: (sepJoin [' ', '|', ' '] (cells.map String.toList) ++
        [' ', '|'])) := by
    rw [rowChars]
    exact dropWhile_head_false _ _ (by decide)
  refine ⟨isBlankL_false_of hdw (by decide), ?_, hstrip⟩
  apply isTableLineL_of_pipe (X := ' ' ::
    (sepJoin [' ', '|', ' '] (cells.map String.toList) ++ [' ', '|']))
  rw [hstrip, rowChars]

theorem blocksfold_table (header : List String) (data : List (List String))
    (hsafeT : safeTable ⟨header :: data⟩ = true)
    (bs : List TextBlock) (ts : List Table) :
    (splitOnChar '\n' (renderTable ⟨header :: data⟩).toList ++ [[]]).foldl
      blocksStep (some (.scan, bs, ts)) =
      some (.scan, bs, ts ++ [⟨header :: data⟩]) := by
  obtain ⟨hne, huni, hcells⟩ := safeTable_unpack hsafeT
  have hsep : ∀ c ∈ List.replicate header.length "---", safeCell c = true := by
    intro c hc
    rw [List.eq_of_mem_replicate hc]
    decide
  have hlines : splitOnChar '\n' (renderTable ⟨header :: data⟩).toList =
      rowChars header :: rowChars (List.replicate header.length "---") ::
        data.map rowChars := by
    rw [renderTable_chars header data huni]
    apply splitOnChar_intercalateChar
    · simp
    · intro l hl
      rcases List.mem_cons.mp hl with h | h
      · rw [h]
        exact rowChars_no_nl header (hcells header (List.mem_cons_self _ _))
      rcases List.mem_cons.mp h with h2 | h2
      · rw [h2]
        exact rowChars_no_nl _ hsep
      · obtain ⟨r, hr, hrl⟩ := List.mem_map.mp h2
        rw [← hrl]
        exact rowChars_no_nl r (hcells r (List.mem_cons_of_mem header hr))
  rw [hlines]
  rw [List.cons_append, List.foldl_cons]
  obtain ⟨hblank0, htab0, hstrip0⟩ := rowChars_facts header
  rw [show blocksStep (some (.scan, bs, ts)) (rowChars header) =
    blocksScanLine (rowChars header) bs ts from rfl]
  rw [blocksScanLine, hblank0]
  simp only [Bool.false_eq_true, if_false]
  rw [htab0, if_pos rfl, hstrip0]
  rw [List.foldl_append]
  rw [blocksfold_inTable
    (rowChars (List.replicate header.length "---") :: data.map rowChars)
    [rowChars header] bs ts (by
      intro l hl
      rcases List.mem_cons.mp hl with h | h
      · rw [h]
        exact ⟨(rowChars_facts _).2.1, (rowChars_facts _).2.2⟩
      · obtain ⟨r, _, hrl⟩ := List.mem_map.mp h
        rw [← hrl]
        exact ⟨(rowChars_facts r).2.1, (rowChars_facts r).2.2⟩)]
  rw [show List.foldl blocksStep
      (some (.inTable ([rowChars header] ++
        (rowChars (List.replicate header.length "---") ::
          data.map rowChars)), bs, ts)) [[]] =
    some (.scan, bs,
      finishTable (rowChars header ::
        rowChars (List.replicate header.length "---") ::
        data.map rowChars) ts) from rfl]
  rw [finishTable, parseTable_render header data hsafeT]

/-- A group is a list run when its first block is a list item. -/
def isRunG (g : List TextBlock) : Prop :=
  match g with
  | b :: _ => b.block_type = "list_item"
  | [] => False

theorem groupsAux_flatten : ∀ (blocks pend : List TextBlock),
    (groupsAux pend blocks).flatten = pend ++ blocks := by
  intro blocks
  induction blocks with
  | nil =>
    intro pend
    simp only [groupsAux]
    by_cases hp : pend.isEmpty = true
    · rw [if_pos hp]
      rw [List.isEmpty_iff.mp hp]
      rfl
    · rw [if_neg hp]
      simp
  | cons b rest ih =>
    intro pend
    simp only [groupsAux]
    by_cases hb : (b.block_type == "list_item") = true
    · rw [if_pos hb, ih (pend ++ [b])]
      simp
    · rw [if_neg hb]
      by_cases hp : pend.isEmpty = true
      · rw [if_pos hp, List.isEmpty_iff.mp hp]
        simp [ih []]
      · rw [if_neg hp]
        simp [ih []]

theorem groupsAux_run_items : ∀ (blocks pend : List TextBlock),
    (∀ x ∈ pend, x.block_type = "list_item") →
    ∀ g ∈ groupsAux pend blocks, ∀ x ∈ g, isRunG g →
      x.block_type = "list_item" := by
  intro blocks
  induction blocks with
  | nil =>
    intro pend hpend g hg x hx _
    simp only [groupsAux] at hg
    by_cases hp : pend.isEmpty = true
    · rw [if_pos hp] at hg
      simp at hg
    · rw [if_neg hp] at hg
      simp at hg
      exact hpend x (hg ▸ hx)
  | cons b rest ih =>
    intro pend hpend g hg x hx hrun
    simp only [groupsAux] at hg
    by_cases hb : (b.block_type == "list_item") = true
    · rw [if_pos hb] at hg
      refine ih (pend ++ [b]) ?_ g hg x hx hrun
      intro y hy
      rcases List.mem_append.mp hy with h | h
      · exact hpend y h
      · simp at h
        rw [h]
        simpa using hb
    · rw [if_neg hb] at hg
      rcases List.mem_append.mp hg with h | h
      · by_cases hp : pend.isEmpty = true
        · rw [if_pos hp] at h
          simp at h
        · rw [if_neg hp] at h
          simp at h
          exact hpend x (h ▸ hx)
      · rcases List.mem_cons.mp h with h2 | h2
        · rw [h2] at hrun hx
          rw [isRunG] at hrun
          rcases List.mem_cons.mp hx with h3 | h3
          · rw [h3]
            exact hrun
          · simp at h3
        · exact ih [] (by simp) g h2 x hx hrun

theorem groupsAux_nonrun_singleton : ∀ (blocks pend : List TextBlock),
    (∀ x ∈ pend, x.block_type = "list_item") →
    ∀ g ∈ groupsAux pend blocks, ¬ isRunG g →
      ∃ y, g = [y] ∧ ¬ y.block_type = "list_item" := by
  intro blocks
  induction blocks with
  | nil =>
    intro pend hpend g hg hnrun
    simp only [groupsAux] at hg
    by_cases hp : pend.isEmpty = true
    · rw [if_pos hp] at hg
      simp at hg
    · rw [if_neg hp] at hg
      simp at hg
      exfalso
      apply hnrun
      cases hpc : pend with
      | nil => rw [hpc] at hp; simp at hp
      | cons p0 ps =>
        rw [hg, hpc, isRunG]
        exact hpend p0 (hpc ▸ List.mem_cons_self _ _)
  | cons b rest ih =>
    intro pend hpend g hg hnrun
    simp only [groupsAux] at hg
    by_cases hb : (b.block_type == "list_item") = true
    · rw [if_pos hb] at hg
      refine ih (pend ++ [b]) ?_ g hg hnrun
      intro y hy
      rcases List.mem_append.mp hy with h | h
      · exact hpend y h
      · simp at h
        rw [h]
        simpa using hb
    · rw [if_neg hb] at hg
      rcases List.mem_append.mp hg with h | h
      · by_cases hp : pend.isEmpty = true
        · rw [if_pos hp] at h
          simp at h
        · rw [if_neg hp] at h
          simp at h
          exfalso
          apply hnrun
          cases hpc : pend with
          | nil => rw [hpc] at hp; simp at hp
          | cons p0 ps =>
            rw [h, hpc, isRunG]
            exact hpend p0 (hpc ▸ List.mem_cons_self _ _)
      · rcases List.mem_cons.mp h with h2 | h2
        · exact ⟨b, h2, by simpa using hb⟩
        · exact ih [] (by simp) g h2 hnrun

theorem groupsAux_alt : ∀ (blocks pend : List TextBlock),
    List.Chain' (fun g1 g2 => ¬ (isRunG g1 ∧ isRunG g2))
      (groupsAux pend blocks) := by
  intro blocks
  induction blocks with
  | nil =>
    intro pend
    simp only [groupsAux]
    by_cases hp : pend.isEmpty = true
    · rw [if_pos hp]
      exact List.chain'_nil
    · rw [if_neg hp]
      exact List.chain'_singleton _
  | cons b rest ih =>
    intro pend
    simp only [groupsAux]
    by_cases hb : (b.block_type == "list_item") = true
    · rw [if_pos hb]
      exact ih (pend ++ [b])
    · rw [if_neg hb]
      have hbn : ¬ isRunG [b] := by
        rw [isRunG]
        simpa using hb
      have hcons : List.Chain' (fun g1 g2 => ¬ (isRunG g1 ∧ isRunG g2))
          ([b] :: groupsAux [] rest) := by
        refine List.chain'_cons'.mpr ⟨?_, ih []⟩
        intro y _ hcon
        exact hbn hcon.1
      by_cases hp : pend.isEmpty = true
      · rw [if_pos hp, List.nil_append]
        exact hcons
      · rw [if_neg hp, List.singleton_append]
        refine List.chain'_cons'.mpr ⟨?_, hcons⟩
        intro y hy hcon
        have hyb : y = [b] := by
          have := hy
          simp at this
          exact this.symm
        rw [hyb] at hcon
        exact hbn hcon.2

theorem groupsAux_absorb : ∀ (items : List TextBlock)
    (pend : List TextBlock) (rest : List TextBlock),
    (∀ x ∈ items, x.block_type = "list_item") →
    groupsAux pend (items ++ rest) = groupsAux (pend ++ items) rest := by
  intro items
  induction items with
  | nil => intro pend rest _; simp
  | cons i is ih =>
    intro pend rest h
    rw [List.cons_append]
    simp only [groupsAux]
    rw [if_pos (by simpa using h i (List.mem_cons_self _ _))]
    rw [ih (pend ++ [i]) rest (fun x hx => h x (List.mem_cons_of_mem i hx))]
    simp

theorem groupsAux_reconstruct : ∀ (P : List (List TextBlock)),
    (∀ pg ∈ P, pg ≠ []) →
    (∀ pg ∈ P, isRunG pg → ∀ x ∈ pg, x.block_type = "list_item") →
    (∀ pg ∈ P, ¬ isRunG pg → ∃ y, pg = [y] ∧ ¬ y.block_type = "list_item") →
    List.Chain' (fun g1 g2 => ¬ (isRunG g1 ∧ isRunG g2)) P →
    groupsAux [] P.flatten = P := by
  intro P
  induction P with
  | nil => intro _ _ _ _; rfl
  | cons pg P' ih =>
    intro hne hruns hsing hchain
    have hP' := ih (fun x hx => hne x (List.mem_cons_of_mem pg hx))
      (fun x hx => hruns x (List.mem_cons_of_mem pg hx))
      (fun x hx => hsing x (List.mem_cons_of_mem pg hx))
      (List.Chain'.tail hchain)
    rw [List.flatten_cons]
    by_cases hrun : isRunG pg
    · have hitems := hruns pg (List.mem_cons_self _ _) hrun
      rw [groupsAux_absorb pg [] P'.flatten hitems, List.nil_append]
      cases hP : P' with
      | nil =>
        simp only [List.flatten_nil, groupsAux]
        rw [if_neg (by
          simpa using hne pg (List.mem_cons_self _ _))]
      | cons pg2 P'' =>
        have hpg2run : ¬ isRunG pg2 := by
          have hc := List.chain'_cons'.mp (hP ▸ hchain)
          have := hc.1 pg2 (by rw [List.head?_cons]; rfl)
          intro hcon
          exact this ⟨hrun, hcon⟩
        obtain ⟨y, hy, hyn⟩ := hsing pg2
          (hP ▸ List.mem_cons_of_mem pg (List.mem_cons_self _ _)) hpg2run
        rw [List.flatten_cons, hy]
        rw [show ([y] ++ P''.flatten) = y :: P''.flatten from rfl]
        simp only [groupsAux]
        rw [if_neg (by simpa using hyn)]
        rw [if_neg (by simpa using hne pg (List.mem_cons_self _ _))]
        have hP'2 : groupsAux [] P''.flatten = P'' := by
          have h2 := hP'
          rw [hP, List.flatten_cons, hy] at h2
          rw [show ([y] ++ P''.flatten) = y :: P''.flatten from rfl] at h2
          simp only [groupsAux] at h2
          rw [if_neg (by simpa using hyn)] at h2
          rw [if_pos (by simp)] at h2
          rw [List.nil_append] at h2
          exact (List.cons_eq_cons.mp h2).2
        rw [hP'2]
        rfl
    · obtain ⟨y, hy, hyn⟩ := hsing pg (List.mem_cons_self _ _) hrun
      rw [hy]
      rw [show ([y] ++ P'.flatten) = y :: P'.flatten from rfl]
      simp only [groupsAux]
      rw [if_neg (by simpa using hyn)]
      rw [if_pos (by simp), List.nil_append, hP']

theorem parsedItem_x (d : Nat) (t : List Char) :
    (parsedItem (2 * d) t).bbox.x0 = 10 + (d : ℚ) * 30 := by
  rw [parsedItem]
  rw [Nat.mul_div_cancel_left d (by omega)]

theorem min_canonical2 (a k : ℕ) :
    min ((10 : ℚ) + a * 30) (10 + k * 30) = 10 + (min a k : ℕ) * 30 := by
  rw [show (10 : ℚ) + a * 30 = 10 + 30 * a from by ring,
    show (10 : ℚ) + k * 30 = 10 + 30 * k from by ring,
    show (10 : ℚ) + (min a k : ℕ) * 30 = 10 + 30 * (min a k : ℕ) from by ring]
  exact min_canonical a k

theorem foldl_min_canonical2 :
    ∀ (gs : List TextBlock) (ks : List ℕ),
    List.Forall₂ (fun (b : TextBlock) (k : ℕ) =>
      b.bbox.x0 = (10 : ℚ) + k * 30) gs ks →
    ∀ a : ℕ, gs.foldl (fun m b => min m b.bbox.x0) ((10 : ℚ) + a * 30) =
      10 + (ks.foldl min a : ℕ) * 30 := by
  intro gs ks h
  induction h with
  | nil => intro a; rfl
  | @cons b k gs' ks' hbk htail ih =>
    intro a
    rw [List.foldl_cons, hbk, min_canonical2, List.foldl_cons]
    exact ih (min a k)

theorem off_eq (k kmin : ℕ) (h : kmin ≤ k) :
    (10 + ((k - kmin : ℕ) : ℚ) * 30) - (10 + ((0 : ℕ) : ℚ) * 30) =
      ((10 : ℚ) + 30 * k) - (10 + 30 * kmin) := by
  push_cast [h]
  ring

theorem forall₂_zip_d (k0 : ℕ) :
    ∀ (rest : List TextBlock) (krest : List ℕ),
    List.Forall₂ (fun (b : TextBlock) (k : ℕ) =>
      b.bbox.x0 = (10 : ℚ) + 30 * k ∧ safeItemText b.text = true)
      rest krest →
    (∀ k ∈ krest, k0 ≤ k) →
    List.Forall₂ (fun (pb : TextBlock) (d : ℕ) =>
      pb.bbox.x0 = (10 : ℚ) + d * 30)
      (List.zipWith (fun b k => parsedItem (2 * (k - k0)) b.text.toList)
        rest krest)
      (krest.map fun k => k - k0) := by
  intro rest krest h
  induction h with
  | nil => intro _; constructor
  | @cons b k rest' krest' hbk htail ih =>
    intro hmin
    rw [List.zipWith_cons_cons, List.map_cons]
    exact List.Forall₂.cons (parsedItem_x (k - k0) b.text.toList)
      (ih fun x hx => hmin x (List.mem_cons_of_mem k hx))

theorem relRun_parsedRun (i0 : TextBlock) (rest : List TextBlock)
    (k0 : ℕ) (krest : List ℕ)
    (hx0 : i0.bbox.x0 = (10 : ℚ) + 30 * k0)
    (hrel : List.Forall₂ (fun (b : TextBlock) (k : ℕ) =>
      b.bbox.x0 = (10 : ℚ) + 30 * k ∧ safeItemText b.text = true) rest krest)
    (hmin : ∀ k ∈ krest, k0 ≤ k) :
    relRun (parsedRun (i0 :: rest) (k0 :: krest) k0) =
      relRun (i0 :: rest) := by
  have hMo : runMinX (i0 :: rest) = (10 : ℚ) + 30 * k0 := by
    rw [runMinX, hx0]
    rw [foldl_min_canonical rest krest (hrel.imp fun _ _ hab => hab.1) k0]
    rw [foldl_min_head k0 krest hmin]
  have hpx0 : (parsedItem (2 * (k0 - k0)) i0.text.toList).bbox.x0 =
      (10 : ℚ) + ((0 : ℕ) : ℚ) * 30 := by
    rw [parsedItem_x]
    rw [Nat.sub_self]
  have hMp : runMinX (parsedRun (i0 :: rest) (k0 :: krest) k0) =
      (10 : ℚ) + ((0 : ℕ) : ℚ) * 30 := by
    rw [parsedRun, List.zipWith_cons_cons, runMinX, hpx0]
    rw [foldl_min_canonical2 _ _ (forall₂_zip_d k0 rest krest hrel hmin) 0]
    rw [foldl_min_head 0 _ (fun x _ => Nat.zero_le x)]
  rw [relRun, relRun, hMo, hMp]
  rw [parsedRun, List.zipWith_cons_cons, List.map_cons, List.map_cons]
  congr 1
  · rw [show (parsedItem (2 * (k0 - k0)) i0.text.toList).text = i0.text
      from string_mk_toList i0.text]
    rw [hpx0, hx0]
    rw [show (10 : ℚ) + ((0 : ℕ) : ℚ) * 30 = 10 + 30 * k0 - (10 + 30 * k0) +
      (10 + ((0 : ℕ) : ℚ) * 30) from by ring]
    congr 1
    push_cast
    ring
  · clear hMo hMp hpx0 hx0
    induction hrel with
    | nil => rfl
    | @cons b k rest' krest' hbk htail ih =>
      rw [List.zipWith_cons_cons, List.map_cons, List.map_cons]
      congr 1
      · rw [show (parsedItem (2 * (k - k0)) b.text.toList).text = b.text
          from string_mk_toList b.text]
        rw [parsedItem_x, hbk.1]
        rw [off_eq k k0 (hmin k (List.mem_cons_self _ _))]
      · exact ih (fun x hx => hmin x (List.mem_cons_of_mem k hx))

/-!
## Round-trip: blank-line trimming around the joined chunk body
-/

theorem splitOnChar_cons_sep (sep : Char) (b : List Char) :
    splitOnChar sep (sep :: b) = [] :: splitOnChar sep b := by
  simp [splitOnChar]

theorem splitOnChar_sep_junction (sep : Char) :
    ∀ (a b : List Char),
      splitOnChar sep (a ++ sep :: b) =
        splitOnChar sep a ++ splitOnChar sep b := by
  intro a
  induction a with
  | nil =>
    intro b
    rw [List.nil_append, splitOnChar_cons_sep]
    rfl
  | cons c cs ih =>
    intro b
    rw [List.cons_append]
    simp only [splitOnChar]
    by_cases h : c = sep
    · rw [if_pos h, if_pos h, ih b, List.cons_append]
    · rw [if_neg h, if_neg h, ih b]
      cases hcs : splitOnChar sep cs with
      | nil => exact absurd hcs (splitOnChar_ne_nil sep cs)
      | cons g gs =>
        rw [List.cons_append]
        rfl

theorem splitOnChar_sepJoin_nn :
    ∀ (P : List (List Char)), P ≠ [] →
      splitOnChar '\n' (sepJoin ['\n', '\n'] P) ++ [[]] =
        P.flatMap fun p => splitOnChar '\n' p ++ [[]] := by
  intro P
  induction P with
  | nil => intro h; exact absurd rfl h
  | cons p ps ih =>
    intro _
    cases ps with
    | nil =>
      simp [sepJoin]
    | cons q qs =>
      have hps : sepJoin ['\n', '\n'] (p :: q :: qs) =
          p ++ '\n' :: ('\n' :: sepJoin ['\n', '\n'] (q :: qs)) := by
        rw [show (p :: q :: qs) = [p] ++ (q :: qs) from rfl,
          sepJoin_append_ne _ _ _ (by simp) (by simp)]
        simp [sepJoin]
      rw [hps, splitOnChar_sep_junction, splitOnChar_cons_sep]
      rw [List.flatMap_cons]
      rw [← ih (by simp)]
      simp [List.append_assoc]

theorem intercalateChar_mem (sep : Char) :
    ∀ (M : List (List Char)) (c : Char), c ∈ intercalateChar sep M →
      c = sep ∨ ∃ m ∈ M, c ∈ m := by
  intro M
  induction M with
  | nil => intro c hc; cases hc
  | cons m M' ih =>
    intro c hc
    cases M' with
    | nil =>
      exact Or.inr ⟨m, List.mem_cons_self _ _, hc⟩
    | cons m2 M2 =>
      rw [show intercalateChar sep (m :: m2 :: M2) =
        m ++ sep :: intercalateChar sep (m2 :: M2) from rfl] at hc
      rcases List.mem_append.mp hc with h | h
      · exact Or.inr ⟨m, List.mem_cons_self _ _, h⟩
      · rcases List.mem_cons.mp h with h2 | h2
        · exact Or.inl h2
        · rcases ih c h2 with h3 | ⟨m3, hm3, hc3⟩
          · exact Or.inl h3
          · exact Or.inr ⟨m3, List.mem_cons_of_mem m hm3, hc3⟩

theorem sepJoin_mem (sep : List Char) :
    ∀ (L : List (List Char)) (c : Char), c ∈ sepJoin sep L →
      c ∈ sep ∨ ∃ l ∈ L, c ∈ l := by
  intro L
  cases L with
  | nil => intro c hc; cases hc
  | cons a as =>
    intro c hc
    rw [sepJoin] at hc
    rcases List.mem_append.mp hc with h | h
    · exact Or.inr ⟨a, List.mem_cons_self _ _, h⟩
    · obtain ⟨r, hr, hcr⟩ := List.mem_flatMap.mp h
      rcases List.mem_append.mp hcr with h2 | h2
      · exact Or.inl h2
      · exact Or.inr ⟨r, List.mem_cons_of_mem a hr, h2⟩

theorem splitOnChar_chars_subset (sep : Char) :
    ∀ (l : List Char) (g : List Char), g ∈ splitOnChar sep l →
      ∀ c ∈ g, c ∈ l := by
  intro l
  induction l with
  | nil =>
    intro g hg c hc
    simp [splitOnChar] at hg
    rw [hg] at hc
    cases hc
  | cons d rest ih =>
    intro g hg c hc
    simp only [splitOnChar] at hg
    by_cases hd : d = sep
    · rw [if_pos hd] at hg
      rcases List.mem_cons.mp hg with h | h
      · rw [h] at hc; cases hc
      · exact List.mem_cons_of_mem d (ih g h c hc)
    · rw [if_neg hd] at hg
      cases hs : splitOnChar sep rest with
      | nil => exact absurd hs (splitOnChar_ne_nil sep rest)
      | cons g0 gs =>
        rw [hs] at hg
        rcases List.mem_cons.mp hg with h | h
        · rw [h] at hc
          rcases List.mem_cons.mp hc with h2 | h2
          · rw [h2]; exact List.mem_cons_self _ _
          · exact List.mem_cons_of_mem d
              (ih g0 (hs ▸ List.mem_cons_self _ _) c h2)
        · exact List.mem_cons_of_mem d
            (ih g (hs ▸ List.mem_cons_of_mem g0 h) c hc)

theorem intercalateChar_blanks_left (sep : Char) :
    ∀ (pre R : List (List Char)), R ≠ [] → (∀ l ∈ pre, l = []) →
      intercalateChar sep (pre ++ R) =
        List.replicate pre.length sep ++ intercalateChar sep R := by
  intro pre
  induction pre with
  | nil => intro R _ _; rfl
  | cons a pre' ih =>
    intro R hR h
    have ha : a = [] := h a (List.mem_cons_self _ _)
    subst ha
    rw [List.cons_append,
      intercalateChar_cons_nil sep _ (by
        intro h0
        exact hR (List.append_eq_nil.mp h0).2)]
    rw [ih R hR (fun x hx => h x (List.mem_cons_of_mem _ hx))]
    rfl

theorem intercalateChar_blanks_right (sep : Char) :
    ∀ (post R : List (List Char)), R ≠ [] → (∀ l ∈ post, l = []) →
      intercalateChar sep (R ++ post) =
        intercalateChar sep R ++ List.replicate post.length sep := by
  intro post
  induction post with
  | nil => intro R _ _; simp
  | cons a post' ih =>
    intro R hR h
    have ha : a = [] := h a (List.mem_cons_self _ _)
    subst ha
    rw [show R ++ [] :: post' = (R ++ [[]]) ++ post' from by
      simp [List.append_assoc]]
    rw [ih (R ++ [[]]) (by simp) (fun x hx => h x (List.mem_cons_of_mem _ hx))]
    rw [intercalateChar_append sep R [[]] hR (by simp)]
    rw [show intercalateChar sep [([] : List Char)] = ([] : List Char)
      from rfl]
    simp [List.replicate_succ, List.append_assoc]

theorem intercalateChar_head_cons (sep : Char) (c : Char) (r : List Char)
    (M : List (List Char)) :
    ∃ R, intercalateChar sep ((c :: r) :: M) = c :: R := by
  cases M with
  | nil => exact ⟨r, rfl⟩
  | cons m2 M2 => exact ⟨r ++ sep :: intercalateChar sep (m2 :: M2), rfl⟩

theorem intercalateChar_getLast (sep : Char) :
    ∀ (M : List (List Char)) (m : List Char), m ≠ [] →
      (intercalateChar sep (M ++ [m])).getLast? = m.getLast? := by
  intro M
  induction M with
  | nil => intro m _; rfl
  | cons a M' ih =>
    intro m hm
    have hI : intercalateChar sep ((a :: M') ++ [m]) =
        a ++ sep :: intercalateChar sep (M' ++ [m]) := by
      rw [show (a :: M') ++ [m] = [a] ++ (M' ++ [m]) from by simp,
        intercalateChar_append sep [a] _ (by simp) (by simp)]
      rfl
    have hne : intercalateChar sep (M' ++ [m]) ≠ [] := by
      intro h0
      have h1 := ih m hm
      rw [h0] at h1
      have h2 : m.getLast?.isSome = true := List.getLast?_isSome.mpr hm
      rw [← h1] at h2
      cases h2
    rw [hI, List.getLast?_append_of_ne_nil _ (by simp)]
    rw [show sep :: intercalateChar sep (M' ++ [m]) =
      [sep] ++ intercalateChar sep (M' ++ [m]) from rfl]
    rw [List.getLast?_append_of_ne_nil _ hne]
    exact ih m hm

theorem hardLine_unpack {l : List Char} (h : hardLine l = true) :
    (∃ c r, l = c :: r ∧ isPySpace c = false) ∧
      (∃ d, l.getLast? = some d ∧ isPySpace d = false) := by
  rw [hardLine, Bool.and_eq_true] at h
  obtain ⟨h1, h2⟩ := h
  constructor
  · cases hl : l with
    | nil => rw [hl] at h1; cases h1
    | cons c r =>
      rw [hl, List.head?_cons] at h1
      exact ⟨c, r, rfl, by simpa using h1⟩
  · cases hg : l.getLast? with
    | none => rw [hg] at h2; cases h2
    | some d =>
      rw [hg] at h2
      exact ⟨d, rfl, by simpa using h2⟩

theorem hardLine_join (m0 : List Char) (MID : List (List Char))
    (c : Char) (r : List Char) (hm0 : m0 = c :: r) (hc : isPySpace c = false)
    (Mi : List (List Char)) (mlast : List Char)
    (hsplit : m0 :: MID = Mi ++ [mlast])
    (d : Char) (hd : mlast.getLast? = some d) (hdw : isPySpace d = false) :
    hardLine (intercalateChar '\n' (m0 :: MID)) = true := by
  subst hm0
  obtain ⟨R, hR⟩ := intercalateChar_head_cons '\n' c r MID
  have hlast : (intercalateChar '\n' ((c :: r) :: MID)).getLast? = some d := by
    rw [hsplit, intercalateChar_getLast '\n' Mi mlast (by
      intro h0
      rw [h0] at hd
      cases hd)]
    exact hd
  rw [hR] at hlast ⊢
  rw [hardLine, List.head?_cons, hlast]
  simp [hc, hdw]

theorem pyStrip_all_ws {l : List Char} (h : ∀ c ∈ l, isPySpace c = true) :
    pyStripList l = [] := by
  have hdw : l.dropWhile isPySpace = [] := List.dropWhile_eq_nil_iff.mpr
    (fun x hx => h x hx)
  rw [pyStripList, hdw]
  rfl

theorem hardLine_of_stripped (l : List Char) (hs : pyStripList l = l)
    (hne : l ≠ []) : hardLine l = true := by
  have hlen1 : (pyStripList l).length ≤ (l.dropWhile isPySpace).length := by
    rw [pyStripList, List.length_reverse]
    calc ((l.dropWhile isPySpace).reverse.dropWhile isPySpace).length
        ≤ (l.dropWhile isPySpace).reverse.length :=
          (List.dropWhile_sublist isPySpace).length_le
      _ = (l.dropWhile isPySpace).length := List.length_reverse _
  have hlen2 : (l.dropWhile isPySpace).length ≤ l.length :=
    (List.dropWhile_sublist isPySpace).length_le
  have hA : l.dropWhile isPySpace = l := by
    have hsuf : l.dropWhile isPySpace <:+ l := List.dropWhile_suffix _
    refine List.IsSuffix.eq_of_length hsuf ?_
    have := congrArg List.length hs
    omega
  have hB : l.reverse.dropWhile isPySpace = l.reverse := by
    have h2 : ((l.dropWhile isPySpace).reverse.dropWhile isPySpace).reverse =
        l := hs
    rw [hA] at h2
    have h3 := congrArg List.reverse h2
    rw [List.reverse_reverse] at h3
    exact h3
  cases hl : l with
  | nil => exact absurd hl hne
  | cons c X =>
    have hcw : isPySpace c = false := by
      by_contra hcc
      rw [Bool.not_eq_false] at hcc
      rw [hl, List.dropWhile_cons, hcc, if_pos rfl] at hA
      have := congrArg List.length hA
      have hle : (X.dropWhile isPySpace).length ≤ X.length :=
        (List.dropWhile_sublist isPySpace).length_le
      simp at this
      omega
    obtain ⟨d, Y, hrev⟩ : ∃ d Y, l.reverse = d :: Y := by
      cases hr : l.reverse with
      | nil =>
        have := congrArg List.reverse hr
        rw [List.reverse_reverse] at this
        exact absurd this hne
      | cons d Y => exact ⟨d, Y, rfl⟩
    have hdw : isPySpace d = false := by
      by_contra hdd
      rw [Bool.not_eq_false] at hdd
      rw [hrev, List.dropWhile_cons, hdd, if_pos rfl] at hB
      have := congrArg List.length hB
      have hle : (Y.dropWhile isPySpace).length ≤ Y.length :=
        (List.dropWhile_sublist isPySpace).length_le
      simp at this
      omega
    have hget : l.getLast? = some d := by
      rw [← List.head?_reverse, hrev, List.head?_cons]
    have hget2 : (c :: X).getLast? = some d := by rw [← hl]; exact hget
    rw [hardLine, List.head?_cons, hget2]
    simp [hcw, hdw]

theorem foldl_min_of_le (x0 : ℚ) :
    ∀ (rest : List TextBlock), (∀ b ∈ rest, x0 ≤ b.bbox.x0) →
      rest.foldl (fun m b => min m b.bbox.x0) x0 = x0 := by
  intro rest
  induction rest with
  | nil => intro _; rfl
  | cons b bs ih =>
    intro h
    rw [List.foldl_cons,
      min_eq_left (h b (List.mem_cons_self _ _))]
    exact ih fun x hx => h x (List.mem_cons_of_mem b hx)

theorem trim_right_ex :
    ∀ (L : List (List Char)), (∃ l ∈ L, l ≠ []) →
      (∀ l ∈ L, l = [] ∨ ∃ d, l.getLast? = some d ∧ isPySpace d = false) →
      ∃ M z Mi mlast, L = M ++ z ∧ (∀ l ∈ z, l = []) ∧
        M = Mi ++ [mlast] ∧
        (∃ d, mlast.getLast? = some d ∧ isPySpace d = false) ∧
        pyStripList (intercalateChar '\n' L) =
          pyStripList (intercalateChar '\n' M) := by
  intro L
  induction L using List.reverseRecOn with
  | nil =>
    intro h _
    obtain ⟨w, hw, _⟩ := h
    cases hw
  | append_singleton L' l ih =>
    intro hnb hcond
    by_cases hl : l = []
    · subst hl
      have hnb' : ∃ w ∈ L', w ≠ [] := by
        obtain ⟨w, hw, hwne⟩ := hnb
        rcases List.mem_append.mp hw with h | h
        · exact ⟨w, h, hwne⟩
        · simp at h
          exact absurd h hwne
      obtain ⟨M, z, Mi, mlast, hLM, hz, hMi, hd, hstrip⟩ := ih hnb'
        (fun x hx => hcond x (List.mem_append.mpr (Or.inl hx)))
      refine ⟨M, z ++ [[]], Mi, mlast, ?_, ?_, hMi, hd, ?_⟩
      · rw [hLM, List.append_assoc]
      · intro x hx
        rcases List.mem_append.mp hx with h | h
        · exact hz x h
        · simpa using h
      · have hL'ne : L' ≠ [] := by
          obtain ⟨w, hw, _⟩ := hnb'
          intro h0
          rw [h0] at hw
          cases hw
        rw [intercalateChar_blanks_right '\n' [[]] L' hL'ne (by simp)]
        rw [pyStrip_ws_right _ _ (by
          intro c hc
          rw [List.eq_of_mem_replicate hc]
          decide)]
        exact hstrip
    · refine ⟨L' ++ [l], [], L', l, by simp, by simp, rfl, ?_, rfl⟩
      have hc := hcond l (List.mem_append.mpr (Or.inr (List.mem_cons_self _ _)))
      rcases hc with h | h
      · exact absurd h hl
      · exact h

theorem trim_left_ex :
    ∀ (L : List (List Char)), (∃ l ∈ L, l ≠ []) →
      (∀ l2, ((L.dropWhile List.isEmpty).head? = some l2) →
        ∃ c r, l2 = c :: r ∧ isPySpace c = false) →
      ∃ a M, L = a ++ M ∧ (∀ l ∈ a, l = []) ∧
        (∃ c r, M.head? = some (c :: r) ∧ isPySpace c = false) ∧
        pyStripList (intercalateChar '\n' L) =
          pyStripList (intercalateChar '\n' M) := by
  intro L
  induction L with
  | nil =>
    intro h _
    obtain ⟨w, hw, _⟩ := h
    cases hw
  | cons l L' ih =>
    intro hnb hfirst
    by_cases hl : l = []
    · subst hl
      have hnb' : ∃ w ∈ L', w ≠ [] := by
        obtain ⟨w, hw, hwne⟩ := hnb
        rcases List.mem_cons.mp hw with h | h
        · exact absurd h hwne
        · exact ⟨w, h, hwne⟩
      have hL'ne : L' ≠ [] := by
        obtain ⟨w, hw, _⟩ := hnb'
        intro h0
        rw [h0] at hw
        cases hw
      obtain ⟨a, M, hLM, ha, hhead, hstrip⟩ := ih hnb' (by
        intro l2 h2
        refine hfirst l2 ?_
        rw [show (([] : List Char) :: L').dropWhile List.isEmpty =
          L'.dropWhile List.isEmpty from by simp]
        exact h2)
      refine ⟨[] :: a, M, by rw [hLM]; rfl, ?_, hhead, ?_⟩
      · intro x hx
        rcases List.mem_cons.mp hx with h | h
        · exact h
        · exact ha x h
      · rw [intercalateChar_cons_nil '\n' L' hL'ne]
        rw [show ('\n' :: intercalateChar '\n' L') =
          ['\n'] ++ intercalateChar '\n' L' from rfl]
        rw [pyStrip_ws_left _ _ (by
          intro c hc
          simp at hc
          rw [hc]
          decide)]
        exact hstrip
    · obtain ⟨c, r, hlcr⟩ : ∃ c r, l = c :: r := by
        cases hll : l with
        | nil => exact absurd hll hl
        | cons c r => exact ⟨c, r, rfl⟩
      have hfl := hfirst l (by
        rw [show ((l :: L').dropWhile List.isEmpty) = l :: L' from by
          rw [List.dropWhile_cons, if_neg (by simp [hlcr])]]
        rw [List.head?_cons])
      obtain ⟨c2, r2, hl2, hc2⟩ := hfl
      refine ⟨[], l :: L', rfl, by simp, ⟨c2, r2, ?_, hc2⟩, rfl⟩
      rw [List.head?_cons, hl2]

theorem strip_join_core (L : List (List Char))
    (hnb : ∃ l ∈ L, l ≠ [])
    (hright : ∀ l ∈ L, l = [] ∨ ∃ d, l.getLast? = some d ∧
      isPySpace d = false)
    (hleft : ∀ l2, (L.dropWhile List.isEmpty).head? = some l2 →
      ∃ c r, l2 = c :: r ∧ isPySpace c = false)
    (hnl : ∀ l ∈ L, '\n' ∉ l) :
    ∃ a M z, L = a ++ M ++ z ∧ (∀ l ∈ a, l = []) ∧ (∀ l ∈ z, l = []) ∧
      M ≠ [] ∧
      pyStripList (intercalateChar '\n' L) = intercalateChar '\n' M ∧
      splitOnChar '\n' (intercalateChar '\n' M) = M := by
  obtain ⟨a, M1, hLM1, ha, ⟨c, r, hhead, hc⟩, hstrip1⟩ :=
    trim_left_ex L hnb hleft
  obtain ⟨m0, M1', hM1⟩ : ∃ m0 M1', M1 = m0 :: M1' := by
    cases hM : M1 with
    | nil =>
      rw [hM] at hhead
      cases hhead
    | cons m0 M1' => exact ⟨m0, M1', rfl⟩
  have hm0 : m0 = c :: r := by
    rw [hM1, List.head?_cons] at hhead
    exact Option.some.inj hhead
  obtain ⟨M, z, Mi, mlast, hM1z, hz, hMi, ⟨d, hd, hdw⟩, hstrip2⟩ :=
    trim_right_ex M1
      ⟨m0, hM1 ▸ List.mem_cons_self _ _, by rw [hm0]; simp⟩
      (fun x hx => hright x (by
        rw [hLM1]
        exact List.mem_append.mpr (Or.inr hx)))
  have hMne : M ≠ [] := by
    rw [hMi]
    simp
  obtain ⟨n0, M', hMcons⟩ : ∃ n0 M', M = n0 :: M' := by
    cases hM : M with
    | nil => exact absurd hM hMne
    | cons n0 M' => exact ⟨n0, M', rfl⟩
  have hn0 : n0 = c :: r := by
    have h1 : m0 :: M1' = n0 :: (M' ++ z) := by
      rw [← hM1, hM1z, hMcons, List.cons_append]
    rw [← (List.cons_eq_cons.mp h1).1]
    exact hm0
  have hhard : hardLine (intercalateChar '\n' M) = true := by
    rw [hMcons]
    exact hardLine_join n0 M' c r hn0 hc Mi mlast (hMcons ▸ hMi) d hd hdw
  refine ⟨a, M, z, ?_, ha, hz, hMne, ?_, ?_⟩
  · rw [hLM1, hM1z, List.append_assoc]
  · rw [hstrip1, hstrip2, pyStripList_self hhard]
  · refine splitOnChar_intercalateChar '\n' M hMne ?_
    intro l hlM
    refine hnl l ?_
    rw [hLM1, hM1z]
    exact List.mem_append.mpr (Or.inr (List.mem_append.mpr (Or.inl hlM)))

end MarkdownConverter

namespace MarkdownConverter

/-- A group whose first item sits at the run minimum x-offset (`_render_list_items`
then emits its first line unindented). -/
def firstMin (g : List TextBlock) : Prop :=
  ∀ b1 ∈ g.head?, ∀ b ∈ g, b1.bbox.x0 ≤ b.bbox.x0

/-- A block group the codec round-trips: a single safe paragraph, or a
non-empty run of safe list items with canonical x-positions whose first
item is at the run minimum. -/
def GroupOK (g : List TextBlock) : Prop :=
  (∃ b, g = [b] ∧ b.block_type = "paragraph" ∧ safeParaText b.text = true) ∨
  ((∃ b0 grest, g = b0 :: grest) ∧
    (∀ x ∈ g, x.block_type = "list_item" ∧ safeItemText x.text = true ∧
      ∃ k : ℕ, x.bbox.x0 = 10 + 30 * k) ∧ firstMin g)

theorem mem_of_head? {α : Type} {l : List α} {x : α}
    (h : l.head? = some x) : x ∈ l := by
  cases l with
  | nil => cases h
  | cons a as =>
    rw [List.head?_cons] at h
    rw [Option.some.inj h] at *
    exact List.mem_cons_self _ _

theorem safeTextLine_plain {l : List Char} (h : safeTextLine l = true) :
    ∀ c ∈ l, ¬ c = '<' ∧ ¬ c = '\n' := by
  simp only [safeTextLine, Bool.and_eq_true] at h
  have hall := h.1.1.1.2
  intro c hc
  have h2 := List.all_eq_true.mp hall c hc
  rw [plainChar, Bool.and_eq_true] at h2
  constructor
  · intro he; rw [he] at h2; simp at h2
  · intro he; rw [he] at h2; simp at h2

theorem safeItemText_strip {t : String} (h : safeItemText t = true) :
    pyStripList t.toList = t.toList := by
  rw [safeItemText, strippedNE, Bool.and_eq_true, Bool.and_eq_true] at h
  simpa using h.1.2

theorem groupOK_of_safe {blocks : List TextBlock}
    (hb : ∀ b ∈ blocks, SafeBlock b)
    (hrun : ∀ g ∈ groupsAux [] blocks, firstMin g) :
    ∀ g ∈ groupsAux [] blocks, GroupOK g := by
  intro g hg
  have hgne : g ≠ [] := groupsAux_mem_ne blocks [] g hg
  by_cases hr : isRunG g
  · right
    refine ⟨?_, ?_, hrun g hg⟩
    · cases hc : g with
      | nil => exact absurd hc hgne
      | cons b0 grest => exact ⟨b0, grest, rfl⟩
    · intro x hx
      have hitem := groupsAux_run_items blocks [] (by simp) g hg x hx hr
      have hxb : x ∈ blocks := by
        rcases groupsAux_mem_blocks blocks [] g x hg hx with h | h
        · cases h
        · exact h
      rcases hb x hxb with ⟨htype, _⟩ | ⟨_, hsafe, hk⟩
      · exact absurd (htype ▸ hitem) (by decide)
      · exact ⟨hitem, hsafe, hk⟩
  · left
    obtain ⟨y, hy, hyn⟩ := groupsAux_nonrun_singleton blocks [] (by simp)
      g hg hr
    have hyb : y ∈ blocks := by
      rcases groupsAux_mem_blocks blocks [] g y hg
          (hy ▸ List.mem_cons_self _ _) with h | h
      · cases h
      · exact h
    rcases hb y hyb with ⟨htype, hsafe⟩ | ⟨htype, _, _⟩
    · exact ⟨y, hy, htype, hsafe⟩
    · exact absurd htype hyn

theorem runLines (i0 : TextBlock) (rest : List TextBlock)
    (hsafe0 : safeItemText i0.text = true)
    (hsafer : ∀ b ∈ rest, safeItemText b.text = true) :
    splitOnChar '\n' (renderListItems (i0 :: rest)).toList =
      (i0 :: rest).map (fun item =>
        let offset := item.bbox.x0 -
          (rest.foldl (fun m b => min m b.bbox.x0) i0.bbox.x0)
        let nesting : Nat := if offset > 15 then ((offset / 30).floor).toNat
          else 0
        List.replicate (2 * nesting) ' ' ++ '-' :: ' ' :: item.text.toList) := by
  rw [renderListItems_chars, sepJoin_single_eq '\n' _ (by simp)]
  apply splitOnChar_intercalateChar
  · simp
  · intro l hl
    obtain ⟨item, hitem, hline⟩ := List.mem_map.mp hl
    rw [← hline]
    intro hnl
    rcases List.mem_append.mp hnl with h | h
    · exact absurd (List.eq_of_mem_replicate h) (by decide)
    · rcases List.mem_cons.mp h with h | h
      · cases h
      · rcases List.mem_cons.mp h with h | h
        · cases h
        · have hsafe : safeItemText item.text = true := by
            rcases List.mem_cons.mp hitem with h2 | h2
            · rw [h2]; exact hsafe0
            · exact hsafer item h2
          exact ((safeItemText_props hsafe).2 '\n' h).2 rfl

theorem tableLines (header : List String) (data : List (List String))
    (hsafeT : safeTable ⟨header :: data⟩ = true) :
    splitOnChar '\n' (renderTable ⟨header :: data⟩).toList =
      rowChars header :: rowChars (List.replicate header.length "---") ::
        data.map rowChars := by
  obtain ⟨hne, huni, hcells⟩ := safeTable_unpack hsafeT
  have hsep : ∀ c ∈ List.replicate header.length "---", safeCell c = true := by
    intro c hc
    rw [List.eq_of_mem_replicate hc]
    decide
  rw [renderTable_chars header data huni]
  apply splitOnChar_intercalateChar
  · simp
  · intro l hl
    rcases List.mem_cons.mp hl with h | h
    · rw [h]
      exact rowChars_no_nl header (hcells header (List.mem_cons_self _ _))
    rcases List.mem_cons.mp h with h2 | h2
    · rw [h2]
      exact rowChars_no_nl _ hsep
    · obtain ⟨r, hr, hrl⟩ := List.mem_map.mp h2
      rw [← hrl]
      exact rowChars_no_nl r (hcells r (List.mem_cons_of_mem header hr))

end MarkdownConverter


namespace MarkdownConverter

/-- A rendered body line: non-empty, ends in non-whitespace, and free of
`<` (so the section scanner and marker stripper ignore it). -/
def GoodLine (l : List Char) : Prop :=
  l ≠ [] ∧ (∃ d, l.getLast? = some d ∧ isPySpace d = false) ∧
    ∀ ch ∈ l, ¬ ch = '<'

theorem itemLine_good (n : Nat) (t : String) (hsafe : safeItemText t = true) :
    GoodLine (List.replicate n ' ' ++ '-' :: ' ' :: t.toList) := by
  have htne : t.toList ≠ [] := (safeItemText_props hsafe).1
  refine ⟨by simp, ?_, ?_⟩
  · obtain ⟨_, hget, hgw⟩ := (hardLine_unpack (hardLine_of_stripped t.toList
      (safeItemText_strip hsafe) htne)).2
    refine ⟨_, ?_, hgw⟩
    rw [List.getLast?_append_of_ne_nil _ (by simp)]
    rw [show ('-' :: ' ' :: t.toList) = ['-', ' '] ++ t.toList from rfl]
    rw [List.getLast?_append_of_ne_nil _ htne]
    exact hget
  · intro ch hch
    rcases List.mem_append.mp hch with h | h
    · rw [List.eq_of_mem_replicate h]
      decide
    · rcases List.mem_cons.mp h with h | h
      · rw [h]; decide
      rcases List.mem_cons.mp h with h | h
      · rw [h]; decide
      · exact ((safeItemText_props hsafe).2 ch h).1

theorem rowChars_good (cells : List String)
    (hcells : ∀ c ∈ cells, ∀ x ∈ c.toList, ¬ x = '<') :
    GoodLine (rowChars cells) := by
  obtain ⟨⟨c0, r0, hcr, _⟩, hright⟩ :=
    hardLine_unpack (hardLine_rowChars cells)
  refine ⟨by rw [hcr]; simp, hright, ?_⟩
  intro ch hch
  rcases rowChars_mem cells ch hch with h | h | ⟨c, hc, hchc⟩
  · rw [h]; decide
  · rw [h]; decide
  · exact hcells c hc ch hchc

theorem group_lines_facts (g : List TextBlock) (hOK : GroupOK g) :
    ∀ l ∈ splitOnChar '\n' (renderGroup g).toList, GoodLine l := by
  rcases hOK with ⟨b, hgb, htype, hsafe⟩ | ⟨⟨b0, grest, hgc⟩, hall, hmin⟩
  · have hrg : renderGroup g = b.text := by
      rw [hgb]
      simp only [renderGroup]
      rw [if_neg (by simp [htype])]
    rw [hrg, safeParaText] at *
    intro l hl
    have hline := List.all_eq_true.mp hsafe l hl
    obtain ⟨hstrip, hne, _, _⟩ := safeTextLine_props hline
    refine ⟨hne, (hardLine_unpack (hardLine_of_stripped l hstrip hne)).2, ?_⟩
    intro ch hch
    exact (safeTextLine_plain hline ch hch).1
  · have hmem : ∀ x, x ∈ b0 :: grest → x ∈ g := by
      intro x hx
      rw [hgc]
      exact hx
    have hrg : renderGroup g = renderListItems (b0 :: grest) := by
      rw [hgc]
      simp only [renderGroup]
      rw [if_pos (by simp [(hall b0 (hmem b0 (List.mem_cons_self _ _))).1])]
    rw [hrg, runLines b0 grest
      (hall b0 (hmem b0 (List.mem_cons_self _ _))).2.1
      (fun b hb => (hall b (hmem b (List.mem_cons_of_mem b0 hb))).2.1)]
    intro l hl
    obtain ⟨item, hitem, hline⟩ := List.mem_map.mp hl
    rw [← hline]
    exact itemLine_good _ item.text (hall item (hmem item hitem)).2.1

theorem group_head_line (g : List TextBlock) (hOK : GroupOK g) :
    ∀ l, (splitOnChar '\n' (renderGroup g).toList).head? = some l →
      ∃ c r, l = c :: r ∧ isPySpace c = false := by
  rcases hOK with ⟨b, hgb, htype, hsafe⟩ | ⟨⟨b0, grest, hgc⟩, hall, hmin⟩
  · have hrg : renderGroup g = b.text := by
      rw [hgb]
      simp only [renderGroup]
      rw [if_neg (by simp [htype])]
    rw [hrg, safeParaText] at *
    intro l hl
    have hline := List.all_eq_true.mp hsafe l (mem_of_head? hl)
    obtain ⟨hstrip, hne, _, _⟩ := safeTextLine_props hline
    exact (hardLine_unpack (hardLine_of_stripped l hstrip hne)).1
  · have hmem : ∀ x, x ∈ b0 :: grest → x ∈ g := by
      intro x hx
      rw [hgc]
      exact hx
    have hrg : renderGroup g = renderListItems (b0 :: grest) := by
      rw [hgc]
      simp only [renderGroup]
      rw [if_pos (by simp [(hall b0 (hmem b0 (List.mem_cons_self _ _))).1])]
    rw [hrg, runLines b0 grest
      (hall b0 (hmem b0 (List.mem_cons_self _ _))).2.1
      (fun b hb => (hall b (hmem b (List.mem_cons_of_mem b0 hb))).2.1)]
    intro l hl
    rw [List.map_cons, List.head?_cons] at hl
    have hbase : grest.foldl (fun m b => min m b.bbox.x0) b0.bbox.x0 =
        b0.bbox.x0 := by
      refine foldl_min_of_le b0.bbox.x0 grest ?_
      intro b hb
      exact hmin b0 (by rw [hgc, List.head?_cons]; rfl) b
        (hmem b (List.mem_cons_of_mem b0 hb))
    have hl0 : l = '-' :: ' ' :: b0.text.toList := by
      have h2 := Option.some.inj hl
      rw [← h2]
      simp only [hbase, sub_self]
      rw [if_neg (by norm_num)]
      simp
    exact ⟨'-', ' ' :: b0.text.toList, hl0, by decide⟩

theorem table_lines_facts (t : Table) (hsafe : safeTable t = true) :
    ∀ l ∈ splitOnChar '\n' (renderTable t).toList, GoodLine l := by
  obtain ⟨rows⟩ := t
  cases rows with
  | nil => cases hsafe
  | cons header data =>
    obtain ⟨hne, huni, hcells⟩ := safeTable_unpack hsafe
    rw [tableLines header data hsafe]
    intro l hl
    rcases List.mem_cons.mp hl with h | h
    · rw [h]
      refine rowChars_good header ?_
      intro c hc x hx
      exact ((safeCell_props (hcells header (List.mem_cons_self _ _)
        c hc)).2 x hx).1
    rcases List.mem_cons.mp h with h2 | h2
    · rw [h2]
      refine rowChars_good _ ?_
      intro c hc x hx
      rw [List.eq_of_mem_replicate hc] at hx
      intro hx2
      rw [hx2] at hx
      exact absurd hx (by decide)
    · obtain ⟨r, hr, hrl⟩ := List.mem_map.mp h2
      rw [← hrl]
      refine rowChars_good r ?_
      intro c hc x hx
      exact ((safeCell_props
        (hcells r (List.mem_cons_of_mem header hr) c hc)).2 x hx).1

theorem table_head_line (t : Table) (hsafe : safeTable t = true) :
    ∀ l, (splitOnChar '\n' (renderTable t).toList).head? = some l →
      ∃ c r, l = c :: r ∧ isPySpace c = false := by
  obtain ⟨rows⟩ := t
  cases rows with
  | nil => cases hsafe
  | cons header data =>
    rw [tableLines header data hsafe]
    intro l hl
    rw [List.head?_cons] at hl
    exact ⟨'|', ' ' :: (sepJoin [' ', '|', ' '] (header.map String.toList) ++
      [' ', '|']), by rw [← Option.some.inj hl]; rfl, by decide⟩

end MarkdownConverter

namespace MarkdownConverter

theorem flatRendered_eq (c : ExtractedContent) :
    flatRendered c = (groupsAux [] c.reading_order_blocks).map renderGroup ++
      c.tables.map renderTable := by
  rw [flatRendered]
  cases hb : c.reading_order_blocks with
  | nil => simp [groupsAux]
  | cons x xs => simp

/-- The lines of the rendered content parts of a page, one blank line after
each part. -/
def cLinesOf (c : ExtractedContent) : List (List Char) :=
  ((flatRendered c).map String.toList).flatMap
    fun pl => splitOnChar '\n' pl ++ [[]]

theorem cLines_facts (c : ExtractedContent)
    (hOK : ∀ g ∈ groupsAux [] c.reading_order_blocks, GroupOK g)
    (ht : ∀ t ∈ c.tables, safeTable t = true) :
    ∀ l ∈ cLinesOf c, l = [] ∨ GoodLine l := by
  intro l hl
  rw [cLinesOf] at hl
  obtain ⟨pl, hpl, hlpl⟩ := List.mem_flatMap.mp hl
  obtain ⟨p, hp, hppl⟩ := List.mem_map.mp hpl
  rcases List.mem_append.mp hlpl with h | h
  · right
    rw [flatRendered_eq] at hp
    rcases List.mem_append.mp hp with h2 | h2
    · obtain ⟨g, hg, hgp⟩ := List.mem_map.mp h2
      refine group_lines_facts g (hOK g hg) l ?_
      rw [hgp, hppl]
      exact h
    · obtain ⟨tt, htt, htp⟩ := List.mem_map.mp h2
      refine table_lines_facts tt (ht tt htt) l ?_
      rw [htp, hppl]
      exact h
  · left
    simpa using h

theorem headingChars_good (k : Nat) (t : List Char) (hk : 1 ≤ k) (ht : t ≠ [])
    (halnum : ∀ c ∈ t, c.isAlphanum = true) :
    GoodLine (headingChars k t) := by
  obtain ⟨⟨c0, r0, hcr, _⟩, hright⟩ :=
    hardLine_unpack (hardLine_heading k t hk ht halnum)
  exact ⟨by rw [hcr]; simp, hright, headingChars_no_lt k t halnum⟩

theorem headingChars_head (k : Nat) (t : List Char) (hk : 1 ≤ k) :
    ∃ r, headingChars k t = '#' :: r := by
  obtain ⟨k', rfl⟩ : ∃ k', k = k' + 1 := ⟨k - 1, by omega⟩
  refine ⟨List.replicate k' '#' ++ ' ' :: t, ?_⟩
  rw [headingChars, List.replicate_succ, List.cons_append]

/-- The heading/blank lines left per section after the marker stripper. -/
def hLinesOf (sl : List DocumentSection) : List (List Char) :=
  sl.flatMap fun s => [[], headingChars s.level s.title.toList, []]

/-- The heading blocks `_parse_extracted_content` recovers from the
sections' heading lines. -/
def secHeads (sl : List DocumentSection) : List TextBlock :=
  sl.map fun s =>
    ⟨String.mk (headingChars s.level s.title.toList), defaultBBox, "heading"⟩

theorem secLines_filter (sl : List DocumentSection)
    (hsl : ∀ s ∈ sl, safeTitle s.title = true) :
    (secLines sl).filter
      (fun line => ! (sectionMarkerTitle (pyStripList line)).isSome) =
      hLinesOf sl := by
  induction sl with
  | nil => rfl
  | cons s sl' ih =>
    have hts := safeTitle_unpack (hsl s (List.mem_cons_self _ _))
    rw [show secLines (s :: sl') = sectionMarkerChars s.title.toList :: [] ::
      headingChars s.level s.title.toList :: [] :: secLines sl' from by
        simp [secLines, List.flatMap_cons]]
    have hm : (sectionMarkerTitle (pyStripList
        (sectionMarkerChars s.title.toList))).isSome = true := by
      rw [pyStripList_self (hardLine_marker s.title.toList),
        sectionMarkerTitle_render s.title.toList hts.1]
      rfl
    have hh : (sectionMarkerTitle (pyStripList
        (headingChars s.level s.title.toList))).isSome = false := by
      rw [sectionMarkerTitle_none_of_no_lt _
        (headingChars_no_lt s.level s.title.toList hts.2)]
      rfl
    simp only [List.filter_cons, hm, hh]
    rw [show (sectionMarkerTitle (pyStripList ([] : List Char))).isSome =
      false from rfl]
    simp only [Bool.not_true, Bool.not_false, Bool.false_eq_true, if_false,
      if_true]
    rw [ih (fun x hx => hsl x (List.mem_cons_of_mem s hx))]
    rfl

end MarkdownConverter

namespace MarkdownConverter

theorem pageStuff_eq (secs : List DocumentSection) (page : PageContent)
    (hcontent : ∀ s ∈ findSecList secs page.page_number, s.content = "") :
    pageStuff secs page =
      ((findSecList secs page.page_number).flatMap fun sec =>
        ["<!-- section: " ++ sec.title ++ " -->",
          String.mk (List.replicate sec.level '#') ++ " " ++ sec.title]) ++
      (if renderContent page.content != "" then [renderContent page.content]
        else []) := by
  rw [pageStuff]
  congr 1
  have hgen : ∀ sl : List DocumentSection, (∀ s ∈ sl, s.content = "") →
      (sl.flatMap fun sec =>
        ["<!-- section: " ++ sec.title ++ " -->",
          String.mk (List.replicate sec.level '#') ++ " " ++ sec.title] ++
        (if sec.content != "" then [sec.content] else [])) =
      sl.flatMap fun sec =>
        ["<!-- section: " ++ sec.title ++ " -->",
          String.mk (List.replicate sec.level '#') ++ " " ++ sec.title] := by
    intro sl
    induction sl with
    | nil => intro _; rfl
    | cons s sl' ih =>
      intro h
      rw [List.flatMap_cons, List.flatMap_cons,
        ih (fun x hx => h x (List.mem_cons_of_mem s hx))]
      rw [h s (List.mem_cons_self _ _)]
      simp
  exact hgen _ hcontent

theorem alnum_ne_nl {c : Char} (h : c.isAlphanum = true) : ¬ c = '\n' := by
  intro he
  rw [he] at h
  exact absurd h (by decide)

theorem marker_string_toList (t : String) :
    ("<!-- section: " ++ t ++ " -->").toList =
      sectionMarkerChars t.toList := by
  simp [sectionMarkerChars, String.toList]

theorem heading_string_toList (k : Nat) (t : String) :
    (String.mk (List.replicate k '#') ++ " " ++ t).toList =
      headingChars k t.toList := by
  simp [headingChars, String.toList]

theorem secPart_lines (sl : List DocumentSection)
    (hsl : ∀ s ∈ sl, safeTitle s.title = true) :
    ((sl.flatMap fun sec =>
      ["<!-- section: " ++ sec.title ++ " -->",
        String.mk (List.replicate sec.level '#') ++ " " ++ sec.title]).map
      String.toList).flatMap (fun s => splitOnChar '\n' s ++ [[]]) =
    secLines sl := by
  induction sl with
  | nil => rfl
  | cons s sl' ih =>
    have hts := safeTitle_unpack (hsl s (List.mem_cons_self _ _))
    rw [List.flatMap_cons, List.map_append, List.flatMap_append]
    rw [ih (fun x hx => hsl x (List.mem_cons_of_mem s hx))]
    rw [show secLines (s :: sl') =
      [sectionMarkerChars s.title.toList, [],
        headingChars s.level s.title.toList, []] ++ secLines sl' from by
      simp [secLines, List.flatMap_cons]]
    congr 1
    rw [show List.map String.toList
        ["<!-- section: " ++ s.title ++ " -->",
          String.mk (List.replicate s.level '#') ++ " " ++ s.title] =
      [sectionMarkerChars s.title.toList,
        headingChars s.level s.title.toList] from by
      rw [List.map_cons, List.map_cons, List.map_nil,
        marker_string_toList, heading_string_toList]]
    rw [List.flatMap_cons, List.flatMap_cons, List.flatMap_nil]
    rw [splitOnChar_no_sep '\n' _ (by
      intro hmem
      rw [show sectionMarkerChars s.title.toList =
        "<!-- section: ".toList ++ (s.title.toList ++ " -->".toList) from by
          simp [sectionMarkerChars]] at hmem
      rcases List.mem_append.mp hmem with h | h
      · exact absurd h (by decide)
      · rcases List.mem_append.mp h with h | h
        · exact alnum_ne_nl (hts.2 '\n' h) rfl
        · exact absurd h (by decide))]
    rw [splitOnChar_no_sep '\n' _ (by
      intro hmem
      rw [headingChars] at hmem
      rcases List.mem_append.mp hmem with h | h
      · exact absurd (List.eq_of_mem_replicate h) (by decide)
      · rcases List.mem_cons.mp h with h | h
        · exact absurd h (by decide)
        · exact alnum_ne_nl (hts.2 '\n' h) rfl)]
    rfl

theorem contentPart_lines (c : ExtractedContent)
    (hb : ∀ b ∈ c.reading_order_blocks, SafeBlock b)
    (ht : ∀ t ∈ c.tables, safeTable t = true)
    (he : c.reading_order_blocks = [] → c.body_text = "") :
    (((if renderContent c != "" then [renderContent c] else []).map
      String.toList).flatMap fun s => splitOnChar '\n' s ++ [[]]) =
    cLinesOf c := by
  rw [renderContent_flat c hb ht he]
  by_cases hf : flatRendered c = []
  · rw [hf]
    simp [cLinesOf, hf]
    rfl
  · obtain ⟨p, ps, hfc⟩ : ∃ p ps, flatRendered c = p :: ps := by
      cases hfr : flatRendered c with
      | nil => exact absurd hfr hf
      | cons p ps => exact ⟨p, ps, rfl⟩
    have hnep : String.intercalate "\n\n" (flatRendered c) ≠ "" := by
      rw [hfc]
      exact intercalate_ne_of_head _ p ps
        (flatRendered_ne c hb ht p (hfc ▸ List.mem_cons_self _ _))
    rw [if_pos (by simpa using hnep)]
    rw [show List.map String.toList [String.intercalate "\n\n"
        (flatRendered c)] =
      [(String.intercalate "\n\n" (flatRendered c)).toList] from rfl]
    rw [List.flatMap_cons, List.flatMap_nil, List.append_nil]
    rw [intercalate_chars]
    rw [show ("\n\n".toList) = ['\n', '\n'] from rfl]
    rw [cLinesOf]
    refine splitOnChar_sepJoin_nn _ ?_
    rw [hfc]
    simp

theorem chunkLines_decomp (secs : List DocumentSection) (page : PageContent)
    (last : Bool)
    (hsl : ∀ s ∈ findSecList secs page.page_number,
      safeTitle s.title = true ∧ s.content = "")
    (hb : ∀ b ∈ page.content.reading_order_blocks, SafeBlock b)
    (ht : ∀ t ∈ page.content.tables, safeTable t = true)
    (he : page.content.reading_order_blocks = [] →
      page.content.body_text = "") :
    chunkLines ((pageStuff secs page).map String.toList) last =
      [[], []] ++ (secLines (findSecList secs page.page_number) ++
        (cLinesOf page.content ++ (if last then [] else [[]]))) := by
  rw [chunkLines]
  rw [pageStuff_eq secs page (fun s hs => (hsl s hs).2)]
  rw [List.map_append, List.flatMap_append]
  rw [secPart_lines _ (fun s hs => (hsl s hs).1)]
  rw [contentPart_lines page.content hb ht he]
  simp [List.append_assoc]

end MarkdownConverter

namespace MarkdownConverter

theorem blocksfold_headings :
    ∀ (sl : List DocumentSection) (bs : List TextBlock) (ts : List Table),
      (∀ s ∈ sl, safeTitle s.title = true ∧ 1 ≤ s.level ∧ s.level ≤ 6) →
      (hLinesOf sl).foldl blocksStep (some (.scan, bs, ts)) =
        some (.scan, bs ++ secHeads sl, ts) := by
  intro sl
  induction sl with
  | nil =>
    intro bs ts _
    simp [hLinesOf, secHeads]
  | cons s sl' ih =>
    intro bs ts hsl
    obtain ⟨hsafe, hk1, hk6⟩ := hsl s (List.mem_cons_self _ _)
    have hts := safeTitle_unpack hsafe
    rw [show hLinesOf (s :: sl') = [] :: headingChars s.level s.title.toList ::
      [] :: hLinesOf sl' from by simp [hLinesOf, List.flatMap_cons]]
    rw [List.foldl_cons, List.foldl_cons, List.foldl_cons]
    rw [show blocksStep (some (.scan, bs, ts)) [] = some (.scan, bs, ts)
      from rfl]
    rw [show blocksStep (some (.scan, bs, ts))
        (headingChars s.level s.title.toList) =
      blocksScanLine (headingChars s.level s.title.toList) bs ts from rfl]
    rw [scanLine_heading s.level s.title.toList hk1 hk6 hts.1 hts.2 bs ts]
    rw [show blocksStep (some (.scan, bs ++ [⟨String.mk (headingChars s.level
        s.title.toList), defaultBBox, "heading"⟩], ts)) [] =
      some (.scan, bs ++ [⟨String.mk (headingChars s.level s.title.toList),
        defaultBBox, "heading"⟩], ts) from rfl]
    rw [ih _ ts (fun x hx => hsl x (List.mem_cons_of_mem s hx))]
    simp [secHeads, List.append_assoc]

theorem forall₂_right_mem {α β : Type} {R : α → β → Prop} :
    ∀ {l1 : List α} {l2 : List β}, List.Forall₂ R l1 l2 →
      ∀ b ∈ l2, ∃ a ∈ l1, R a b := by
  intro l1 l2 h
  induction h with
  | nil => intro b hb; cases hb
  | @cons x y l1' l2' hr ht ih =>
    intro b hb
    rcases List.mem_cons.mp hb with h2 | h2
    · exact ⟨x, List.mem_cons_self _ _, h2 ▸ hr⟩
    · obtain ⟨a, ha, hab⟩ := ih b h2
      exact ⟨a, List.mem_cons_of_mem x ha, hab⟩

theorem exists_krest :
    ∀ (rest : List TextBlock),
      (∀ b ∈ rest, safeItemText b.text = true ∧
        ∃ k : ℕ, b.bbox.x0 = 10 + 30 * k) →
      ∃ krest, List.Forall₂ (fun (b : TextBlock) (k : ℕ) =>
        b.bbox.x0 = (10 : ℚ) + 30 * k ∧ safeItemText b.text = true)
        rest krest := by
  intro rest
  induction rest with
  | nil => intro _; exact ⟨[], List.Forall₂.nil⟩
  | cons b bs ih =>
    intro h
    obtain ⟨ks, hks⟩ := ih (fun x hx => h x (List.mem_cons_of_mem _ hx))
    obtain ⟨hsafe, k, hk⟩ := h b (List.mem_cons_self _ _)
    exact ⟨k :: ks, List.Forall₂.cons ⟨hk, hsafe⟩ hks⟩

theorem cast_rev_30 {a k : ℕ} (h : (10 : ℚ) + 30 * a ≤ 10 + 30 * k) :
    a ≤ k := by
  have h2 : (a : ℚ) ≤ k := by linarith
  exact_mod_cast h2

/-- Two blocks agreeing on the round-trip observables text and type. -/
def TTEq (b pb : TextBlock) : Prop :=
  pb.text = b.text ∧ pb.block_type = b.block_type

/-- A parsed group simulating an original group: pointwise text/type
agreement, and for list runs the same relative-offset observable. -/
def GSim (g pg : List TextBlock) : Prop :=
  List.Forall₂ TTEq g pg ∧ (isRunG g → relRun pg = relRun g)

theorem parsedRun_ttEq (i0 : TextBlock) (rest : List TextBlock) (k0 : ℕ)
    (krest : List ℕ)
    (h0 : i0.block_type = "list_item")
    (hitems : ∀ x ∈ rest, x.block_type = "list_item")
    (hrel : List.Forall₂ (fun (b : TextBlock) (k : ℕ) =>
      b.bbox.x0 = (10 : ℚ) + 30 * k ∧ safeItemText b.text = true)
      rest krest) :
    List.Forall₂ TTEq (i0 :: rest)
      (parsedRun (i0 :: rest) (k0 :: krest) k0) := by
  rw [parsedRun, List.zipWith_cons_cons]
  refine List.Forall₂.cons ⟨string_mk_toList i0.text, h0.symm⟩ ?_
  induction hrel with
  | nil => constructor
  | @cons b k rest' krest' hbk htail ih =>
    rw [List.zipWith_cons_cons]
    refine List.Forall₂.cons
      ⟨string_mk_toList b.text,
        (hitems b (List.mem_cons_self _ _)).symm⟩ ?_
    exact ih (fun x hx => hitems x (List.mem_cons_of_mem b hx))

theorem blocksfold_groupList :
    ∀ (G : List (List TextBlock)) (bs : List TextBlock) (ts : List Table),
      (∀ g ∈ G, GroupOK g) →
      ∃ P, (((G.map renderGroup).map String.toList).flatMap
          (fun pl => splitOnChar '\n' pl ++ [[]])).foldl blocksStep
          (some (.scan, bs, ts)) = some (.scan, bs ++ P.flatten, ts) ∧
        List.Forall₂ GSim G P := by
  intro G
  induction G with
  | nil =>
    intro bs ts _
    exact ⟨[], by simp, List.Forall₂.nil⟩
  | cons g G' ih =>
    intro bs ts hOK
    rw [List.map_cons, List.map_cons, List.flatMap_cons, List.foldl_append]
    rcases hOK g (List.mem_cons_self _ _) with
      ⟨b, hgb, htype, hsafe⟩ | ⟨⟨b0, grest, hgc⟩, hall, hmin⟩
    · have hrg : renderGroup g = b.text := by
        rw [hgb]
        simp only [renderGroup]
        rw [if_neg (by simp [htype])]
      rw [hrg]
      rw [blocksfold_para b.text.toList (by
        rw [safeParaText] at hsafe
        exact fun l hl => List.all_eq_true.mp hsafe l hl) bs ts]
      obtain ⟨P', hfold, hsim⟩ := ih
        (bs ++ [⟨String.mk b.text.toList, defaultBBox, "paragraph"⟩]) ts
        (fun x hx => hOK x (List.mem_cons_of_mem g hx))
      refine ⟨[⟨String.mk b.text.toList, defaultBBox, "paragraph"⟩] :: P',
        ?_, ?_⟩
      · rw [hfold]
        simp [List.append_assoc]
      · refine List.Forall₂.cons ⟨?_, ?_⟩ hsim
        · rw [hgb]
          exact List.Forall₂.cons ⟨string_mk_toList b.text, htype.symm⟩
            List.Forall₂.nil
        · intro hr
          rw [hgb] at hr
          rw [isRunG] at hr
          exact absurd (htype.symm.trans hr) (by decide)
    · have hmem : ∀ x, x ∈ b0 :: grest → x ∈ g := by
        intro x hx
        rw [hgc]
        exact hx
      obtain ⟨hb0t, hb0safe, k0, hk0⟩ := hall b0 (hmem b0 (List.mem_cons_self _ _))
      obtain ⟨krest, hrel⟩ := exists_krest grest (fun x hx =>
        ⟨(hall x (hmem x (List.mem_cons_of_mem b0 hx))).2.1,
          (hall x (hmem x (List.mem_cons_of_mem b0 hx))).2.2⟩)
      have hminK : ∀ k ∈ krest, k0 ≤ k := by
        intro k hk
        obtain ⟨bb, hbb, hrelk⟩ := forall₂_right_mem hrel k hk
        have hle := hmin b0 (by rw [hgc, List.head?_cons]; rfl) bb
          (hmem bb (List.mem_cons_of_mem b0 hbb))
        rw [hk0, hrelk.1] at hle
        exact cast_rev_30 hle
      have hrg : renderGroup g = renderListItems (b0 :: grest) := by
        rw [hgc]
        simp only [renderGroup]
        rw [if_pos (by simp [hb0t])]
      rw [hrg]
      rw [blocksfold_run b0 grest k0 krest hk0 hb0safe hrel hminK bs ts]
      obtain ⟨P', hfold, hsim⟩ := ih
        (bs ++ parsedRun (b0 :: grest) (k0 :: krest) k0) ts
        (fun x hx => hOK x (List.mem_cons_of_mem g hx))
      refine ⟨parsedRun (b0 :: grest) (k0 :: krest) k0 :: P', ?_, ?_⟩
      · rw [hfold]
        simp [List.append_assoc]
      · refine List.Forall₂.cons ⟨?_, ?_⟩ hsim
        · rw [hgc]
          exact parsedRun_ttEq b0 grest k0 krest hb0t
            (fun x hx => (hall x (hmem x (List.mem_cons_of_mem b0 hx))).1)
            hrel
        · intro _
          rw [hgc]
          exact relRun_parsedRun b0 grest k0 krest hk0 hrel hminK

theorem blocksfold_tableList :
    ∀ (T : List Table) (bs : List TextBlock) (ts : List Table),
      (∀ t ∈ T, safeTable t = true) →
      (((T.map renderTable).map String.toList).flatMap
        (fun pl => splitOnChar '\n' pl ++ [[]])).foldl blocksStep
        (some (.scan, bs, ts)) = some (.scan, bs, ts ++ T) := by
  intro T
  induction T with
  | nil =>
    intro bs ts _
    simp
  | cons t T' ih =>
    intro bs ts hT
    obtain ⟨rows⟩ := t
    cases rows with
    | nil => exact absurd (hT ⟨[]⟩ (List.mem_cons_self _ _)) (by decide)
    | cons header data =>
      rw [List.map_cons, List.map_cons, List.flatMap_cons, List.foldl_append]
      rw [blocksfold_table header data
        (hT ⟨header :: data⟩ (List.mem_cons_self _ _)) bs ts]
      rw [ih bs (ts ++ [Table.mk (header :: data)])
        (fun x hx => hT x (List.mem_cons_of_mem _ hx))]
      simp [List.append_assoc]

end MarkdownConverter

namespace MarkdownConverter

theorem secStep_keeps (n : Nat)
    (st : SecMode × List DocumentSection × List (List Char))
    (line : List Char)
    (h : ∀ s ∈ st.2.1, s.subsections = []) :
    ∀ s ∈ (secStep n st line).2.1, s.subsections = [] := by
  obtain ⟨mode, secs, rem⟩ := st
  have hscan : ∀ (secs2 : List DocumentSection) (rem2 : List (List Char)),
      (∀ s ∈ secs2, s.subsections = []) →
      ∀ s ∈ (secScanLine line (secs2, rem2)).2.1, s.subsections = [] := by
    intro secs2 rem2 h2
    rw [secScanLine]
    cases sectionMarkerTitle (pyStripList line) with
    | some t => exact h2
    | none => exact h2
  cases mode with
  | scan => exact hscan secs rem h
  | afterMarker t =>
    simp only [secStep]
    by_cases hbl : isBlankL line = true
    · rw [if_pos hbl]
      exact h
    · rw [if_neg hbl]
      cases hf : headingFullMatch (pyStripList line) with
      | some k => exact h
      | none =>
        refine hscan (secs ++ [secFinish n t 1 []]) rem ?_
        intro s hs
        rcases List.mem_append.mp hs with h1 | h1
        · exact h s h1
        · have hseq : s = secFinish n t 1 [] := by simpa using h1
          rw [hseq]
          rfl
  | inContent t k acc =>
    simp only [secStep]
    by_cases hm : markerStartL line = true
    · rw [if_pos hm]
      refine hscan (secs ++ [secFinish n t k acc]) rem ?_
      intro s hs
      rcases List.mem_append.mp hs with h1 | h1
      · exact h s h1
      · have hseq : s = secFinish n t k acc := by simpa using h1
        rw [hseq]
        rfl
    · rw [if_neg hm]
      exact h

theorem secfold_keeps (n : Nat) :
    ∀ (lines : List (List Char))
      (st : SecMode × List DocumentSection × List (List Char)),
      (∀ s ∈ st.2.1, s.subsections = []) →
      ∀ s ∈ (lines.foldl (secStep n) st).2.1, s.subsections = [] := by
  intro lines
  induction lines with
  | nil => intro st h; exact h
  | cons l ls ih =>
    intro st h
    rw [List.foldl_cons]
    exact ih _ (secStep_keeps n st l h)

theorem parseSections_subs (chunk : List Char) (n : Nat) :
    ∀ s ∈ (parseSectionsFromChunk chunk n).1, s.subsections = [] := by
  have hrfl : (parseSectionsFromChunk chunk n).1 =
      (secsFinish n ((splitOnChar '\n' chunk).foldl (secStep n)
        ((.scan : SecMode), [], []))).1 := rfl
  rw [hrfl]
  have hfold := secfold_keeps n (splitOnChar '\n' chunk)
    ((.scan : SecMode), [], []) (by intro s hs; cases hs)
  rcases hst : (splitOnChar '\n' chunk).foldl (secStep n)
      ((.scan : SecMode), [], []) with ⟨mode, secs, rem⟩
  rw [hst] at hfold
  cases mode with
  | scan => exact hfold
  | afterMarker t =>
    intro s hs
    rcases List.mem_append.mp hs with h1 | h1
    · exact hfold s h1
    · have hseq : s = secFinish n t 1 [] := by simpa using h1
      rw [hseq]
      rfl
  | inContent t k acc =>
    intro s hs
    rcases List.mem_append.mp hs with h1 | h1
    · exact hfold s h1
    · have hseq : s = secFinish n t k acc := by simpa using h1
      rw [hseq]
      rfl

theorem chunk_sections (secs : List DocumentSection) (page : PageContent)
    (last : Bool)
    (hsl : ∀ s ∈ findSecList secs page.page_number,
      safeTitle s.title = true ∧ 1 ≤ s.level ∧ s.level ≤ 6 ∧ s.content = "")
    (hb : ∀ b ∈ page.content.reading_order_blocks, SafeBlock b)
    (ht : ∀ t ∈ page.content.tables, safeTable t = true)
    (he : page.content.reading_order_blocks = [] →
      page.content.body_text = "")
    (hrun : ∀ g ∈ groupsAux [] page.content.reading_order_blocks,
      firstMin g) :
    ((parseSectionsFromChunk
        (chunkOf ((pageStuff secs page).map String.toList) last)
        page.page_number).1).map (fun s => (s.title, s.level)) =
      (findSecList secs page.page_number).map
        (fun s => (s.title, s.level)) := by
  have hOKg := groupOK_of_safe hb hrun
  have hfirst : (parseSectionsFromChunk
      (chunkOf ((pageStuff secs page).map String.toList) last)
      page.page_number).1 =
    (secsFinish page.page_number ((splitOnChar '\n'
      (chunkOf ((pageStuff secs page).map String.toList) last)).foldl
      (secStep page.page_number) ((.scan : SecMode), [], []))).1 := rfl
  rw [hfirst, splitOnChar_chunkOf]
  rw [chunkLines_decomp secs page last
    (fun s hs => ⟨(hsl s hs).1, (hsl s hs).2.2.2⟩) hb ht he]
  refine secfold_chunk page.page_number _ _
    (fun s hs => ⟨(hsl s hs).1, (hsl s hs).2.1, (hsl s hs).2.2.1⟩) ?_
  intro l hl
  rcases List.mem_append.mp hl with h | h
  · rcases cLines_facts page.content hOKg ht l h with hbl | hgood
    · rw [hbl]
      exact ⟨rfl, by decide⟩
    · exact ⟨sectionMarkerTitle_none_of_no_lt l hgood.2.2,
        markerStartL_false_of_no_lt l hgood.2.2⟩
  · have hbl : l = [] := by
      cases last with
      | true => simp at h
      | false => simpa using h
    rw [hbl]
    exact ⟨rfl, by decide⟩

end MarkdownConverter

namespace MarkdownConverter

theorem stripMarkers_chunk (secs : List DocumentSection) (page : PageContent)
    (last : Bool)
    (hsl : ∀ s ∈ findSecList secs page.page_number,
      safeTitle s.title = true ∧ s.content = "")
    (hb : ∀ b ∈ page.content.reading_order_blocks, SafeBlock b)
    (ht : ∀ t ∈ page.content.tables, safeTable t = true)
    (he : page.content.reading_order_blocks = [] →
      page.content.body_text = "")
    (hrun : ∀ g ∈ groupsAux [] page.content.reading_order_blocks,
      firstMin g) :
    stripSectionMarkers
        (chunkOf ((pageStuff secs page).map String.toList) last) =
      intercalateChar '\n'
        ([[], []] ++ (hLinesOf (findSecList secs page.page_number) ++
          (cLinesOf page.content ++ (if last then [] else [[]])))) := by
  have hOKg := groupOK_of_safe hb hrun
  rw [stripSectionMarkers, splitOnChar_chunkOf,
    chunkLines_decomp secs page last hsl hb ht he]
  congr 1
  rw [List.filter_append, List.filter_append, List.filter_append]
  have h1 : List.filter
      (fun line => !(sectionMarkerTitle (pyStripList line)).isSome)
      ([[], []] : List (List Char)) = [[], []] := rfl
  have h2 := secLines_filter (findSecList secs page.page_number)
    (fun s hs => (hsl s hs).1)
  have h3 : List.filter
      (fun line => !(sectionMarkerTitle (pyStripList line)).isSome)
      (cLinesOf page.content) = cLinesOf page.content := by
    refine List.filter_eq_self.mpr ?_
    intro l hl
    rcases cLines_facts page.content hOKg ht l hl with hbl | hgood
    · rw [hbl]
      decide
    · rw [sectionMarkerTitle_none_of_no_lt l hgood.2.2]
      rfl
  rw [h1, h2, h3]
  cases last <;> rfl

theorem heading_no_nl (k : Nat) (t : List Char)
    (halnum : ∀ c ∈ t, c.isAlphanum = true) :
    '\n' ∉ headingChars k t := by
  intro hmem
  rw [headingChars] at hmem
  rcases List.mem_append.mp hmem with h | h
  · exact absurd (List.eq_of_mem_replicate h) (by decide)
  · rcases List.mem_cons.mp h with h | h
    · exact absurd h (by decide)
    · exact alnum_ne_nl (halnum '\n' h) rfl

theorem gsim_status {g pg : List TextBlock}
    (h : List.Forall₂ TTEq g pg) : isRunG pg ↔ isRunG g := by
  cases h with
  | nil => exact Iff.rfl
  | cons hr ht =>
    rename_i b pb g' pg'
    rw [isRunG, isRunG, hr.2]

theorem chain_alt_transfer :
    ∀ {G P : List (List TextBlock)},
      List.Forall₂ (fun g pg => isRunG pg ↔ isRunG g) G P →
      List.Chain' (fun g1 g2 => ¬ (isRunG g1 ∧ isRunG g2)) G →
      List.Chain' (fun g1 g2 => ¬ (isRunG g1 ∧ isRunG g2)) P := by
  intro G P h
  induction h with
  | nil => intro _; exact List.chain'_nil
  | @cons g pg G' P' hgp htail ih =>
    intro hchain
    refine List.chain'_cons'.mpr ⟨?_, ih (List.Chain'.tail hchain)⟩
    intro y hy hcon
    cases htail with
    | nil => cases hy
    | cons hgp2 htail2 =>
      rename_i g2 pg2 G'' P''
      have hy2 : y = pg2 := by
        rw [List.head?_cons] at hy
        exact (Option.some.inj hy).symm
      have hc := List.chain'_cons'.mp hchain
      refine hc.1 g2 (by rw [List.head?_cons]; rfl) ?_
      rw [hy2] at hcon
      exact ⟨hgp.mp hcon.1, hgp2.mp hcon.2⟩

theorem filter_para_TTEq :
    ∀ {g pg : List TextBlock}, List.Forall₂ TTEq g pg →
      ((pg.filter fun b => b.block_type == "paragraph").map
        TextBlock.text) =
      ((g.filter fun b => b.block_type == "paragraph").map
        TextBlock.text) := by
  intro g pg h
  induction h with
  | nil => rfl
  | @cons b pb g' pg' hr ht ih =>
    rw [List.filter_cons, List.filter_cons, hr.2]
    by_cases hp : (b.block_type == "paragraph") = true
    · rw [hp]
      simp only [if_true]
      rw [List.map_cons, List.map_cons, ih, hr.1]
    · rw [Bool.not_eq_true] at hp
      rw [hp]
      simp only [Bool.false_eq_true, if_false]
      exact ih

theorem filter_para_flatten :
    ∀ {G P : List (List TextBlock)},
      List.Forall₂ (fun g pg => List.Forall₂ TTEq g pg) G P →
      ((P.flatten.filter fun b => b.block_type == "paragraph").map
        TextBlock.text) =
      ((G.flatten.filter fun b => b.block_type == "paragraph").map
        TextBlock.text) := by
  intro G P h
  induction h with
  | nil => rfl
  | @cons g pg G' P' hr ht ih =>
    rw [List.flatten_cons, List.flatten_cons, List.filter_append,
      List.filter_append, List.map_append, List.map_append, ih,
      filter_para_TTEq hr]

theorem flatten_map_singleton {α : Type} :
    ∀ (l : List α), (l.map fun x => [x]).flatten = l := by
  intro l
  induction l with
  | nil => rfl
  | cons x xs ih =>
    rw [List.map_cons, List.flatten_cons, ih]
    rfl

theorem secHeads_filter_para (sl : List DocumentSection) :
    ((secHeads sl).filter fun b => b.block_type == "paragraph") = [] := by
  refine List.filter_eq_nil_iff.mpr ?_
  intro b hb
  obtain ⟨s, _, hbs⟩ := List.mem_map.mp hb
  rw [← hbs]
  simp

end MarkdownConverter

namespace MarkdownConverter

/-- The marker-stripped lines of a rendered page chunk. -/
def flOf (sl : List DocumentSection) (c : ExtractedContent) (last : Bool) :
    List (List Char) :=
  [[], []] ++ (hLinesOf sl ++ (cLinesOf c ++ (if last then [] else [[]])))

theorem fl_right (sl : List DocumentSection) (c : ExtractedContent)
    (last : Bool)
    (hsl : ∀ s ∈ sl, safeTitle s.title = true ∧ 1 ≤ s.level)
    (hOKg : ∀ g ∈ groupsAux [] c.reading_order_blocks, GroupOK g)
    (ht : ∀ t ∈ c.tables, safeTable t = true) :
    ∀ l ∈ flOf sl c last,
      l = [] ∨ ∃ d, l.getLast? = some d ∧ isPySpace d = false := by
  intro l hl
  rw [flOf] at hl
  rcases List.mem_append.mp hl with h | h
  · left
    rcases List.mem_cons.mp h with h1 | h1
    · exact h1
    · simpa using h1
  rcases List.mem_append.mp h with h | h
  · rw [hLinesOf] at h
    obtain ⟨s, hs, hline⟩ := List.mem_flatMap.mp h
    have hts := safeTitle_unpack (hsl s hs).1
    rcases List.mem_cons.mp hline with h1 | h1
    · exact Or.inl h1
    rcases List.mem_cons.mp h1 with h2 | h2
    · right
      rw [h2]
      exact (headingChars_good s.level s.title.toList (hsl s hs).2
        hts.1 hts.2).2.1
    · exact Or.inl (by simpa using h2)
  rcases List.mem_append.mp h with h | h
  · rcases cLines_facts c hOKg ht l h with h1 | h1
    · exact Or.inl h1
    · exact Or.inr h1.2.1
  · left
    cases last with
    | true => simp at h
    | false => simpa using h

theorem fl_nl (sl : List DocumentSection) (c : ExtractedContent)
    (last : Bool)
    (hsl : ∀ s ∈ sl, safeTitle s.title = true) :
    ∀ l ∈ flOf sl c last, '\n' ∉ l := by
  intro l hl
  rw [flOf] at hl
  rcases List.mem_append.mp hl with h | h
  · have hbl : l = [] := by
      rcases List.mem_cons.mp h with h1 | h1
      · exact h1
      · simpa using h1
    rw [hbl]
    simp
  rcases List.mem_append.mp h with h | h
  · rw [hLinesOf] at h
    obtain ⟨s, hs, hline⟩ := List.mem_flatMap.mp h
    have hts := safeTitle_unpack (hsl s hs)
    rcases List.mem_cons.mp hline with h1 | h1
    · rw [h1]; simp
    rcases List.mem_cons.mp h1 with h2 | h2
    · rw [h2]
      exact heading_no_nl s.level s.title.toList hts.2
    · rw [show l = [] from by simpa using h2]
      simp
  rcases List.mem_append.mp h with h | h
  · rw [cLinesOf] at h
    obtain ⟨pl, _, hlpl⟩ := List.mem_flatMap.mp h
    rcases List.mem_append.mp hlpl with h1 | h1
    · exact splitOnChar_sep_not_mem '\n' pl l h1
    · rw [show l = [] from by simpa using h1]
      simp
  · have hbl : l = [] := by
      cases last with
      | true => simp at h
      | false => simpa using h
    rw [hbl]
    simp

theorem parts_head_line (c : ExtractedContent)
    (hOKg : ∀ g ∈ groupsAux [] c.reading_order_blocks, GroupOK g)
    (ht : ∀ t ∈ c.tables, safeTable t = true) :
    ∀ p ∈ flatRendered c, ∀ l,
      (splitOnChar '\n' p.toList).head? = some l →
      ∃ cc r, l = cc :: r ∧ isPySpace cc = false := by
  intro p hp
  rw [flatRendered_eq] at hp
  rcases List.mem_append.mp hp with h | h
  · obtain ⟨g, hg, hgp⟩ := List.mem_map.mp h
    intro l hl
    refine group_head_line g (hOKg g hg) l ?_
    rw [hgp]
    exact hl
  · obtain ⟨t, htm, htp⟩ := List.mem_map.mp h
    intro l hl
    refine table_head_line t (ht t htm) l ?_
    rw [htp]
    exact hl

theorem fl_first (sl : List DocumentSection) (c : ExtractedContent)
    (last : Bool)
    (hsl : ∀ s ∈ sl, safeTitle s.title = true ∧ 1 ≤ s.level)
    (hOKg : ∀ g ∈ groupsAux [] c.reading_order_blocks, GroupOK g)
    (ht : ∀ t ∈ c.tables, safeTable t = true)
    (hcase : sl ≠ [] ∨ flatRendered c ≠ []) :
    (∃ l ∈ flOf sl c last, l ≠ []) ∧
    (∀ l2, ((flOf sl c last).dropWhile List.isEmpty).head? = some l2 →
      ∃ cc r, l2 = cc :: r ∧ isPySpace cc = false) := by
  cases hsl0 : sl with
  | cons s sl' =>
    have hts := safeTitle_unpack (hsl s (hsl0 ▸ List.mem_cons_self _ _)).1
    obtain ⟨r, hHr⟩ := headingChars_head s.level s.title.toList
      (hsl s (hsl0 ▸ List.mem_cons_self _ _)).2
    have hshape : flOf (s :: sl') c last =
        [] :: [] :: [] :: headingChars s.level s.title.toList ::
          ([] :: (hLinesOf sl' ++
            (cLinesOf c ++ (if last then [] else [[]])))) := by
      simp [flOf, hLinesOf, List.flatMap_cons, List.append_assoc]
    constructor
    · refine ⟨headingChars s.level s.title.toList, ?_, ?_⟩
      · rw [hshape]
        simp
      · rw [hHr]
        simp
    · intro l2 hl2
      rw [hshape] at hl2
      rw [List.dropWhile_cons, List.dropWhile_cons, List.dropWhile_cons,
        List.dropWhile_cons] at hl2
      simp only [List.isEmpty_nil, if_true] at hl2
      rw [hHr] at hl2
      simp only [List.isEmpty_cons, Bool.false_eq_true, if_false] at hl2
      rw [List.head?_cons] at hl2
      exact ⟨'#', r, by rw [← Option.some.inj hl2], by decide⟩
  | nil =>
    have hfr : flatRendered c ≠ [] := by
      rcases hcase with h | h
      · exact absurd hsl0 h
      · exact h
    obtain ⟨p, ps, hfc⟩ : ∃ p ps, flatRendered c = p :: ps := by
      cases hf2 : flatRendered c with
      | nil => exact absurd hf2 hfr
      | cons p ps => exact ⟨p, ps, rfl⟩
    obtain ⟨l0, ls, hl0s⟩ : ∃ l0 ls, splitOnChar '\n' p.toList = l0 :: ls := by
      cases hsp : splitOnChar '\n' p.toList with
      | nil => exact absurd hsp (splitOnChar_ne_nil '\n' p.toList)
      | cons l0 ls => exact ⟨l0, ls, rfl⟩
    obtain ⟨cc, r, hl0, hcw⟩ := parts_head_line c hOKg ht p
      (hfc ▸ List.mem_cons_self _ _) l0 (by rw [hl0s, List.head?_cons])
    have hshape : flOf [] c last =
        [] :: [] :: (l0 :: (ls ++ ([[]] ++
          ((ps.map String.toList).flatMap
            (fun pl => splitOnChar '\n' pl ++ [[]]) ++
            (if last then [] else [[]]))))) := by
      rw [flOf, hLinesOf]
      rw [show cLinesOf c = (splitOnChar '\n' p.toList ++ [[]]) ++
        (ps.map String.toList).flatMap
          (fun pl => splitOnChar '\n' pl ++ [[]]) from by
        rw [cLinesOf, hfc]
        simp [List.flatMap_cons]]
      rw [hl0s]
      simp [List.append_assoc]
    constructor
    · refine ⟨l0, ?_, ?_⟩
      · rw [hshape]
        simp
      · rw [hl0]
        simp
    · intro l2 hl2
      rw [hshape] at hl2
      rw [List.dropWhile_cons, List.dropWhile_cons] at hl2
      simp only [List.isEmpty_nil, if_true] at hl2
      rw [List.dropWhile_cons] at hl2
      rw [show l0.isEmpty = false from by rw [hl0]; simp] at hl2
      simp only [Bool.false_eq_true, if_false] at hl2
      rw [List.head?_cons] at hl2
      exact ⟨cc, r, by rw [← Option.some.inj hl2, hl0], hcw⟩

end MarkdownConverter

namespace MarkdownConverter

theorem parseEC_eq (text : List Char) :
    parseExtractedContent text =
      if (pyStripList text).isEmpty then some ⟨"", [], [], [], []⟩
      else match blocksFinish ((splitOnChar '\n' (pyStripList text)).foldl
          blocksStep (some (.scan, [], []))) with
        | none => none
        | some (blocks, tables) =>
          some ⟨String.intercalate "\n\n"
              ((blocks.filter fun b => b.block_type == "paragraph").map
                TextBlock.text), [], [], tables, blocks⟩ := rfl

/-- The observable a group contributes to `listRuns`. -/
def runOf (g : List TextBlock) : Option (List (String × ℚ)) :=
  match g with
  | b :: _ => if b.block_type == "list_item" then some (relRun g) else none
  | [] => none

theorem runOf_heads (bs : List TextBlock)
    (h : ∀ b ∈ bs, b.block_type = "heading") :
    ((bs.map fun b => [b]).filterMap runOf) = [] := by
  induction bs with
  | nil => rfl
  | cons b bs' ih =>
    rw [List.map_cons, List.filterMap_cons]
    have hb : runOf [b] = none := by
      simp only [runOf]
      rw [show (b.block_type == "list_item") = false from by
        rw [h b (List.mem_cons_self _ _)]; rfl]
      rfl
    rw [hb]
    exact ih fun x hx => h x (List.mem_cons_of_mem b hx)

theorem forall₂_ne_nil {g pg : List TextBlock}
    (h : List.Forall₂ TTEq g pg) (hne : g ≠ []) : pg ≠ [] := by
  cases h with
  | nil => exact absurd rfl hne
  | cons hr ht => simp

theorem forall₂_singleton {α β : Type} {R : α → β → Prop} {y : α}
    {pg : List β} (h : List.Forall₂ R [y] pg) :
    ∃ py, pg = [py] ∧ R y py := by
  cases h with
  | cons hr ht =>
    cases ht with
    | nil => exact ⟨_, rfl, hr⟩

theorem chain_nonrun :
    ∀ (l : List (List TextBlock)), (∀ x ∈ l, ¬ isRunG x) →
      List.Chain' (fun g1 g2 => ¬ (isRunG g1 ∧ isRunG g2)) l := by
  intro l
  induction l with
  | nil => intro _; exact List.chain'_nil
  | cons x xs ih =>
    intro h
    refine List.chain'_cons'.mpr ⟨?_, ih fun a ha =>
      h a (List.mem_cons_of_mem x ha)⟩
    intro y _ hcon
    exact h x (List.mem_cons_self _ _) hcon.1

theorem filterMap_gsim :
    ∀ {G P : List (List TextBlock)}, List.Forall₂ GSim G P →
      (∀ g ∈ G, g ≠ []) →
      P.filterMap runOf = G.filterMap runOf := by
  intro G P h
  induction h with
  | nil => intro _; rfl
  | @cons g pg G' P' hgp htail ih =>
    intro hne
    rw [List.filterMap_cons, List.filterMap_cons]
    obtain ⟨httq, hrel⟩ := hgp
    obtain ⟨b, g', hgc⟩ : ∃ b g', g = b :: g' := by
      cases hgcc : g with
      | nil => exact absurd hgcc (hne g (List.mem_cons_self _ _))
      | cons b g' => exact ⟨b, g', rfl⟩
    obtain ⟨pb, pg', hpgc, hbpb⟩ : ∃ pb pg', pg = pb :: pg' ∧ TTEq b pb := by
      rw [hgc] at httq
      cases httq with
      | cons hr ht2 => exact ⟨_, _, rfl, hr⟩
    rw [hgc, hpgc]
    by_cases hit : b.block_type = "list_item"
    · have h1 : runOf (b :: g') = some (relRun (b :: g')) := by
        simp only [runOf]
        rw [show (b.block_type == "list_item") = true from by simp [hit]]
        rfl
      have h2 : runOf (pb :: pg') = some (relRun (pb :: pg')) := by
        simp only [runOf]
        rw [show (pb.block_type == "list_item") = true from by
          simp [hbpb.2, hit]]
        rfl
      rw [h1, h2]
      have hrr : relRun (pb :: pg') = relRun (b :: g') := by
        have h3 := hrel (by rw [hgc]; exact hit)
        rw [hgc, hpgc] at h3
        exact h3
      rw [hrr]
      show relRun (b :: g') :: P'.filterMap runOf =
        relRun (b :: g') :: G'.filterMap runOf
      rw [ih (fun x hx => hne x (List.mem_cons_of_mem g hx))]
    · have h1 : runOf (b :: g') = none := by
        simp only [runOf]
        rw [show (b.block_type == "list_item") = false from by simp [hit]]
        rfl
      have h2 : runOf (pb :: pg') = none := by
        simp only [runOf]
        rw [show (pb.block_type == "list_item") = false from by
          simp [hbpb.2, hit]]
        rfl
      rw [h1, h2]
      show P'.filterMap runOf = G'.filterMap runOf
      exact ih (fun x hx => hne x (List.mem_cons_of_mem g hx))

end MarkdownConverter

namespace MarkdownConverter

theorem chunk_content (secs : List DocumentSection) (page : PageContent)
    (last : Bool)
    (hsl : ∀ s ∈ findSecList secs page.page_number,
      safeTitle s.title = true ∧ 1 ≤ s.level ∧ s.level ≤ 6 ∧ s.content = "")
    (hb : ∀ b ∈ page.content.reading_order_blocks, SafeBlock b)
    (ht : ∀ t ∈ page.content.tables, safeTable t = true)
    (he : page.content.reading_order_blocks = [] →
      page.content.body_text = "")
    (hrun : ∀ g ∈ groupsAux [] page.content.reading_order_blocks,
      firstMin g) :
    ∃ ec, parseExtractedContent (stripSectionMarkers
        (chunkOf ((pageStuff secs page).map String.toList) last)) = some ec ∧
      paragraphTexts ec = paragraphTexts page.content ∧
      ec.tables = page.content.tables ∧
      listRuns ec.reading_order_blocks =
        listRuns page.content.reading_order_blocks := by
  have hOKg := groupOK_of_safe hb hrun
  have hstripEq : stripSectionMarkers
      (chunkOf ((pageStuff secs page).map String.toList) last) =
      intercalateChar '\n'
        (flOf (findSecList secs page.page_number) page.content last) :=
    stripMarkers_chunk secs page last
      (fun s hs => ⟨(hsl s hs).1, (hsl s hs).2.2.2⟩) hb ht he hrun
  by_cases hdeg : findSecList secs page.page_number = [] ∧
      flatRendered page.content = []
  · obtain ⟨hsl0, hfr0⟩ := hdeg
    have hcl0 : cLinesOf page.content = [] := by
      rw [cLinesOf, hfr0]
      rfl
    have hall : ∀ l ∈ flOf (findSecList secs page.page_number)
        page.content last, l = [] := by
      intro l hl
      rw [flOf, hsl0, hcl0] at hl
      rcases List.mem_append.mp hl with h | h
      · rcases List.mem_cons.mp h with h1 | h1
        · exact h1
        · simpa using h1
      · rw [show hLinesOf [] = [] from rfl] at h
        rcases List.mem_append.mp h with h1 | h1
        · cases h1
        · rcases List.mem_append.mp h1 with h2 | h2
          · cases h2
          · cases last with
            | true => simp at h2
            | false => simpa using h2
    have ht0 : pyStripList (intercalateChar '\n'
        (flOf (findSecList secs page.page_number) page.content last)) =
        [] := by
      refine pyStrip_all_ws ?_
      intro ch hch
      rcases intercalateChar_mem '\n' _ ch hch with h | ⟨m, hm, hchm⟩
      · rw [h]; decide
      · rw [hall m hm] at hchm
        cases hchm
    have h2 : (groupsAux [] page.content.reading_order_blocks).map
        renderGroup ++ page.content.tables.map renderTable = [] := by
      rw [← flatRendered_eq, hfr0]
    have hGnil : groupsAux [] page.content.reading_order_blocks = [] :=
      List.map_eq_nil_iff.mp (List.append_eq_nil.mp h2).1
    have htab0 : page.content.tables = [] :=
      List.map_eq_nil_iff.mp (List.append_eq_nil.mp h2).2
    have hblocks : page.content.reading_order_blocks = [] := by
      have h3 := groupsAux_flatten page.content.reading_order_blocks []
      rw [hGnil] at h3
      simpa using h3.symm
    refine ⟨⟨"", [], [], [], []⟩, ?_, ?_, ?_, ?_⟩
    · rw [hstripEq, parseEC_eq, ht0]
      rfl
    · show ([] : List String) = paragraphTexts page.content
      rw [paragraphTexts, hblocks]
      rfl
    · show ([] : List Table) = page.content.tables
      rw [htab0]
    · show listRuns [] = listRuns page.content.reading_order_blocks
      rw [hblocks]
  · have hcase : findSecList secs page.page_number ≠ [] ∨
        flatRendered page.content ≠ [] := by
      by_cases h1 : findSecList secs page.page_number = []
      · right
        intro h2
        exact hdeg ⟨h1, h2⟩
      · exact Or.inl h1
    obtain ⟨hnb, hleftF⟩ := fl_first (findSecList secs page.page_number)
      page.content last (fun s hs => ⟨(hsl s hs).1, (hsl s hs).2.1⟩)
      hOKg ht hcase
    obtain ⟨a, M, z, hFL, ha, hz, hMne, hstripM, hsplitM⟩ :=
      strip_join_core (flOf (findSecList secs page.page_number)
          page.content last) hnb
        (fl_right (findSecList secs page.page_number) page.content last
          (fun s hs => ⟨(hsl s hs).1, (hsl s hs).2.1⟩) hOKg ht)
        hleftF
        (fl_nl (findSecList secs page.page_number) page.content last
          (fun s hs => (hsl s hs).1))
    obtain ⟨P, hfoldG, hsim⟩ := blocksfold_groupList
      (groupsAux [] page.content.reading_order_blocks)
      (secHeads (findSecList secs page.page_number)) [] hOKg
    have hfoldFL : (flOf (findSecList secs page.page_number)
        page.content last).foldl blocksStep (some (.scan, [], [])) =
        some (.scan, secHeads (findSecList secs page.page_number) ++
          P.flatten, page.content.tables) := by
      show (([[], []] ++ (hLinesOf (findSecList secs page.page_number) ++
        (cLinesOf page.content ++ (if last then [] else [[]])))).foldl
          blocksStep (some (.scan, [], []))) = _
      rw [List.foldl_append, blocksfold_scan_blanks [[], []] (by simp) [] []]
      rw [List.foldl_append]
      rw [blocksfold_headings (findSecList secs page.page_number) [] []
        (fun s hs => ⟨(hsl s hs).1, (hsl s hs).2.1, (hsl s hs).2.2.1⟩)]
      simp only [List.nil_append]
      rw [List.foldl_append]
      rw [show cLinesOf page.content =
        ((((groupsAux [] page.content.reading_order_blocks).map
          renderGroup).map String.toList).flatMap
            (fun pl => splitOnChar '\n' pl ++ [[]])) ++
        (((page.content.tables.map renderTable).map String.toList).flatMap
            (fun pl => splitOnChar '\n' pl ++ [[]])) from by
        rw [cLinesOf, flatRendered_eq, List.map_append, List.flatMap_append]]
      rw [List.foldl_append, hfoldG]
      rw [blocksfold_tableList page.content.tables
        (secHeads (findSecList secs page.page_number) ++ P.flatten) [] ht]
      simp only [List.nil_append]
      cases last with
      | true => rfl
      | false =>
        rw [show (if false = true then ([] : List (List Char)) else [[]]) =
          [[]] from rfl]
        rw [blocksfold_scan_blanks [[]] (by simp)]
    have hfinM : blocksFinish (M.foldl blocksStep (some (.scan, [], []))) =
        some (secHeads (findSecList secs page.page_number) ++ P.flatten,
          page.content.tables) := by
      have h1 : blocksFinish ((flOf (findSecList secs page.page_number)
          page.content last).foldl blocksStep (some (.scan, [], []))) =
          some (secHeads (findSecList secs page.page_number) ++ P.flatten,
            page.content.tables) := by
        rw [hfoldFL]
        rfl
      rw [hFL] at h1
      rw [List.foldl_append, List.foldl_append] at h1
      rw [blocksfold_scan_blanks a ha [] []] at h1
      rw [blocksFinish_pad z hz] at h1
      exact h1
    have htne : intercalateChar '\n' M ≠ [] := by
      intro h0
      have hM1 : M = [[]] := by
        rw [← hsplitM, h0]
        rfl
      obtain ⟨w, hw, hwne⟩ := hnb
      rw [hFL] at hw
      rcases List.mem_append.mp hw with h1 | h1
      · rcases List.mem_append.mp h1 with h2 | h2
        · exact hwne (ha w h2)
        · rw [hM1] at h2
          exact hwne (by simpa using h2)
      · exact hwne (hz w h1)
    refine ⟨⟨String.intercalate "\n\n"
      ((((secHeads (findSecList secs page.page_number) ++
        P.flatten).filter fun b => b.block_type == "paragraph").map
          TextBlock.text)), [], [], page.content.tables,
      secHeads (findSecList secs page.page_number) ++ P.flatten⟩,
      ?_, ?_, ?_, ?_⟩
    · rw [hstripEq, parseEC_eq, hstripM]
      rw [show (intercalateChar '\n' M).isEmpty = false from by
        cases hJM : intercalateChar '\n' M with
        | nil => exact absurd hJM htne
        | cons x xs => rfl]
      simp only [Bool.false_eq_true, if_false]
      rw [hsplitM, hfinM]
    · show (((secHeads (findSecList secs page.page_number) ++
        P.flatten).filter fun b => b.block_type == "paragraph").map
          TextBlock.text) = paragraphTexts page.content
      rw [List.filter_append, secHeads_filter_para, List.nil_append]
      rw [filter_para_flatten (hsim.imp fun _ _ hgp => hgp.1)]
      rw [groupsAux_flatten]
      rfl
    · rfl
    · have hGne : ∀ g ∈ groupsAux [] page.content.reading_order_blocks,
          g ≠ [] := fun g hg =>
        groupsAux_mem_ne page.content.reading_order_blocks [] g hg
      have hPne : ∀ pg ∈ P, pg ≠ [] := by
        intro pg hpg
        obtain ⟨g, hgG, hgp⟩ := forall₂_right_mem hsim pg hpg
        exact forall₂_ne_nil hgp.1 (hGne g hgG)
      have hheadsShape : ∀ hbk ∈ secHeads (findSecList secs
          page.page_number), hbk.block_type = "heading" := by
        intro hbk hhbk
        obtain ⟨s, _, hbs⟩ := List.mem_map.mp hhbk
        rw [← hbs]
      have hrec := groupsAux_reconstruct
        (((secHeads (findSecList secs page.page_number)).map
          fun b => [b]) ++ P) ?_ ?_ ?_ ?_
      · have hflat : (((secHeads (findSecList secs page.page_number)).map
            fun b => [b]) ++ P).flatten =
            secHeads (findSecList secs page.page_number) ++ P.flatten := by
          rw [List.flatten_append, flatten_map_singleton]
        show listRuns (secHeads (findSecList secs page.page_number) ++
          P.flatten) = listRuns page.content.reading_order_blocks
        rw [show listRuns (secHeads (findSecList secs page.page_number) ++
          P.flatten) = (groupsAux []
            (secHeads (findSecList secs page.page_number) ++
              P.flatten)).filterMap runOf from rfl]
        rw [← hflat, hrec]
        rw [List.filterMap_append, runOf_heads _ hheadsShape,
          List.nil_append]
        rw [filterMap_gsim hsim hGne]
        rfl
      · intro pg hpg
        rcases List.mem_append.mp hpg with h1 | h1
        · obtain ⟨hbk, _, hbs⟩ := List.mem_map.mp h1
          rw [← hbs]
          simp
        · exact hPne pg h1
      · intro pg hpg hrg x hx
        rcases List.mem_append.mp hpg with h1 | h1
        · obtain ⟨hbk, hhbk, hbs⟩ := List.mem_map.mp h1
          rw [← hbs] at hrg
          rw [isRunG] at hrg
          exact absurd ((hheadsShape hbk hhbk).symm.trans hrg) (by decide)
        · obtain ⟨g, hgG, hgp⟩ := forall₂_right_mem hsim pg h1
          have hrg2 : isRunG g := (gsim_status hgp.1).mp hrg
          obtain ⟨bx, hbxg, httq⟩ := forall₂_right_mem hgp.1 x hx
          rw [httq.2]
          exact groupsAux_run_items page.content.reading_order_blocks []
            (by simp) g hgG bx hbxg hrg2
      · intro pg hpg hnrg
        rcases List.mem_append.mp hpg with h1 | h1
        · obtain ⟨hbk, hhbk, hbs⟩ := List.mem_map.mp h1
          refine ⟨hbk, hbs.symm, ?_⟩
          rw [hheadsShape hbk hhbk]
          decide
        · obtain ⟨g, hgG, hgp⟩ := forall₂_right_mem hsim pg h1
          have hnrg2 : ¬ isRunG g := fun hc =>
            hnrg ((gsim_status hgp.1).mpr hc)
          obtain ⟨y, hgy, hyn⟩ := groupsAux_nonrun_singleton
            page.content.reading_order_blocks [] (by simp) g hgG hnrg2
          have httq := hgp.1
          rw [hgy] at httq
          obtain ⟨py, hpgy, hrpy⟩ := forall₂_singleton httq
          refine ⟨py, hpgy, ?_⟩
          rw [hrpy.2]
          exact hyn
      · refine List.chain'_append.mpr ⟨?_, ?_, ?_⟩
        · refine chain_nonrun _ ?_
          intro x hx
          obtain ⟨hbk, hhbk, hbs⟩ := List.mem_map.mp hx
          rw [← hbs, isRunG]
          intro hc
          exact absurd ((hheadsShape hbk hhbk).symm.trans hc) (by decide)
        · exact chain_alt_transfer
            (hsim.imp fun _ _ hgp => gsim_status hgp.1)
            (groupsAux_alt page.content.reading_order_blocks [])
        · intro x hx y _
          have hxmem := getLast?_mem_of hx
          obtain ⟨hbk, hhbk, hbs⟩ := List.mem_map.mp hxmem
          intro hcon
          rw [← hbs, isRunG] at hcon
          exact absurd ((hheadsShape hbk hhbk).symm.trans hcon.1) (by decide)

theorem flattenList_append :
    ∀ (A B : List DocumentSection),
      flattenList (A ++ B) = flattenList A ++ flattenList B := by
  intro A
  induction A with
  | nil => intro B; rfl
  | cons s rest ih =>
    intro B
    rw [List.cons_append]
    rw [show flattenList (s :: (rest ++ B)) =
      flattenTree s ++ flattenList (rest ++ B) from rfl]
    rw [show flattenList (s :: rest) = flattenTree s ++ flattenList rest
      from rfl]
    rw [ih B, List.append_assoc]

theorem preorderTL_append (A B : List DocumentSection) :
    preorderTL (A ++ B) = preorderTL A ++ preorderTL B := by
  rw [preorderTL, preorderTL, preorderTL, flattenList_append, List.map_append]

/-- The (title, level) pairs contributed by one tree. -/
def flattenTL (s : DocumentSection) : List (String × Nat) :=
  (flattenTree s).map fun x => (x.title, x.level)

theorem preorderTL_singleton (s : DocumentSection) :
    preorderTL [s] = flattenTL s := by
  rw [preorderTL, flattenTL]
  rw [show flattenList [s] = flattenTree s ++ flattenList [] from rfl]
  simp [show flattenList [] = [] from rfl]

/-- The (title, level) pairs a stack frame will contribute once drained. -/
def framePre (f : BuildFrame) : List (String × Nat) :=
  (f.title, f.level) :: preorderTL f.children

/-- Contribution of the whole stack, bottom frame first. -/
def stackPre (stack : List BuildFrame) : List (String × Nat) :=
  stack.reverse.flatMap framePre

theorem stackPre_cons (g : BuildFrame) (rest : List BuildFrame) :
    stackPre (g :: rest) = stackPre rest ++ framePre g := by
  rw [stackPre, stackPre, List.reverse_cons, List.flatMap_append]
  simp

theorem flattenTL_finalize (f : BuildFrame) :
    flattenTL (MdHier.finalizeFrame f) = framePre f := by
  rfl

theorem framePre_push (g : BuildFrame) (child : DocumentSection) :
    framePre { g with children := g.children ++ [child] } =
      framePre g ++ flattenTL child := by
  rw [framePre, framePre]
  rw [show ({ g with children := g.children ++ [child] } :
    BuildFrame).children = g.children ++ [child] from rfl]
  rw [show ({ g with children := g.children ++ [child] } :
    BuildFrame).title = g.title from rfl]
  rw [show ({ g with children := g.children ++ [child] } :
    BuildFrame).level = g.level from rfl]
  rw [preorderTL_append, preorderTL_singleton]
  rfl

theorem framePre_pageEnd (g : BuildFrame) (x : Nat) :
    framePre { g with page_end := x } = framePre g := rfl

theorem attachDown_pre (level : Nat) :
    ∀ (stack : List BuildFrame) (child : DocumentSection)
      (roots : List DocumentSection),
      preorderTL (MdHier.attachDown level child stack roots).2 ++
        stackPre (MdHier.attachDown level child stack roots).1 =
        preorderTL roots ++ stackPre stack ++ flattenTL child := by
  intro stack
  induction stack with
  | nil =>
    intro child roots
    rw [show MdHier.attachDown level child [] roots =
      ([], roots ++ [child]) from rfl]
    rw [show stackPre [] = [] from rfl]
    rw [preorderTL_append, preorderTL_singleton]
    simp
  | cons g rest ih =>
    intro child roots
    simp only [MdHier.attachDown]
    by_cases hlev : level ≤ g.level
    · rw [if_pos hlev, ih]
      rw [flattenTL_finalize, framePre_push, stackPre_cons]
      simp [List.append_assoc]
    · rw [if_neg hlev]
      rw [stackPre_cons, stackPre_cons, framePre_push]
      simp [List.append_assoc]

theorem popGE_pre (level : Nat) (stack : List BuildFrame)
    (roots : List DocumentSection) :
    preorderTL (MdHier.popGE level stack roots).2 ++
      stackPre (MdHier.popGE level stack roots).1 =
      preorderTL roots ++ stackPre stack := by
  cases stack with
  | nil =>
    rw [show MdHier.popGE level [] roots = ([], roots) from rfl]
  | cons f rest =>
    simp only [MdHier.popGE]
    by_cases hlev : level ≤ f.level
    · rw [if_pos hlev, attachDown_pre]
      rw [flattenTL_finalize, stackPre_cons]
      simp [List.append_assoc]
    · rw [if_neg hlev]

theorem buildStep_pre (st : List BuildFrame × List DocumentSection)
    (s : DocumentSection) (hs : s.subsections = []) :
    preorderTL (MdHier.buildStep st s).2 ++
      stackPre (MdHier.buildStep st s).1 =
      preorderTL st.2 ++ stackPre st.1 ++ [(s.title, s.level)] := by
  obtain ⟨stack, roots⟩ := st
  have hmk : framePre (MdHier.mkFrame s) = [(s.title, s.level)] := by
    rw [framePre]
    rw [show (MdHier.mkFrame s).children = s.subsections from rfl, hs]
    rfl
  have hpop := popGE_pre s.level stack roots
  simp only [MdHier.buildStep]
  rcases hpq : MdHier.popGE s.level stack roots with ⟨stack', roots'⟩
  rw [hpq] at hpop
  cases stack' with
  | nil =>
    show preorderTL roots' ++ stackPre [MdHier.mkFrame s] = _
    rw [show stackPre [MdHier.mkFrame s] = framePre (MdHier.mkFrame s)
      from by rw [stackPre]; simp]
    rw [hmk]
    rw [show stackPre ([] : List BuildFrame) = [] from rfl] at hpop
    rw [List.append_nil] at hpop
    rw [show preorderTL (([], roots') :
      List BuildFrame × List DocumentSection).2 = preorderTL roots'
      from rfl] at hpop
    rw [hpop]
  | cons g rest =>
    show preorderTL roots' ++ stackPre (MdHier.mkFrame s ::
      (if g.page_end < s.page_end then { g with page_end := s.page_end }
        else g) :: rest) = _
    rw [stackPre_cons, stackPre_cons, hmk]
    rw [show framePre (if g.page_end < s.page_end then
        { g with page_end := s.page_end } else g) = framePre g from by
      by_cases hpe : g.page_end < s.page_end
      · rw [if_pos hpe, framePre_pageEnd]
      · rw [if_neg hpe]]
    rw [stackPre_cons] at hpop
    rw [← hpop]
    simp [List.append_assoc]

theorem buildfold_pre :
    ∀ (flat : List DocumentSection)
      (st : List BuildFrame × List DocumentSection),
      (∀ s ∈ flat, s.subsections = []) →
      preorderTL ((flat.foldl MdHier.buildStep st).2) ++
        stackPre ((flat.foldl MdHier.buildStep st).1) =
        preorderTL st.2 ++ stackPre st.1 ++
          flat.map (fun s => (s.title, s.level)) := by
  intro flat
  induction flat with
  | nil =>
    intro st _
    simp
  | cons s rest ih =>
    intro st hsub
    rw [List.foldl_cons]
    rw [ih (MdHier.buildStep st s)
      (fun x hx => hsub x (List.mem_cons_of_mem s hx))]
    rw [buildStep_pre st s (hsub s (List.mem_cons_self _ _))]
    simp [List.append_assoc]

theorem attachDown_zero :
    ∀ (stack : List BuildFrame) (child : DocumentSection)
      (roots : List DocumentSection),
      (MdHier.attachDown 0 child stack roots).1 = [] := by
  intro stack
  induction stack with
  | nil => intro child roots; rfl
  | cons g rest ih =>
    intro child roots
    simp only [MdHier.attachDown]
    rw [if_pos (Nat.zero_le _)]
    exact ih _ _

theorem popGE_zero (stack : List BuildFrame)
    (roots : List DocumentSection) :
    (MdHier.popGE 0 stack roots).1 = [] := by
  cases stack with
  | nil => rfl
  | cons f rest =>
    simp only [MdHier.popGE]
    rw [if_pos (Nat.zero_le _)]
    exact attachDown_zero _ _ _

theorem mdhier_preorder (flat : List DocumentSection)
    (hsub : ∀ s ∈ flat, s.subsections = []) :
    preorderTL (MdHier.buildSectionHierarchy flat) =
      flat.map (fun s => (s.title, s.level)) := by
  cases flat with
  | nil => rfl
  | cons s0 rest =>
    have hfold := buildfold_pre (s0 :: rest) ([], []) hsub
    have hpop := popGE_pre 0
      ((s0 :: rest).foldl MdHier.buildStep ([], [])).1
      ((s0 :: rest).foldl MdHier.buildStep ([], [])).2
    have hzero := popGE_zero
      ((s0 :: rest).foldl MdHier.buildStep ([], [])).1
      ((s0 :: rest).foldl MdHier.buildStep ([], [])).2
    have hres : MdHier.buildSectionHierarchy (s0 :: rest) =
        (MdHier.popGE 0 ((s0 :: rest).foldl MdHier.buildStep ([], [])).1
          ((s0 :: rest).foldl MdHier.buildStep ([], [])).2).2 := rfl
    rw [hres]
    rw [show preorderTL (([], []) :
        List BuildFrame × List DocumentSection).2 = [] from rfl,
      show stackPre (([], []) :
        List BuildFrame × List DocumentSection).1 = [] from rfl] at hfold
    rw [List.nil_append, List.nil_append] at hfold
    rw [hzero] at hpop
    rw [show stackPre [] = [] from rfl, List.append_nil] at hpop
    rw [hpop]
    exact hfold

mutual
theorem findSecTree_filter (s : DocumentSection) (n : Nat) :
    findSecTree s n = (flattenTree s).filter
      fun x => x.page_start == n := by
  match s with
  | .mk t l c ps pe subs =>
    rw [show findSecTree (.mk t l c ps pe subs) n =
      (if ps = n then [DocumentSection.mk t l c ps pe subs] else []) ++
        findSecList subs n from rfl]
    rw [show flattenTree (.mk t l c ps pe subs) =
      DocumentSection.mk t l c ps pe subs :: flattenList subs from rfl]
    rw [List.filter_cons]
    rw [findSecList_filter subs n]
    by_cases hps : ps = n
    · rw [if_pos hps]
      rw [show ((DocumentSection.mk t l c ps pe subs).page_start == n) =
        true from by simp [hps]]
      rfl
    · rw [if_neg hps]
      rw [show ((DocumentSection.mk t l c ps pe subs).page_start == n) =
        false from by simp [hps]]
      rfl

theorem findSecList_filter (secs : List DocumentSection) (n : Nat) :
    findSecList secs n = (flattenList secs).filter
      fun x => x.page_start == n := by
  match secs with
  | [] => rfl
  | s :: rest =>
    rw [show findSecList (s :: rest) n =
      findSecTree s n ++ findSecList rest n from rfl]
    rw [show flattenList (s :: rest) = flattenTree s ++ flattenList rest
      from rfl]
    rw [List.filter_append, findSecTree_filter s n,
      findSecList_filter rest n]
end

theorem dropWhile_head_not {α : Type} {p : α → Bool} :
    ∀ {l : List α} {y : α} {ys : List α},
      l.dropWhile p = y :: ys → p y = false := by
  intro l
  induction l with
  | nil =>
    intro y ys h
    cases h
  | cons a as ih =>
    intro y ys h
    rw [List.dropWhile_cons] at h
    by_cases hp : p a = true
    · rw [if_pos hp] at h
      exact ih h
    · rw [Bool.not_eq_true] at hp
      rw [hp] at h
      simp only [Bool.false_eq_true, if_false] at h
      rw [← (List.cons_eq_cons.mp h).1]
      exact hp

theorem flatMap_congr_mem {α β : Type} {f g : α → List β} :
    ∀ (l : List α), (∀ a ∈ l, f a = g a) → l.flatMap f = l.flatMap g := by
  intro l
  induction l with
  | nil => intro _; rfl
  | cons a as ih =>
    intro h
    rw [List.flatMap_cons, List.flatMap_cons, h a (List.mem_cons_self _ _),
      ih fun x hx => h x (List.mem_cons_of_mem a hx)]

theorem stable_partition {α : Type} (key : α → Nat) :
    ∀ (nums : List Nat) (l : List α),
      List.Pairwise (· < ·) nums →
      (∀ x ∈ l, key x ∈ nums) →
      List.Pairwise (· ≤ ·) (l.map key) →
      (nums.flatMap fun n => l.filter fun x => key x == n) = l := by
  intro nums
  induction nums with
  | nil =>
    intro l _ hmem _
    cases l with
    | nil => rfl
    | cons x xs => exact absurd (hmem x (List.mem_cons_self _ _)) (by simp)
  | cons n0 ns ih =>
    intro l hpw hmem hsorted
    have hgt : ∀ m ∈ ns, n0 < m := fun m hm =>
      (List.pairwise_cons.mp hpw).1 m hm
    have hBgt : ∀ x ∈ l.dropWhile (fun x => key x == n0), n0 < key x := by
      cases hdw : l.dropWhile (fun x => key x == n0) with
      | nil =>
        intro x hx
        cases hx
      | cons y ys =>
        have hy0 := dropWhile_head_not hdw
        have hymem : y ∈ l :=
          (List.dropWhile_sublist _).subset (hdw ▸ List.mem_cons_self _ _)
        have hygt : n0 < key y := by
          rcases List.mem_cons.mp (hmem y hymem) with h1 | h1
          · exfalso
            have h2 : (key y == n0) = true := by simp [h1]
            have hy0' : (key y == n0) = false := by simpa using hy0
            rw [h2] at hy0'
            cases hy0'
          · exact hgt _ h1
        have hpairB : List.Pairwise (· ≤ ·) ((y :: ys).map key) := by
          refine List.Pairwise.sublist ?_ hsorted
          rw [← hdw]
          exact (List.dropWhile_sublist _).map key
        intro x hx
        rcases List.mem_cons.mp hx with h1 | h1
        · rw [h1]
          exact hygt
        · have hle : key y ≤ key x := by
            have hp2 : List.Pairwise (· ≤ ·) (key y :: ys.map key) := by
              rw [List.map_cons] at hpairB
              exact hpairB
            exact (List.pairwise_cons.mp hp2).1 (key x)
              (List.mem_map.mpr ⟨x, h1, rfl⟩)
          exact lt_of_lt_of_le hygt hle
    have hfilA := fun (x : α)
        (hx : x ∈ l.takeWhile (fun x => key x == n0)) =>
      List.mem_takeWhile_imp hx
    have hAB : l.takeWhile (fun x => key x == n0) ++
        l.dropWhile (fun x => key x == n0) = l :=
      List.takeWhile_append_dropWhile _ _
    rw [List.flatMap_cons]
    have hfil0 : (l.filter fun x => key x == n0) =
        l.takeWhile (fun x => key x == n0) := by
      conv_lhs => rw [← hAB]
      rw [List.filter_append]
      rw [List.filter_eq_self.mpr hfilA]
      rw [List.filter_eq_nil_iff.mpr (by
        intro x hx
        have hx2 := hBgt x hx
        simp
        omega)]
      rw [List.append_nil]
    have hrest : (ns.flatMap fun n => l.filter fun x => key x == n) =
        ns.flatMap fun n =>
          (l.dropWhile fun x => key x == n0).filter
            fun x => key x == n := by
      refine flatMap_congr_mem ns ?_
      intro n hn
      conv_lhs => rw [← hAB]
      rw [List.filter_append]
      rw [List.filter_eq_nil_iff.mpr (by
        intro x hx
        have h1 := hfilA x hx
        have h2 := hgt n hn
        simp at h1 ⊢
        omega)]
      rw [List.nil_append]
    rw [hfil0, hrest]
    rw [ih (l.dropWhile fun x => key x == n0)
      (List.pairwise_cons.mp hpw).2
      (by
        intro x hx
        have h1 := hmem x ((List.dropWhile_sublist _).subset hx)
        rcases List.mem_cons.mp h1 with h2 | h2
        · have hx2 := hBgt x hx
          omega
        · exact h2)
      (List.Pairwise.sublist ((List.dropWhile_sublist _).map key)
        hsorted)]
    exact hAB

/-- The per-page conditions of the round-trip theorem. -/
def PageOK (secs : List DocumentSection) (p : PageContent) : Prop :=
  (∀ s ∈ findSecList secs p.page_number, safeTitle s.title = true ∧
    1 ≤ s.level ∧ s.level ≤ 6 ∧ s.content = "") ∧
  (∀ b ∈ p.content.reading_order_blocks, SafeBlock b) ∧
  (∀ t ∈ p.content.tables, safeTable t = true) ∧
  (p.content.reading_order_blocks = [] → p.content.body_text = "") ∧
  (∀ g ∈ groupsAux [] p.content.reading_order_blocks, firstMin g)

theorem pagefold_step (secs : List DocumentSection) (p : PageContent)
    (last : Bool) (accP : List PageContent) (accS : List DocumentSection)
    (hOK : PageOK secs p) :
    ∃ ec,
      pageFold (some (accP, accS))
        (p.page_number,
          chunkOf ((pageStuff secs p).map String.toList) last) =
        some (accP ++ [PageContent.mk p.page_number .native_text ec none],
          accS ++ (parseSectionsFromChunk
            (chunkOf ((pageStuff secs p).map String.toList) last)
            p.page_number).1) ∧
      paragraphTexts ec = paragraphTexts p.content ∧
      ec.tables = p.content.tables ∧
      listRuns ec.reading_order_blocks =
        listRuns p.content.reading_order_blocks := by
  obtain ⟨hsl, hb, ht, he, hrun⟩ := hOK
  obtain ⟨ec, hec, hpar, htab, hlr⟩ :=
    chunk_content secs p last hsl hb ht he hrun
  refine ⟨ec, ?_, hpar, htab, hlr⟩
  have hpf : pageFold (some (accP, accS))
      (p.page_number,
        chunkOf ((pageStuff secs p).map String.toList) last) =
      match parseExtractedContent (stripSectionMarkers
        (chunkOf ((pageStuff secs p).map String.toList) last)) with
      | none => none
      | some extracted =>
        some (accP ++ [PageContent.mk p.page_number .native_text
            extracted none],
          accS ++ (parseSectionsFromChunk
            (chunkOf ((pageStuff secs p).map String.toList) last)
            p.page_number).1) := rfl
  rw [hpf, hec]

theorem pagefold_build (secs : List DocumentSection) :
    ∀ (pages : List PageContent),
      (∀ p ∈ pages, PageOK secs p) →
      ∀ (accP : List PageContent) (accS : List DocumentSection),
      ∃ newP newS,
        (pagePairsAux secs pages).foldl pageFold (some (accP, accS)) =
          some (accP ++ newP, accS ++ newS) ∧
        newP.map PageContent.page_number =
          pages.map PageContent.page_number ∧
        (newP.map fun p => paragraphTexts p.content) =
          (pages.map fun p => paragraphTexts p.content) ∧
        (newP.map fun p => p.content.tables) =
          (pages.map fun p => p.content.tables) ∧
        (newP.map fun p => listRuns p.content.reading_order_blocks) =
          (pages.map fun p => listRuns p.content.reading_order_blocks) ∧
        newS.map (fun s => (s.title, s.level)) =
          pages.flatMap (fun p => (findSecList secs p.page_number).map
            (fun s => (s.title, s.level))) ∧
        (∀ s ∈ newS, s.subsections = []) := by
  intro pages
  induction pages with
  | nil =>
    intro _ accP accS
    exact ⟨[], [], by rw [show pagePairsAux secs [] = [] from rfl]; simp,
      rfl, rfl, rfl, rfl, by simp, by simp⟩
  | cons p rest ih =>
    intro hOK accP accS
    cases hr : rest with
    | nil =>
      obtain ⟨ec, hec, hpar, htab, hlr⟩ := pagefold_step secs p true
        accP accS (hOK p (List.mem_cons_self _ _))
      refine ⟨[PageContent.mk p.page_number .native_text ec none],
        (parseSectionsFromChunk
          (chunkOf ((pageStuff secs p).map String.toList) true)
          p.page_number).1, ?_, ?_, ?_, ?_, ?_, ?_, ?_⟩
      · rw [show pagePairsAux secs [p] = [(p.page_number,
          chunkOf ((pageStuff secs p).map String.toList) true)] from rfl]
        rw [List.foldl_cons, hec]
        rfl
      · rfl
      · simp [hpar]
      · simp [htab]
      · simp [hlr]
      · rw [chunk_sections secs p true
          (hOK p (List.mem_cons_self _ _)).1
          (hOK p (List.mem_cons_self _ _)).2.1
          (hOK p (List.mem_cons_self _ _)).2.2.1
          (hOK p (List.mem_cons_self _ _)).2.2.2.1
          (hOK p (List.mem_cons_self _ _)).2.2.2.2]
        simp
      · exact parseSections_subs _ _
    | cons q rest2 =>
      obtain ⟨ec, hec, hpar, htab, hlr⟩ := pagefold_step secs p false
        accP accS (hOK p (List.mem_cons_self _ _))
      obtain ⟨newP, newS, hfold, h1, h2, h3, h4, h5, h6⟩ :=
        ih (by
          rw [hr]
          intro x hx
          exact hOK x (List.mem_cons_of_mem p (hr ▸ hx)))
          (accP ++ [PageContent.mk p.page_number .native_text ec none])
          (accS ++ (parseSectionsFromChunk
            (chunkOf ((pageStuff secs p).map String.toList) false)
            p.page_number).1)
      rw [hr] at hfold h1 h2 h3 h4 h5
      refine ⟨PageContent.mk p.page_number .native_text ec none :: newP,
        (parseSectionsFromChunk
          (chunkOf ((pageStuff secs p).map String.toList) false)
          p.page_number).1 ++ newS, ?_, ?_, ?_, ?_, ?_, ?_, ?_⟩
      · rw [show pagePairsAux secs (p :: q :: rest2) =
          (p.page_number,
            chunkOf ((pageStuff secs p).map String.toList) false) ::
          pagePairsAux secs (q :: rest2) from rfl]
        rw [List.foldl_cons, hec, hfold]
        simp [List.append_assoc]
      · simp [h1]
      · simp [h2, hpar]
      · simp [h3, htab]
      · simp [h4, hlr]
      · rw [List.map_append, h5]
        rw [chunk_sections secs p false
          (hOK p (List.mem_cons_self _ _)).1
          (hOK p (List.mem_cons_self _ _)).2.1
          (hOK p (List.mem_cons_self _ _)).2.2.1
          (hOK p (List.mem_cons_self _ _)).2.2.2.1
          (hOK p (List.mem_cons_self _ _)).2.2.2.2]
        simp [List.flatMap_cons]
      · intro s hs
        rcases List.mem_append.mp hs with h7 | h7
        · exact parseSections_subs _ _ s h7
        · exact h6 s h7

theorem alnum_ne_lt {c : Char} (h : c.isAlphanum = true) : ¬ c = '<' := by
  intro he
  rw [he] at h
  exact absurd h (by decide)

theorem part_no_lt (c : ExtractedContent)
    (hOKg : ∀ g ∈ groupsAux [] c.reading_order_blocks, GroupOK g)
    (ht : ∀ t ∈ c.tables, safeTable t = true) :
    ∀ p ∈ flatRendered c, ∀ ch ∈ p.toList, ¬ ch = '<' := by
  intro p hp ch hch
  rw [← intercalateChar_splitOnChar '\n' p.toList] at hch
  rcases intercalateChar_mem '\n' _ ch hch with h | ⟨m, hm, hchm⟩
  · rw [h]; decide
  · rw [flatRendered_eq] at hp
    rcases List.mem_append.mp hp with h2 | h2
    · obtain ⟨g, hg, hgp⟩ := List.mem_map.mp h2
      refine (group_lines_facts g (hOKg g hg) m ?_).2.2 ch hchm
      rw [hgp]
      exact hm
    · obtain ⟨tt, htt, htp⟩ := List.mem_map.mp h2
      refine (table_lines_facts tt (ht tt htt) m ?_).2.2 ch hchm
      rw [htp]
      exact hm

theorem renderContent_no_lt (c : ExtractedContent)
    (hb : ∀ b ∈ c.reading_order_blocks, SafeBlock b)
    (ht : ∀ t ∈ c.tables, safeTable t = true)
    (he : c.reading_order_blocks = [] → c.body_text = "")
    (hOKg : ∀ g ∈ groupsAux [] c.reading_order_blocks, GroupOK g) :
    ∀ ch ∈ (renderContent c).toList, ¬ ch = '<' := by
  intro ch hch
  rw [renderContent_flat c hb ht he, intercalate_chars] at hch
  rcases sepJoin_mem _ _ ch hch with h | ⟨pl, hpl, hchp⟩
  · exact (by decide : ∀ x ∈ "\n\n".toList, ¬ x = '<') ch h
  · obtain ⟨p, hp, hppl⟩ := List.mem_map.mp hpl
    refine part_no_lt c hOKg ht p hp ch ?_
    rw [hppl]
    exact hchp

theorem pageStuff_ltSection (secs : List DocumentSection) (p : PageContent)
    (hOK : PageOK secs p) :
    ∀ str ∈ (pageStuff secs p).map String.toList, ltSection str := by
  obtain ⟨hsl, hb, ht, he, hrun⟩ := hOK
  have hOKg := groupOK_of_safe hb hrun
  intro str hstr
  obtain ⟨x, hx, hxs⟩ := List.mem_map.mp hstr
  rw [pageStuff_eq secs p (fun s hs => (hsl s hs).2.2.2)] at hx
  rcases List.mem_append.mp hx with h | h
  · obtain ⟨s, hs, hxin⟩ := List.mem_flatMap.mp h
    have hts := safeTitle_unpack (hsl s hs).1
    rcases List.mem_cons.mp hxin with h1 | h1
    · rw [← hxs, h1, marker_string_toList]
      exact ltSection_marker (fun ch hc => alnum_ne_lt (hts.2 ch hc))
    · rcases List.mem_cons.mp h1 with h2 | h2
      · rw [← hxs, h2, heading_string_toList]
        exact ltSection_of_no_lt _
          (headingChars_no_lt s.level s.title.toList hts.2)
      · cases h2
  · have hxr : x = renderContent p.content := by
      by_cases hrne : (renderContent p.content != "") = true
      · rw [if_pos hrne] at h
        simpa using h
      · rw [if_neg hrne] at h
        cases h
    rw [← hxs, hxr]
    exact ltSection_of_no_lt _ (renderContent_no_lt p.content hb ht he hOKg)

theorem pagePairs_ltSection (secs : List DocumentSection) :
    ∀ (pages : List PageContent), (∀ p ∈ pages, PageOK secs p) →
      ∀ pr ∈ pagePairsAux secs pages, ltSection pr.2 := by
  intro pages
  induction pages with
  | nil =>
    intro _ pr hpr
    cases hpr
  | cons p rest ih =>
    intro hOK pr hpr
    cases rest with
    | nil =>
      have hpr2 : pr = (p.page_number,
          chunkOf ((pageStuff secs p).map String.toList) true) := by
        rw [show pagePairsAux secs [p] = [(p.page_number,
          chunkOf ((pageStuff secs p).map String.toList) true)]
          from rfl] at hpr
        simpa using hpr
      rw [hpr2]
      exact ltSection_chunkOf _ _
        (pageStuff_ltSection secs p (hOK p (List.mem_cons_self _ _)))
    | cons q rest2 =>
      rw [show pagePairsAux secs (p :: q :: rest2) = (p.page_number,
        chunkOf ((pageStuff secs p).map String.toList) false) ::
          pagePairsAux secs (q :: rest2) from rfl] at hpr
      rcases List.mem_cons.mp hpr with h1 | h1
      · rw [h1]
        exact ltSection_chunkOf _ _
          (pageStuff_ltSection secs p (hOK p (List.mem_cons_self _ _)))
      · exact ih (fun x hx => hOK x (List.mem_cons_of_mem p hx)) pr h1

theorem pagePairsAux_shape (secs : List DocumentSection) (p : PageContent)
    (rest : List PageContent) :
    ∃ c ps, pagePairsAux secs (p :: rest) = (p.page_number, c) :: ps := by
  cases rest with
  | nil => exact ⟨_, [], rfl⟩
  | cons q r2 => exact ⟨_, _, rfl⟩

theorem segsChars_head (n : Nat) (c : List Char)
    (ps : List (Nat × List Char)) :
    ∃ srest, segsChars ((n, c) :: ps) = '<' :: srest := by
  refine ⟨("!-- page: ".toList ++ (natRepr n ++ " -->".toList)) ++
    (c ++ segsChars ps), ?_⟩
  rw [show segsChars ((n, c) :: ps) =
    (pageMarkerChars n ++ c) ++ segsChars ps from by
      simp [segsChars]]
  rw [show pageMarkerChars n =
    '<' :: ("!-- page: ".toList ++ (natRepr n ++ " -->".toList)) from by
      simp [pageMarkerChars]]
  simp [List.append_assoc]

theorem stripToc_toMarkdown (d : Document)
    (hp : d.pages ≠ [])
    (hOKall : ∀ p ∈ d.pages, PageOK d.sections p)
    (hti : ∀ s ∈ flattenList d.sections, safeTitle s.title = true) :
    stripToc (toMarkdown d).toList =
      segsChars (pagePairsAux d.sections d.pages) ∧
    ∃ rest, (toMarkdown d).toList = '<' :: rest := by
  have hlt : ltTagged (segsChars (pagePairsAux d.sections d.pages)) :=
    ltTagged_segsChars _ (pagePairs_ltSection d.sections d.pages hOKall)
  obtain ⟨p0, prest, hpp⟩ : ∃ p0 prest, d.pages = p0 :: prest := by
    cases hpp : d.pages with
    | nil => exact absurd hpp hp
    | cons p0 prest => exact ⟨p0, prest, rfl⟩
  obtain ⟨c0, ps0, hpair⟩ := pagePairsAux_shape d.sections p0 prest
  obtain ⟨srest, hsegs⟩ := segsChars_head p0.page_number c0 ps0
  have hsegshape : segsChars (pagePairsAux d.sections d.pages) =
      '<' :: srest := by
    rw [hpp, hpair, hsegs]
  have hchars := toMarkdown_chars d hp
  by_cases htoc : generateToc d.sections = ""
  · rw [if_pos htoc, List.nil_append] at hchars
    constructor
    · rw [hchars]
      exact stripToc_of_ltTagged _ hlt
    · exact ⟨srest, by rw [hchars, hsegshape]⟩
  · have hent : tocEntryList d.sections 0 ≠ [] := by
      intro h0
      refine htoc ?_
      rw [show generateToc d.sections =
        (if (tocEntryList d.sections 0).isEmpty then ""
          else String.intercalate "\n"
            (["<!-- toc -->"] ++
              (tocEntryList d.sections 0).map (fun e =>
                String.mk (List.replicate (2 * e.1) ' ') ++ "- [" ++
                  e.2.1 ++ "](#" ++ slugify e.2.1 ++ ") (p. " ++
                  String.mk (natRepr e.2.2.1) ++ "-" ++
                  String.mk (natRepr e.2.2.2) ++ ")") ++
              ["<!-- /toc -->"])) from rfl]
      rw [h0]
      rfl
    obtain ⟨A, htocchars, hAnolt⟩ := generateToc_chars d.sections hent hti
    rw [if_neg htoc] at hchars
    have hshape : (toMarkdown d).toList =
        "<!-- toc -->".toList ++ A ++ "<!-- /toc -->".toList ++
          (['\n', '\n'] ++ segsChars (pagePairsAux d.sections d.pages)) := by
      rw [hchars, htocchars]
      simp [List.append_assoc]
    have hdrop : (['\n', '\n'] ++
        segsChars (pagePairsAux d.sections d.pages)).dropWhile isPySpace =
        segsChars (pagePairsAux d.sections d.pages) := by
      rw [dropWhile_append_all ['\n', '\n'] _ (by decide)]
      rw [hsegshape]
      exact dropWhile_head_false _ _ (by decide)
    constructor
    · rw [stripToc, hshape]
      rw [stripTocF_step _ A _ hAnolt (by rw [hdrop]; exact hlt)]
      exact hdrop
    · refine ⟨"!-- toc -->".toList ++ A ++ "<!-- /toc -->".toList ++
        (['\n', '\n'] ++ segsChars (pagePairsAux d.sections d.pages)), ?_⟩
      rw [hshape]
      rfl

theorem pyStrip_md_false (d : Document)
    (hhead : ∃ rest, (toMarkdown d).toList = '<' :: rest) :
    (pyStrip (toMarkdown d) == "") = false := by
  obtain ⟨rest, hr⟩ := hhead
  have hdw : (toMarkdown d).toList.dropWhile isPySpace = '<' :: rest := by
    rw [hr]
    exact dropWhile_head_false _ _ (by decide)
  obtain ⟨X', hX⟩ := pyStrip_head hdw (by decide)
  have hne : pyStrip (toMarkdown d) ≠ "" := by
    intro h0
    have h1 := congrArg String.toList h0
    rw [show (pyStrip (toMarkdown d)).toList =
      pyStripList (toMarkdown d).toList from rfl, hX] at h1
    cases h1
  exact beq_eq_false_iff_ne.mpr hne

end MarkdownConverter

open MarkdownConverter in
/-- The document class of the amended round-trip claim: at least one page,
pages numbered consecutively from 1; every reading-order block a safe
paragraph or a safe list item at a canonical x-position, with each
maximal run of list items starting at its minimum offset and body text
derived from the blocks; safe tables; and a section tree of alphanumeric
titles with levels 1-6, empty stored content, single-page extents inside
the document, listed in pre-order by non-decreasing start page. -/
def SafeDoc (d : Document) : Prop :=
  d.pages ≠ [] ∧
  d.pages.map PageContent.page_number = List.range' 1 d.pages.length ∧
  (∀ p ∈ d.pages,
    (∀ b ∈ p.content.reading_order_blocks, SafeBlock b) ∧
    (∀ t ∈ p.content.tables, safeTable t = true) ∧
    (p.content.reading_order_blocks = [] → p.content.body_text = "") ∧
    (∀ g ∈ groupsAux [] p.content.reading_order_blocks, firstMin g)) ∧
  (∀ s ∈ flattenList d.sections,
    safeTitle s.title = true ∧ 1 ≤ s.level ∧ s.level ≤ 6 ∧
    s.content = "" ∧ 1 ≤ s.page_start ∧ s.page_start ≤ d.pages.length) ∧
  List.Pairwise (· ≤ ·)
    ((flattenList d.sections).map DocumentSection.page_start)

namespace MarkdownConverter

theorem safeDoc_pageOK (d : Document) (h : SafeDoc d) :
    ∀ p ∈ d.pages, PageOK d.sections p := by
  obtain ⟨_, _, hpg, hsec, _⟩ := h
  intro p hp
  refine ⟨?_, (hpg p hp).1, (hpg p hp).2.1, (hpg p hp).2.2.1,
    (hpg p hp).2.2.2⟩
  intro s hs
  have hs2 : s ∈ flattenList d.sections := by
    rw [findSecList_filter] at hs
    exact List.mem_of_mem_filter hs
  exact ⟨(hsec s hs2).1, (hsec s hs2).2.1, (hsec s hs2).2.2.1,
    (hsec s hs2).2.2.2.1⟩

end MarkdownConverter

open MarkdownConverter in
/-- **C1** (amended): for every `SafeDoc` document, `from_markdown` of
`to_markdown` succeeds, and the result has the same page numbers in the
same order, the same pre-order list of section (title, level) pairs, the
same per-page paragraph texts, the same per-page tables, and the same
per-page list runs (item texts with their x-offsets above each run's
minimum).  The original claim's class is narrowed: paragraph and item
texts must also not be mistakable for other markdown constructs (no
blank/indented lines, no table/list/heading-shaped lines, no `<`), each
list run must start at its minimum offset, section content must be
empty with single-page extents in pre-order page order, and body text
must be derived from the blocks — `c1_counterexample` shows the claim is
false without such restrictions. -/
theorem c1_roundtrip_amended (d : Document) (h : SafeDoc d) :
    ∃ d', MarkdownConverter.fromMarkdown (MarkdownConverter.toMarkdown d) =
        some d' ∧
      d'.pages.map PageContent.page_number =
        d.pages.map PageContent.page_number ∧
      preorderTL d'.sections = preorderTL d.sections ∧
      docParagraphTexts d' = docParagraphTexts d ∧
      (d'.pages.map fun p => p.content.tables) =
        (d.pages.map fun p => p.content.tables) ∧
      (d'.pages.map fun p => listRuns p.content.reading_order_blocks) =
        (d.pages.map fun p => listRuns p.content.reading_order_blocks) := by
  obtain ⟨hpne, hnum, hpg, hsec, hsorted⟩ := h
  have hOKall : ∀ p ∈ d.pages, PageOK d.sections p :=
    safeDoc_pageOK d ⟨hpne, hnum, hpg, hsec, hsorted⟩
  obtain ⟨hstripT, hhead⟩ := stripToc_toMarkdown d hpne hOKall
    (fun s hs => (hsec s hs).1)
  obtain ⟨p0, prest, hpp⟩ : ∃ p0 prest, d.pages = p0 :: prest := by
    cases hpp : d.pages with
    | nil => exact absurd hpp hpne
    | cons p0 prest => exact ⟨p0, prest, rfl⟩
  obtain ⟨c0, ps0, hpair⟩ := pagePairsAux_shape d.sections p0 prest
  have hltpairs := pagePairs_ltSection d.sections d.pages hOKall
  have hsplit : splitByPages (stripToc (toMarkdown d).toList) =
      pagePairsAux d.sections d.pages := by
    rw [hstripT, hpp, hpair]
    rw [splitByPages_render p0.page_number c0 ps0
      (by
        refine hltpairs (p0.page_number, c0) ?_
        rw [hpp, hpair]
        exact List.mem_cons_self _ _)
      (by
        intro pr hpr
        refine hltpairs pr ?_
        rw [hpp, hpair]
        exact List.mem_cons_of_mem _ hpr)]
  obtain ⟨newP, newS, hfold, h1, h2, h3, h4, h5, h6⟩ :=
    pagefold_build d.sections d.pages hOKall [] []
  simp only [List.nil_append] at hfold
  have hfm : fromMarkdown (toMarkdown d) =
      some ⟨MdHier.buildSectionHierarchy newS, newP⟩ := by
    rw [show fromMarkdown (toMarkdown d) =
      (if (pyStrip (toMarkdown d) == "") = true then
        some ⟨[], []⟩
       else match (splitByPages (stripToc
          (toMarkdown d).toList)).foldl pageFold (some ([], [])) with
        | none => none
        | some (pages, allSecs) =>
          some ⟨MdHier.buildSectionHierarchy allSecs, pages⟩) from rfl]
    rw [pyStrip_md_false d hhead]
    simp only [Bool.false_eq_true, if_false]
    rw [hsplit, hfold]
  refine ⟨⟨MdHier.buildSectionHierarchy newS, newP⟩, hfm, h1, ?_, h2, h3, h4⟩
  show preorderTL (MdHier.buildSectionHierarchy newS) =
    preorderTL d.sections
  rw [mdhier_preorder newS h6, h5]
  have hkey := stable_partition DocumentSection.page_start
    (List.range' 1 d.pages.length) (flattenList d.sections)
    (List.pairwise_lt_range' 1 d.pages.length)
    (by
      intro x hx
      refine List.mem_range'.mpr ⟨x.page_start - 1, ?_, ?_⟩
      · have h1 := (hsec x hx).2.2.2.2.1
        have h2 := (hsec x hx).2.2.2.2.2
        omega
      · have h1 := (hsec x hx).2.2.2.2.1
        have h2 := (hsec x hx).2.2.2.2.2
        omega)
    hsorted
  rw [flatMap_congr_mem d.pages (fun p _ => by
    rw [findSecList_filter])]
  rw [show d.pages.flatMap (fun p => ((flattenList d.sections).filter
      (fun x => x.page_start == p.page_number)).map
        (fun s => (s.title, s.level))) =
    (d.pages.map PageContent.page_number).flatMap
      (fun n => ((flattenList d.sections).filter
        (fun x => x.page_start == n)).map
          (fun s => (s.title, s.level))) from
    (List.flatMap_map PageContent.page_number
      (fun n => ((flattenList d.sections).filter
        (fun x => x.page_start == n)).map
          (fun s => (s.title, s.level))) d.pages).symm]
  rw [hnum]
  rw [show (List.range' 1 d.pages.length).flatMap
      (fun n => ((flattenList d.sections).filter
        (fun x => x.page_start == n)).map
          (fun s => (s.title, s.level))) =
    ((List.range' 1 d.pages.length).flatMap
      (fun n => (flattenList d.sections).filter
        (fun x => x.page_start == n))).map
          (fun s => (s.title, s.level)) from
    (List.map_flatMap (fun s => (s.title, s.level))
      (fun n => (flattenList d.sections).filter
        (fun x => x.page_start == n))
      (List.range' 1 d.pages.length)).symm]
  rw [hkey]
  rfl

/-- The witness document: one section, one page holding a paragraph and a
table. -/
def c1wdoc : Document :=
  ⟨[DocumentSection.mk "Intro" 1 "" 1 1 []],
    [⟨1, .native_text,
      ⟨"hello", [], [], [Table.mk [["A"], ["x"]]],
        [⟨"hello", ⟨0, 0, 0, 0⟩, "paragraph"⟩]⟩, none⟩]⟩

open MarkdownConverter in
theorem c1wdoc_safe : SafeDoc c1wdoc := by
  refine ⟨by simp [c1wdoc], rfl, ?_, ?_, ?_⟩
  · intro p hp
    have hp2 : p = ⟨1, .native_text,
        ⟨"hello", [], [], [Table.mk [["A"], ["x"]]],
          [⟨"hello", ⟨0, 0, 0, 0⟩, "paragraph"⟩]⟩, none⟩ := by
      simpa [c1wdoc] using hp
    subst hp2
    refine ⟨?_, ?_, ?_, ?_⟩
    · intro b hb
      have hb2 : b = ⟨"hello", ⟨0, 0, 0, 0⟩, "paragraph"⟩ := by
        simpa using hb
      subst hb2
      exact Or.inl ⟨rfl, by decide⟩
    · intro t ht
      have ht2 : t = Table.mk [["A"], ["x"]] := by
        simpa using ht
      subst ht2
      decide
    · intro h0
      simp at h0
    · intro g hg
      have hg2 : g = [⟨"hello", ⟨0, 0, 0, 0⟩, "paragraph"⟩] := by
        have hgr : groupsAux []
            [(⟨"hello", ⟨0, 0, 0, 0⟩, "paragraph"⟩ : TextBlock)] =
            [[⟨"hello", ⟨0, 0, 0, 0⟩, "paragraph"⟩]] := rfl
        rw [hgr] at hg
        simpa using hg
      subst hg2
      intro b1 hb1 b hb
      have hb12 : b1 = ⟨"hello", ⟨0, 0, 0, 0⟩, "paragraph"⟩ := by
        rw [List.head?_cons] at hb1
        exact (Option.some.inj hb1).symm
      have hb2 : b = ⟨"hello", ⟨0, 0, 0, 0⟩, "paragraph"⟩ := by
        simpa using hb
      rw [hb12, hb2]
  · intro s hs
    have hs2 : s = DocumentSection.mk "Intro" 1 "" 1 1 [] := by
      rw [show flattenList c1wdoc.sections =
        [DocumentSection.mk "Intro" 1 "" 1 1 []] from rfl] at hs
      simpa using hs
    subst hs2
    exact ⟨by decide, by decide, by decide, rfl, by decide, by simp [c1wdoc]⟩
  · rw [show (flattenList c1wdoc.sections).map
      DocumentSection.page_start = [1] from rfl]
    simp

open MarkdownConverter in
/-- Closed witness applying the amended C1 theorem to `c1wdoc`. -/
theorem c1_roundtrip_amended_witness :
    SafeDoc c1wdoc ∧
    ∃ d', MarkdownConverter.fromMarkdown (MarkdownConverter.toMarkdown
        c1wdoc) = some d' ∧
      d'.pages.map PageContent.page_number =
        c1wdoc.pages.map PageContent.page_number ∧
      preorderTL d'.sections = preorderTL c1wdoc.sections ∧
      docParagraphTexts d' = docParagraphTexts c1wdoc ∧
      (d'.pages.map fun p => p.content.tables) =
        (c1wdoc.pages.map fun p => p.content.tables) ∧
      (d'.pages.map fun p => listRuns p.content.reading_order_blocks) =
        (c1wdoc.pages.map fun p => listRuns p.content.reading_order_blocks) :=
  ⟨c1wdoc_safe, c1_roundtrip_amended c1wdoc c1wdoc_safe⟩
